import Mathlib

/-!
Frequency-domain filter construction (`isce3::signal::Filter`).

A shallow embedding of `cxx/isce3/signal/Filter.cpp`.

* `double` is modelled by an arbitrary linearly ordered field `K` with a floor
  function (exact arithmetic); the rationals give an executable instance.
* `std::valarray<X>` is modelled by `List X`.  An element access past the end of
  a sequence is undefined behaviour in C++; every operation that writes
  therefore returns an `Option`, with `none` standing for such an access.
* `int` values are modelled by `Int`, `size_t` values by `Nat`.  The conversion
  of an `int` to `size_t` (loop counters of the boxcar builder) is the explicit
  reduction modulo `2 ^ 64`.  Sequence lengths are taken to fit an `int`, as
  they do in the callers (`int fft_size = ncols`).
* `std::complex<T>` is modelled by a pair of field elements with the textbook
  quotient.
* The library functions `std::cos` and the constant `M_PI` are parameters of the
  builders that use them.
-/

namespace isce3.signal

/-! ## Data model -/

/-- Value of type `std::complex<T>`: real and imaginary part. -/
structure Cplx (K : Type) where
  re : K
  im : K
deriving DecidableEq, Repr

variable {K : Type} [LinearOrderedField K]

/-- Quotient of two complex numbers, `operator/` of `std::complex`. -/
def Cplx.div (z w : Cplx K) : Cplx K :=
  ⟨(z.re * w.re + z.im * w.im) / (w.re * w.re + w.im * w.im),
   (z.im * w.re - z.re * w.im) / (w.re * w.re + w.im * w.im)⟩

/-- Product of two complex numbers, `operator*` of `std::complex`. -/
def Cplx.mul (z w : Cplx K) : Cplx K :=
  ⟨z.re * w.re - z.im * w.im, z.re * w.im + z.im * w.re⟩

/-- Conversion of an `int` to `size_t` (64 bit): a negative value wraps around
to `2 ^ 64 + i`, a non-negative one is kept. -/
def toSizeT (i : Int) : Nat := if i < 0 then (2 ^ 64 + i).toNat else i.toNat

/-- Assignment `a[i] = v` for a `size_t` index; `none` when `i` is past the end. -/
def writeAt {α : Type} (a : List α) (i : Nat) (v : α) : Option (List α) :=
  if i < a.length then some (a.set i v) else none

/-- Loop `for (int i = lo; i < hi; ++i) body` over a state that may fault. -/
def forInt {σ : Type} (lo hi : Int) (body : Int → σ → Option σ) (s : σ) : Option σ :=
  (List.range (hi - lo).toNat).foldlM (fun st (t : Nat) => body (lo + (t : Int)) st) s

/-- Loop `for (size_t i = lo; i < hi; ++i) body` over a state that may fault. -/
def forSize {σ : Type} (lo hi : Nat) (body : Nat → σ → Option σ) (s : σ) : Option σ :=
  (List.range (hi - lo)).foldlM (fun st (t : Nat) => body (lo + t) st) s

/-- C library `round`: nearest integer, halfway cases away from zero. -/
def cround [FloorRing K] (x : K) : Int :=
  if 0 ≤ x then ⌊x + 1 / 2⌋ else ⌈x - 1 / 2⌉

/-! ## Frequency axis and index lookup -/

/-- Function `fftfreq(dt, freq)`: fills the sequence `freq` in place with the
discrete frequencies of its length `N`. -/
def fftfreq (dt : K) (freq : List K) : Option (List K) :=
  let N : Int := freq.length
  let scale : K := 1 / ((N : K) * dt)
  let N_mid : Int := Int.tdiv (N - 1) 2 + 1
  (forInt 0 N_mid (fun i fr => writeAt fr (toSizeT i) (scale * (i : K))) freq).bind
    fun fr1 =>
      (forInt (Int.tdiv (-N) 2) 0
        (fun i (st : List K × Int) =>
          (writeAt st.1 (toSizeT st.2) (scale * (i : K))).map fun fr => (fr, st.2 + 1))
        (fr1, N_mid)).map Prod.fst

/-- Method `Filter<T>::indexOfFrequency(dt, N, f, n)`: the value stored in `n`. -/
def indexOfFrequency [FloorRing K] (dt : K) (N : Int) (f : K) : Int :=
  let df : K := 1 / (dt * (N : K))
  if f < 0 then cround (f / df + (N : K)) else cround (f / df)

/-! ## Window shape builders -/

/-- One pass of the band loop of `constructRangeBandpassBoxcar`: the band with
centre `center` and width `bandwidth` is switched on in `filter1D`. -/
def boxcarBand [FloorRing K] (dt : K) (fft_size : Int) (center bandwidth : K)
    (filter1D : List (Cplx K)) : Option (List (Cplx K)) :=
  let fL : K := center - bandwidth / 2
  let fH : K := center + bandwidth / 2
  let indL : Int := indexOfFrequency dt fft_size fL
  let indH : Int := indexOfFrequency dt fft_size fH
  if fL < 0 ∧ fH ≥ 0 then
    (forSize (toSizeT indL) (toSizeT fft_size) (fun ind m => writeAt m ind ⟨1.0, 0.0⟩)
      filter1D).bind
      (forSize 0 (toSizeT indH) (fun ind m => writeAt m ind ⟨1.0, 0.0⟩))
  else
    forSize (toSizeT indL) (toSizeT indH) (fun ind m => writeAt m ind ⟨1.0, 0.0⟩) filter1D

/-- Method `Filter<T>::constructRangeBandpassBoxcar`: the contents of `_filter1D`
on return.  Reading `subBandBandwidths[i]` past its end faults. -/
def constructRangeBandpassBoxcar [FloorRing K] (subBandCenterFrequencies subBandBandwidths : List K)
    (dt : K) (fft_size : Int) (filter1D : List (Cplx K)) : Option (List (Cplx K)) :=
  forSize 0 subBandCenterFrequencies.length
    (fun i m =>
      match subBandCenterFrequencies[i]?, subBandBandwidths[i]? with
      | some c, some b => boxcarBand dt fft_size c b m
      | _, _ => none)
    filter1D

/-- Transition-region gain of the raised-cosine builders,
`norm * 0.5 * (1.0 + cos(M_PI / (bandwidth*beta) * (freq - 0.5 * (1.0 - beta) * bandwidth)))`. -/
def raisedCosine (pi : K) (cos : K → K) (norm bandwidth beta freq : K) : K :=
  norm * 0.5 * (1.0 + cos (pi / (bandwidth * beta) * (freq - 0.5 * (1.0 - beta) * bandwidth)))

/-- One pass of the band loop of `constructRangeBandpassCosine`: the inner loop
over the frequency bins for the band `(fmid, bandwidth)`. -/
def cosineBand (pi : K) (cos : K → K) (fmid bandwidth beta : K) (frequency : List K)
    (filter1D : List (Cplx K)) : Option (List (Cplx K)) :=
  let norm : K := 1.0
  let df : K := 0.5 * bandwidth * beta
  forSize 0 frequency.length
    (fun i m =>
      match frequency[i]? with
      | none => none
      | some fi =>
        let freq : K := |fi - fmid|
        if freq ≤ 0.5 * bandwidth - df then
          writeAt m i ⟨norm, 0.0⟩
        else if freq > 0.5 * bandwidth - df ∧ freq ≤ 0.5 * bandwidth + df then
          writeAt m i ⟨raisedCosine pi cos norm bandwidth beta freq, 0.0⟩
        else some m)
    filter1D

/-- Method `Filter<T>::constructRangeBandpassCosine`: the contents of `_filter1D`
on return (the unnamed `double` argument is not used). -/
def constructRangeBandpassCosine (pi : K) (cos : K → K)
    (subBandCenterFrequencies subBandBandwidths : List K) (frequency : List K) (beta : K)
    (filter1D : List (Cplx K)) : Option (List (Cplx K)) :=
  forSize 0 subBandCenterFrequencies.length
    (fun i m =>
      match subBandCenterFrequencies[i]?, subBandBandwidths[i]? with
      | some fmid, some bandwidth => cosineBand pi cos fmid bandwidth beta frequency m
      | _, _ => none)
    filter1D

/-! ## Filter builders -/

/-- First half of `constructRangeBandpassFilter` (up to the shape dispatch): the
one-dimensional mask `_filter1D`.  An unknown `filterType` only prints a
message and leaves the mask at zero. -/
def rangeFilter1D [FloorRing K] (pi : K) (cos : K → K) (rangeSamplingFrequency : K)
    (subBandCenterFrequencies subBandBandwidths : List K) (ncols : Nat)
    (filterType : String) : Option (List (Cplx K)) :=
  let fft_size : Int := ncols
  let filter1D : List (Cplx K) := List.replicate (toSizeT fft_size) ⟨0.0, 0.0⟩
  let frequency : List K := List.replicate (toSizeT fft_size) 0
  let dt : K := 1.0 / rangeSamplingFrequency
  (fftfreq dt frequency).bind fun frequency =>
    if filterType = "boxcar" then
      constructRangeBandpassBoxcar subBandCenterFrequencies subBandBandwidths dt fft_size filter1D
    else if filterType = "cosine" then
      let beta : K := 0.25
      constructRangeBandpassCosine pi cos subBandCenterFrequencies subBandBandwidths frequency
        beta filter1D
    else some filter1D

/-- Normalisation constant of the range builder,
`const std::complex<T> norm(fft_size, fft_size)`. -/
def rangeNorm (fft_size : Int) : Cplx K := ⟨(fft_size : K), (fft_size : K)⟩

/-- Second half of `constructRangeBandpassFilter`: the block
`_filter[line*fft_size+col] = _filter1D[col] / norm`, written into the resized
`_filter`. -/
def rangeFilterBlock (filter1D : List (Cplx K)) (ncols nrows : Nat) : Option (List (Cplx K)) :=
  let fft_size : Int := ncols
  let filter : List (Cplx K) := List.replicate (toSizeT fft_size * nrows) ⟨0, 0⟩
  let norm : Cplx K := rangeNorm fft_size
  forSize 0 nrows
    (fun line flt =>
      forSize 0 (toSizeT fft_size)
        (fun col flt =>
          match filter1D[col]? with
          | some v => writeAt flt (line * toSizeT fft_size + col) (v.div norm)
          | none => none)
        flt)
    filter

/-- Method `Filter<T>::constructRangeBandpassFilter` (the overload without signal
arguments): the contents of the owned mask `_filter` on return. -/
def constructRangeBandpassFilter [FloorRing K] (pi : K) (cos : K → K) (rangeSamplingFrequency : K)
    (subBandCenterFrequencies subBandBandwidths : List K) (ncols nrows : Nat)
    (filterType : String) : Option (List (Cplx K)) :=
  (rangeFilter1D pi cos rangeSamplingFrequency subBandCenterFrequencies subBandBandwidths ncols
    filterType).bind fun filter1D => rangeFilterBlock filter1D ncols nrows

/-- Normalisation constant of the azimuth builder,
`const std::complex<T> filtNorm(fft_size, fft_size)`. -/
def azimuthNorm (fft_size : Int) : Cplx K := ⟨(fft_size : K), (fft_size : K)⟩

/-- Method `Filter<T>::constructAzimuthCommonbandFilter`: the contents of the
owned mask `_filter` after the normalisation loop.  The Doppler look-up tables
enter through their evaluation functions `refDoppler.eval`, `secDoppler.eval`. -/
def constructAzimuthCommonbandFilter (pi : K) (cos : K → K) (refDoppler secDoppler : K → K)
    (bandwidth prf beta : K) (ncols nrows : Nat) : Option (List (Cplx K)) :=
  let filter : List (Cplx K) := List.replicate (ncols * nrows) ⟨0, 0⟩
  let df : K := 0.5 * bandwidth * beta
  let norm : K := 1.0
  let fft_size : Int := nrows
  let frequency : List K := List.replicate (toSizeT fft_size) 0
  (fftfreq (1.0 / prf) frequency).bind fun frequency =>
    (forSize 0 ncols
      (fun j flt =>
        let fmid : K := 0.5 * (refDoppler (j : K) + secDoppler (j : K))
        forSize 0 frequency.length
          (fun i flt =>
            match frequency[i]? with
            | none => none
            | some fi =>
              let freq : K := |fi - fmid|
              if freq ≤ 0.5 * bandwidth - df then
                writeAt flt (i * ncols + j) ⟨norm, 0.0⟩
              else if freq > 0.5 * bandwidth - df ∧ freq ≤ 0.5 * bandwidth + df then
                writeAt flt (i * ncols + j) ⟨raisedCosine pi cos norm bandwidth beta freq, 0.0⟩
              else
                writeAt flt (i * ncols + j) ⟨0.0, 0.0⟩)
          flt)
      filter).bind fun filter =>
      let filtNorm : Cplx K := azimuthNorm fft_size
      forSize 0 ncols
        (fun j flt =>
          forSize 0 frequency.length
            (fun i flt =>
              match flt[i * ncols + j]? with
              | some v => writeAt flt (i * ncols + j) (v.div filtNorm)
              | none => none)
            flt)
        filter

/-! ## Filter engine -/

/-- Method `Filter<T>::filter(signal, spectrum)`: the contents of `signal` on
return.  The functions `forward` and `inverse` stand for the two-dimensional
transforms `_signal.forward` and `_signal.inverse` of the `Signal` collaborator;
the element-wise product `spectrum * _filter` of sequences of different sizes is
undefined. -/
def filter (forward inverse : List (Cplx K) → List (Cplx K)) (_filter signal : List (Cplx K)) :
    Option (List (Cplx K)) :=
  let spectrum : List (Cplx K) := forward signal
  if spectrum.length = _filter.length then
    some (inverse (List.zipWith Cplx.mul spectrum _filter))
  else none

/-- Method `Filter<T>::initiateRangeFilter`: the contents of `signal` and
`spectrum` on return.  A call `_signal.forwardRangeFFT(signal, spectrum, ncols,
nrows)` of the `Signal` collaborator is a function of its arguments returning the
new contents of its two reference arguments, in the order of the call; likewise
`_signal.inverseRangeFFT(spectrum, signal, ncols, nrows)`. -/
def initiateRangeFilter
    (forwardRangeFFT inverseRangeFFT :
      List (Cplx K) → List (Cplx K) → Nat → Nat → List (Cplx K) × List (Cplx K))
    (signal spectrum : List (Cplx K)) (ncols nrows : Nat) : List (Cplx K) × List (Cplx K) :=
  let r1 := forwardRangeFFT signal spectrum ncols nrows
  let r2 := inverseRangeFFT r1.2 r1.1 ncols nrows
  (r2.2, r2.1)

/-- Method `Filter<T>::initiateAzimuthFilter`: the contents of `signal` and
`spectrum` on return, with the azimuth transforms of the collaborator. -/
def initiateAzimuthFilter
    (forwardAzimuthFFT inverseAzimuthFFT :
      List (Cplx K) → List (Cplx K) → Nat → Nat → List (Cplx K) × List (Cplx K))
    (signal spectrum : List (Cplx K)) (ncols nrows : Nat) : List (Cplx K) × List (Cplx K) :=
  let r1 := forwardAzimuthFFT signal spectrum ncols nrows
  let r2 := inverseAzimuthFFT r1.2 r1.1 ncols nrows
  (r2.2, r2.1)

/-- Method `Filter<T>::constructRangeBandpassFilter`, the overload with `signal`
and `spectrum` arguments: it builds the mask with the other overload and then
calls the two range transforms.  The result is `signal`, `spectrum` and the owned
mask `_filter` on return. -/
def constructRangeBandpassFilterSignal [FloorRing K] (pi : K) (cos : K → K)
    (forwardRangeFFT inverseRangeFFT :
      List (Cplx K) → List (Cplx K) → Nat → Nat → List (Cplx K) × List (Cplx K))
    (rangeSamplingFrequency : K) (subBandCenterFrequencies subBandBandwidths : List K)
    (signal spectrum : List (Cplx K)) (ncols nrows : Nat) (filterType : String) :
    Option (List (Cplx K) × List (Cplx K) × List (Cplx K)) :=
  (constructRangeBandpassFilter pi cos rangeSamplingFrequency subBandCenterFrequencies
    subBandBandwidths ncols nrows filterType).map fun _filter =>
    let r1 := forwardRangeFFT signal spectrum ncols nrows
    let r2 := inverseRangeFFT r1.2 r1.1 ncols nrows
    (r2.2, r2.1, _filter)

/-- Method `Filter<T>::constructAzimuthCommonbandFilter` with its two closing
transform calls: `signal`, `spectrum` and the owned mask `_filter` on return. -/
def constructAzimuthCommonbandFilterSignal (pi : K) (cos : K → K)
    (forwardAzimuthFFT inverseAzimuthFFT :
      List (Cplx K) → List (Cplx K) → Nat → Nat → List (Cplx K) × List (Cplx K))
    (refDoppler secDoppler : K → K) (bandwidth prf beta : K)
    (signal spectrum : List (Cplx K)) (ncols nrows : Nat) :
    Option (List (Cplx K) × List (Cplx K) × List (Cplx K)) :=
  (constructAzimuthCommonbandFilter pi cos refDoppler secDoppler bandwidth prf beta ncols
    nrows).map fun _filter =>
    let r1 := forwardAzimuthFFT signal spectrum ncols nrows
    let r2 := inverseAzimuthFFT r1.2 r1.1 ncols nrows
    (r2.2, r2.1, _filter)

/-! ## Reasoning vocabulary -/

/-- State of a sequence `st` after the writes `st[idx u] = val u` for `u < t`
have been applied to `m`. -/
def Written {α : Type} (idx : Nat → Nat) (val : Nat → α) (m : List α) (t : Nat)
    (st : List α) : Prop :=
  st.length = m.length ∧ (∀ j, (∀ u, u < t → idx u ≠ j) → st[j]? = m[j]?) ∧
    (∀ u, u < t → st[idx u]? = some (val u))

/-- Signed bin number of index `i` on an axis of length `N`: `i` itself on the
non-negative half, `i - N` on the negative half. -/
def signedBin (N i : Nat) : Int :=
  if i < (N - 1) / 2 + 1 then (i : Int) else (i : Int) - (N : Int)

/-- Value left in a bin by one band of a raised-cosine builder: `1` in the
passband, the roll-off value in the transition region, the previous value `old`
in the stopband (the three branches of the inner loop of
`constructRangeBandpassCosine`). -/
def cosineGain (pi : K) (cos : K → K) (fmid bandwidth beta fi : K) (old : Cplx K) : Cplx K :=
  if |fi - fmid| ≤ 0.5 * bandwidth - 0.5 * bandwidth * beta then ⟨1.0, 0.0⟩
  else if |fi - fmid| > 0.5 * bandwidth - 0.5 * bandwidth * beta ∧
      |fi - fmid| ≤ 0.5 * bandwidth + 0.5 * bandwidth * beta then
    ⟨raisedCosine pi cos 1.0 bandwidth beta |fi - fmid|, 0.0⟩
  else old

/-- A mask entry is a real gain in `[0, 1]`: real part between `0` and `1`,
imaginary part `0`. -/
def UnitGain (e : Cplx K) : Prop := 0 ≤ e.re ∧ e.re ≤ 1 ∧ e.im = 0

/-- Bins switched on by one boxcar band `(c, b)` on a mask of `N` bins: the two
runs `[indL, N)` and `[0, indH)` when the band straddles zero frequency, the run
`[indL, indH)` otherwise. -/
def boxcarSelects [FloorRing K] (dt : K) (N : Nat) (c b : K) (k : Nat) : Prop :=
  (c - b / 2 < 0 ∧ 0 ≤ c + b / 2 ∧
      ((indexOfFrequency dt (N : Int) (c - b / 2) ≤ (k : Int) ∧ k < N) ∨
        (k : Int) < indexOfFrequency dt (N : Int) (c + b / 2))) ∨
    (¬ (c - b / 2 < 0 ∧ 0 ≤ c + b / 2) ∧
      indexOfFrequency dt (N : Int) (c - b / 2) ≤ (k : Int) ∧
      (k : Int) < indexOfFrequency dt (N : Int) (c + b / 2))

/-! ## Loop reasoning -/

/-- Invariant rule for a counted loop whose body may fault: if every iteration
started in a state satisfying the invariant succeeds and re-establishes it, the
loop succeeds and ends in a state satisfying the invariant. -/
theorem foldlM_range_inv {σ : Type} (body : Nat → σ → Option σ) (P : Nat → σ → Prop) :
    ∀ (n : Nat) (s : σ), P 0 s →
      (∀ t, t < n → ∀ st, P t st → ∃ st', body t st = some st' ∧ P (t + 1) st') →
      ∃ s', (List.range n).foldlM (fun st t => body t st) s = some s' ∧ P n s' := by
  intro n
  induction n with
  | zero =>
    intro s h0 _
    exact ⟨s, rfl, h0⟩
  | succ k ih =>
    intro s h0 hstep
    obtain ⟨s1, hs1, hP1⟩ := ih s h0 (fun t ht st hst => hstep t (Nat.lt_succ_of_lt ht) st hst)
    obtain ⟨s2, hs2, hP2⟩ := hstep k (Nat.lt_succ_self k) s1 hP1
    refine ⟨s2, ?_, hP2⟩
    rw [List.range_succ, List.foldlM_append, hs1]
    simp [hs2]

theorem Written.zero {α : Type} (idx : Nat → Nat) (val : Nat → α) (m : List α) :
    Written idx val m 0 m :=
  ⟨rfl, fun _ _ => rfl, fun u hu => absurd hu (Nat.not_lt_zero u)⟩

/-- One more in-range write at a fresh index extends `Written`. -/
theorem Written.step {α : Type} {idx : Nat → Nat} {val : Nat → α} {m st : List α} {t : Nat}
    (h : Written idx val m t st) (hlt : idx t < m.length)
    (hfresh : ∀ u, u < t → idx u ≠ idx t) :
    ∃ st', writeAt st (idx t) (val t) = some st' ∧ Written idx val m (t + 1) st' := by
  obtain ⟨hlen, hout, hin⟩ := h
  have hlt' : idx t < st.length := by rw [hlen]; exact hlt
  refine ⟨st.set (idx t) (val t), by simp [writeAt, hlt'], ?_, ?_, ?_⟩
  · simp [hlen]
  · intro j hj
    have hne : idx t ≠ j := hj t (Nat.lt_succ_self t)
    rw [List.getElem?_set_ne hne]
    exact hout j (fun u hu => hj u (Nat.lt_succ_of_lt hu))
  · intro u hu
    rcases Nat.lt_succ_iff_lt_or_eq.mp hu with hlt1 | heq
    · rw [List.getElem?_set_ne (Ne.symm (hfresh u hlt1))]
      exact hin u hlt1
    · subst heq
      simp [List.getElem?_set, hlt']

/-- A counted loop of writes at pairwise distinct in-range indices succeeds and
performs exactly those writes. -/
theorem writeLoop_spec {α : Type} (idx : Nat → Nat) (val : Nat → α) (n : Nat) (m : List α)
    (hlt : ∀ t, t < n → idx t < m.length)
    (hinj : ∀ t, t < n → ∀ u, u < t → idx u ≠ idx t) :
    ∃ m', (List.range n).foldlM (fun st t => writeAt st (idx t) (val t)) m = some m' ∧
      Written idx val m n m' :=
  foldlM_range_inv (fun t st => writeAt st (idx t) (val t)) (Written idx val m) n m
    (Written.zero idx val m) (fun t ht _ hst => hst.step (hlt t ht) (hinj t ht))

theorem toSizeT_natCast (n : Nat) : toSizeT (n : Int) = n := by
  simp [toSizeT]


/-! ## Integer helpers -/

theorem tdiv_pred_two (N : Nat) (hN : 1 ≤ N) :
    Int.tdiv ((N : Int) - 1) 2 + 1 = (((N - 1) / 2 + 1 : Nat) : Int) := by
  rw [Int.tdiv_eq_ediv (by omega) (by norm_num)]
  push_cast
  omega

theorem tdiv_neg_two (N : Nat) : Int.tdiv (-(N : Int)) 2 = -(((N / 2 : Nat)) : Int) := by
  rw [Int.neg_tdiv, Int.tdiv_eq_ediv (by omega) (by norm_num)]
  push_cast
  rfl

theorem signedBin_of_lt {N i : Nat} (h : i < (N - 1) / 2 + 1) : signedBin N i = (i : Int) := by
  simp [signedBin, h]

theorem signedBin_of_ge {N i : Nat} (h : (N - 1) / 2 + 1 ≤ i) :
    signedBin N i = (i : Int) - (N : Int) := by
  simp [signedBin, Nat.not_lt.mpr h]

/-- Range of the signed bin numbers of a length-`N` axis. -/
theorem signedBin_bounds {N i : Nat} (hi : i < N) :
    -((N / 2 : Nat) : Int) ≤ signedBin N i ∧ signedBin N i ≤ (((N - 1) / 2 : Nat) : Int) := by
  by_cases h : i < (N - 1) / 2 + 1
  · rw [signedBin_of_lt h]; omega
  · rw [signedBin_of_ge (Nat.not_lt.mp h)]; omega

/-! ## The frequency axis -/

/-- An index at which a sequence has an element is below its length. -/
theorem lt_length_of_getElem? {α : Type} {l : List α} {i : Nat} {a : α} (h : l[i]? = some a) :
    i < l.length := by
  by_contra hcon
  rw [List.getElem?_eq_none (Nat.le_of_not_lt hcon)] at h
  exact Option.noConfusion h


/-- Full description of the sequence left by `fftfreq`, loop by loop. -/
theorem fftfreq_spec (dt : K) (freq : List K) (hN : 1 ≤ freq.length) :
    ∃ out, fftfreq dt freq = some out ∧ out.length = freq.length ∧
      (∀ i : Nat, i < (freq.length - 1) / 2 + 1 →
        out[i]? = some (1 / (((freq.length : Int) : K) * dt) * (((i : Int)) : K))) ∧
      (∀ m : Nat, m < freq.length / 2 →
        out[(freq.length - 1) / 2 + 1 + m]? =
          some (1 / (((freq.length : Int) : K) * dt) *
            ((-((freq.length / 2 : Nat) : Int) + (m : Int) : Int) : K))) := by
  obtain ⟨fr1, h1, hW1⟩ := writeLoop_spec (fun t => t)
    (fun t => 1 / (((freq.length : Int) : K) * dt) * (((t : Int)) : K))
    ((freq.length - 1) / 2 + 1) freq (fun t ht => by dsimp only; omega)
    (fun t _ u hu => by dsimp only; omega)
  obtain ⟨st2, h2, hnd, hW2⟩ := foldlM_range_inv
    (fun t (st : List K × Int) =>
      (writeAt st.1 (toSizeT st.2)
        (1 / (((freq.length : Int) : K) * dt) *
          ((-((freq.length / 2 : Nat) : Int) + (t : Int) : Int) : K))).map
        fun fr => (fr, st.2 + 1))
    (fun t st => st.2 = (((freq.length - 1) / 2 + 1 + t : Nat) : Int) ∧
      Written (fun u => (freq.length - 1) / 2 + 1 + u)
        (fun u => 1 / (((freq.length : Int) : K) * dt) *
          ((-((freq.length / 2 : Nat) : Int) + (u : Int) : Int) : K))
        fr1 t st.1)
    (freq.length / 2) (fr1, (((freq.length - 1) / 2 + 1 : Nat) : Int))
    ⟨by simp, Written.zero _ _ _⟩
    (by
      rintro t ht ⟨fr, nd⟩ ⟨hnd, hW⟩
      simp only at hnd hW
      obtain ⟨fr', hfr', hW'⟩ := hW.step (by rw [hW1.1]; omega) (fun u hu => by omega)
      refine ⟨(fr', nd + 1), ?_, ?_, hW'⟩
      · simp only [hnd, toSizeT_natCast]
        rw [hfr']
        rfl
      · simp only [hnd]
        push_cast
        ring)
  refine ⟨st2.1, ?_, ?_, ?_, ?_⟩
  · simp only [fftfreq, forInt, tdiv_pred_two _ hN, tdiv_neg_two, sub_zero, Int.toNat_natCast,
      zero_add, toSizeT_natCast, zero_sub, neg_neg]
    rw [h1]
    simp only [Option.some_bind]
    rw [h2]
    rfl
  · rw [hW2.1, hW1.1]
  · intro i hi
    rw [hW2.2.1 i (fun u _ => by dsimp only; omega)]
    exact hW1.2.2 i hi
  · intro m hm
    exact hW2.2.2 m hm

/-- Bin `i` of the axis left by `fftfreq` holds `signedBin N i / (N * dt)`. -/
theorem fftfreq_get (dt : K) (freq : List K) (hN : 1 ≤ freq.length) :
    ∃ out, fftfreq dt freq = some out ∧ out.length = freq.length ∧
      ∀ i : Nat, i < freq.length →
        out[i]? = some (1 / ((freq.length : K) * dt) * ((signedBin freq.length i : Int) : K)) := by
  obtain ⟨out, ho, hlen, hpos, hneg⟩ := fftfreq_spec dt freq hN
  refine ⟨out, ho, hlen, ?_⟩
  intro i hi
  by_cases h : i < (freq.length - 1) / 2 + 1
  · rw [signedBin_of_lt h, hpos i h, Int.cast_natCast]
  · have hge := Nat.not_lt.mp h
    have hm : i - ((freq.length - 1) / 2 + 1) < freq.length / 2 := by omega
    have := hneg _ hm
    rw [Nat.add_sub_cancel' hge] at this
    rw [signedBin_of_ge hge, this, Int.cast_natCast]
    congr 3
    omega

/-! ## Rounding -/

/-- An integer within one half of `y` is at least as close to `y` as any other
integer. -/
theorem nearest_of_abs_le_half (a b : Int) (y : K) (h : |(a : K) - y| ≤ 1 / 2) :
    |(a : K) - y| ≤ |(b : K) - y| := by
  by_cases hab : a = b
  · rw [hab]
  · have h1 : (1 : K) ≤ |(a : K) - (b : K)| := by
      have : (1 : Int) ≤ |a - b| := Int.one_le_abs (sub_ne_zero.mpr hab)
      have h2 : ((1 : Int) : K) ≤ ((|a - b| : Int) : K) := Int.cast_le.mpr this
      simpa [Int.cast_abs] using h2
    have h3 : |(a : K) - (b : K)| ≤ |(a : K) - y| + |(b : K) - y| := by
      have := abs_sub_le (a : K) y (b : K)
      rwa [abs_sub_comm y (b : K)] at this
    linarith

/-- Quotient of an axis value by the bin spacing `df` used by `indexOfFrequency`. -/
theorem scale_div_df (dt : K) (hdt : 0 < dt) (N : Nat) (hN : 1 ≤ N) (y : K) :
    (1 / ((N : K) * dt) * y) / (1 / (dt * (((N : Int)) : K))) = y := by
  have hNpos : (0 : K) < (N : K) := by exact_mod_cast hN
  rw [Int.cast_natCast, mul_comm dt]
  field_simp

/-- Every frequency is the bin spacing times its quotient by `df`. -/
theorem eq_scale_mul_div_df (dt : K) (hdt : 0 < dt) (N : Nat) (hN : 1 ≤ N) (f : K) :
    f = 1 / ((N : K) * dt) * (f / (1 / (dt * (((N : Int)) : K)))) := by
  have hNpos : (0 : K) < (N : K) := by exact_mod_cast hN
  rw [Int.cast_natCast, mul_comm dt]
  field_simp

/-- The quotient `f / df` has the sign of `f`. -/
theorem div_df_neg (dt : K) (hdt : 0 < dt) (N : Nat) (hN : 1 ≤ N) {f : K} (hf : f < 0) :
    f / (1 / (dt * (((N : Int)) : K))) < 0 := by
  have hNpos : (0 : K) < (N : K) := by exact_mod_cast hN
  rw [Int.cast_natCast]
  exact div_neg_of_neg_of_pos hf (by positivity)

theorem div_df_nonneg (dt : K) (hdt : 0 < dt) (N : Nat) (hN : 1 ≤ N) {f : K} (hf : 0 ≤ f) :
    0 ≤ f / (1 / (dt * (((N : Int)) : K))) := by
  have hNpos : (0 : K) < (N : K) := by exact_mod_cast hN
  rw [Int.cast_natCast]
  exact div_nonneg hf (by positivity)


section Rounding
variable [FloorRing K]

theorem cround_intCast (z : Int) : cround (z : K) = z := by
  unfold cround
  split_ifs with h
  · rw [Int.floor_eq_iff]
    constructor <;> linarith
  · rw [Int.ceil_eq_iff]
    constructor <;> linarith

/-- For a non-negative argument `cround` is the floor of `x + 1/2`. -/
theorem cround_of_nonneg {x : K} (h : 0 ≤ x) : cround x = ⌊x + 1 / 2⌋ := by
  simp [cround, h]

/-- For a negative argument `cround` is the ceiling of `x - 1/2`. -/
theorem cround_of_neg {x : K} (h : x < 0) : cround x = ⌈x - 1 / 2⌉ := by
  simp [cround, not_le.mpr h]

/-- The value of `cround` is within one half of its argument. -/
theorem abs_cround_sub_le (x : K) : |((cround x : Int) : K) - x| ≤ 1 / 2 := by
  unfold cround
  split_ifs with h
  · have h1 := Int.floor_le (x + 1 / 2)
    have h2 := Int.lt_floor_add_one (x + 1 / 2)
    rw [abs_le]
    constructor <;> linarith
  · have h1 := Int.le_ceil (x - 1 / 2)
    have h2 := Int.ceil_lt_add_one (x - 1 / 2)
    rw [abs_le]
    constructor <;> linarith

/-- Shifting a negative argument by an integer `N`: `cround (y + N)` is
`cround y + N`, except at the half-integers `y` with `0 ≤ y + N`, where the
shifted argument is rounded upwards and the result is one more. -/
theorem cround_add_int_of_neg {y : K} (hy : y < 0) (N : Int) :
    cround (y + (N : K)) =
      if 0 ≤ y + (N : K) ∧ Int.fract (y + 1 / 2) = 0 then cround y + N + 1 else cround y + N := by
  rw [cround_of_neg hy]
  by_cases hs : 0 ≤ y + (N : K)
  · rw [cround_of_nonneg hs]
    have e1 : y + (N : K) + 1 / 2 = (y + 1 / 2) + (N : K) := by ring
    rw [e1, Int.floor_add_int]
    have hfl := Int.floor_le (y + 1 / 2)
    have hlt := Int.lt_floor_add_one (y + 1 / 2)
    by_cases hfr : Int.fract (y + 1 / 2) = 0
    · rw [if_pos ⟨hs, hfr⟩]
      have hx : ((⌊y + 1 / 2⌋ : Int) : K) = y + 1 / 2 := by
        have := Int.self_sub_floor (y + 1 / 2)
        rw [hfr] at this
        linarith
      have : ⌈y - 1 / 2⌉ = ⌊y + 1 / 2⌋ - 1 := by
        rw [Int.ceil_eq_iff]
        push_cast
        constructor <;> linarith
      rw [this]
      ring
    · rw [if_neg (fun h => hfr h.2)]
      have hne : ((⌊y + 1 / 2⌋ : Int) : K) ≠ y + 1 / 2 := by
        intro h
        apply hfr
        rw [← Int.self_sub_floor, h, sub_self]
      have hlt2 : ((⌊y + 1 / 2⌋ : Int) : K) < y + 1 / 2 := lt_of_le_of_ne hfl hne
      have : ⌈y - 1 / 2⌉ = ⌊y + 1 / 2⌋ := by
        rw [Int.ceil_eq_iff]
        constructor <;> linarith
      rw [this]
  · rw [if_neg (fun h => hs h.1), cround_of_neg (not_le.mp hs)]
    have e1 : y + (N : K) - 1 / 2 = (y - 1 / 2) + (N : K) := by ring
    rw [e1, Int.ceil_add_int]

/-- Core of the nearest-bin property: for a target `f = s * y` whose quotient `y`
lies between the extreme signed bin numbers, the index returned by
`indexOfFrequency` lies in `[0, N]`, equals `N` only for `-1/2 ≤ y < 0`, and the
signed bin number of the index reduced modulo `N` is within one half of `y`. -/
theorem indexOfFrequency_signedBin (dt : K) (hdt : 0 < dt) (N : Nat) (hN : 1 ≤ N) (f : K)
    (hlo : (-((N / 2 : Nat) : Int) : K) ≤ f / (1 / (dt * ((N : Int) : K))))
    (hhi : f / (1 / (dt * ((N : Int) : K))) ≤ ((((N - 1) / 2 : Nat) : Int) : K)) :
    0 ≤ indexOfFrequency dt (N : Int) f ∧ indexOfFrequency dt (N : Int) f ≤ (N : Int) ∧
      (indexOfFrequency dt (N : Int) f = (N : Int) →
        f < 0 ∧ -(1 / 2) ≤ f / (1 / (dt * ((N : Int) : K)))) ∧
      (indexOfFrequency dt (N : Int) f % (N : Int)).toNat < N ∧
      |((signedBin N (indexOfFrequency dt (N : Int) f % (N : Int)).toNat : Int) : K)
          - f / (1 / (dt * ((N : Int) : K)))| ≤ 1 / 2 := by
  by_cases hf : f < 0
  · have hy := div_df_neg dt hdt N hN hf
    have hidx : indexOfFrequency dt (N : Int) f
        = cround (f / (1 / (dt * ((N : Int) : K))) + ((N : Int) : K)) := by
      simp [indexOfFrequency, hf]
    generalize f / (1 / (dt * ((N : Int) : K))) = y at hlo hhi hy hidx ⊢
    have hge : (((N : Int) - ((N / 2 : Nat) : Int) : Int) : K) ≤ y + ((N : Int) : K) := by
      push_cast
      push_cast at hlo
      linarith
    have h0 : (0 : K) ≤ y + ((N : Int) : K) := by
      have : (0 : Int) ≤ (N : Int) - ((N / 2 : Nat) : Int) := by omega
      have : ((0 : Int) : K) ≤ (((N : Int) - ((N / 2 : Nat) : Int) : Int) : K) :=
        Int.cast_le.mpr this
      simp only [Int.cast_zero] at this
      linarith
    rw [cround_of_nonneg h0] at hidx
    have hlow : (N : Int) - ((N / 2 : Nat) : Int) ≤ indexOfFrequency dt (N : Int) f := by
      rw [hidx, Int.le_floor]
      linarith
    have hupp : indexOfFrequency dt (N : Int) f < (N : Int) + 1 := by
      rw [hidx, Int.floor_lt]
      push_cast
      linarith
    have habs := abs_cround_sub_le (y + ((N : Int) : K))
    rw [cround_of_nonneg h0, ← hidx] at habs
    refine ⟨by omega, by omega, ?_, ?_, ?_⟩
    · intro heq
      refine ⟨hf, ?_⟩
      have := Int.floor_le (y + ((N : Int) : K) + 1 / 2)
      rw [← hidx, heq] at this
      linarith
    · rcases (show indexOfFrequency dt (N : Int) f < (N : Int) ∨
          indexOfFrequency dt (N : Int) f = (N : Int) by omega) with hlt | heq
      · rw [Int.emod_eq_of_lt (by omega) hlt]; omega
      · rw [heq, Int.emod_self]; simpa using hN
    · have hbin : signedBin N (indexOfFrequency dt (N : Int) f % (N : Int)).toNat
          = indexOfFrequency dt (N : Int) f - (N : Int) := by
        rcases (show indexOfFrequency dt (N : Int) f < (N : Int) ∨
            indexOfFrequency dt (N : Int) f = (N : Int) by omega) with hlt | heq
        · rw [Int.emod_eq_of_lt (by omega) hlt, signedBin_of_ge (by omega)]
          omega
        · rw [heq, Int.emod_self, Int.toNat_zero, signedBin_of_lt (by omega)]
          omega
      rw [hbin]
      have e : ((indexOfFrequency dt (N : Int) f - (N : Int) : Int) : K) - y
          = ((indexOfFrequency dt (N : Int) f : Int) : K) - (y + ((N : Int) : K)) := by
        push_cast; ring
      rw [e]
      exact habs
  · have hf0 : 0 ≤ f := not_lt.mp hf
    have hy := div_df_nonneg dt hdt N hN hf0
    have hidx : indexOfFrequency dt (N : Int) f = cround (f / (1 / (dt * ((N : Int) : K)))) := by
      simp [indexOfFrequency, hf]
    generalize f / (1 / (dt * ((N : Int) : K))) = y at hlo hhi hy hidx ⊢
    have habs := abs_cround_sub_le y
    rw [← hidx] at habs
    rw [cround_of_nonneg hy] at hidx
    have hlow : 0 ≤ indexOfFrequency dt (N : Int) f := by
      rw [hidx, Int.floor_nonneg]
      linarith
    have hupp : indexOfFrequency dt (N : Int) f < (((N - 1) / 2 : Nat) : Int) + 1 := by
      rw [hidx, Int.floor_lt]
      push_cast
      push_cast at hhi
      linarith
    have hltN : indexOfFrequency dt (N : Int) f < (N : Int) := by omega
    refine ⟨hlow, by omega, fun heq => absurd heq (by omega), ?_, ?_⟩
    · rw [Int.emod_eq_of_lt hlow hltN]; omega
    · rw [Int.emod_eq_of_lt hlow hltN, signedBin_of_lt (by omega), Int.toNat_of_nonneg hlow]
      exact habs

end Rounding

/-! ## The boxcar builder -/

theorem toSizeT_of_nonneg {i : Int} (h : 0 ≤ i) : toSizeT i = i.toNat := by
  simp [toSizeT, not_lt.mpr h]

/-- A fill loop `for (size_t ind = lo; ind < hi; ++ind) m[ind] = v` whose upper
bound is within the sequence succeeds and sets exactly the bins `[lo, hi)`. -/
theorem fill_spec {α : Type} (v : α) (lo hi : Nat) (m : List α) (h : hi ≤ m.length) :
    ∃ m', forSize lo hi (fun ind st => writeAt st ind v) m = some m' ∧
      m'.length = m.length ∧
      ∀ j, m'[j]? = if lo ≤ j ∧ j < hi then some v else m[j]? := by
  obtain ⟨m', hm', hlen, hout, hin⟩ := writeLoop_spec (fun t => lo + t) (fun _ => v)
    (hi - lo) m (fun t ht => by dsimp only; omega) (fun t _ u hu => by dsimp only; omega)
  refine ⟨m', hm', hlen, ?_⟩
  intro j
  by_cases hj : lo ≤ j ∧ j < hi
  · rw [if_pos hj]
    have := hin (j - lo) (by omega)
    dsimp only at this
    rwa [Nat.add_sub_cancel' hj.1] at this
  · rw [if_neg hj]
    exact hout j (fun u hu => by dsimp only; omega)

/-- One band of the boxcar builder on a mask of length `N = fft_size`, when both
located indices lie in `[0, N]`: the pass succeeds, and switches on exactly the
run(s) of bins selected by the seam test. -/
theorem boxcarBand_spec [FloorRing K] (dt c b : K) (N : Nat) (m : List (Cplx K))
    (hm : m.length = N)
    (hL0 : 0 ≤ indexOfFrequency dt (N : Int) (c - b / 2))
    (hH0 : 0 ≤ indexOfFrequency dt (N : Int) (c + b / 2))
    (hH1 : indexOfFrequency dt (N : Int) (c + b / 2) ≤ (N : Int)) :
    ∃ out, boxcarBand dt (N : Int) c b m = some out ∧ out.length = N ∧
      ∀ k : Nat, out[k]? =
        if (c - b / 2 < 0 ∧ 0 ≤ c + b / 2 ∧
              ((indexOfFrequency dt (N : Int) (c - b / 2) ≤ (k : Int) ∧ k < N) ∨
                (k : Int) < indexOfFrequency dt (N : Int) (c + b / 2))) ∨
            (¬ (c - b / 2 < 0 ∧ 0 ≤ c + b / 2) ∧
              indexOfFrequency dt (N : Int) (c - b / 2) ≤ (k : Int) ∧
              (k : Int) < indexOfFrequency dt (N : Int) (c + b / 2))
        then some ⟨1, 0⟩ else m[k]? := by
  have e1 : (1.0 : K) = 1 := by norm_num
  have e0 : (0.0 : K) = 0 := by norm_num
  unfold boxcarBand
  simp only [ge_iff_le, toSizeT_of_nonneg hL0, toSizeT_of_nonneg hH0, toSizeT_natCast, e1, e0]
  by_cases hs : c - b / 2 < 0 ∧ 0 ≤ c + b / 2
  · rw [if_pos hs]
    obtain ⟨m1, h1, hlen1, hg1⟩ := fill_spec (⟨1, 0⟩ : Cplx K)
      (indexOfFrequency dt (N : Int) (c - b / 2)).toNat N m (by omega)
    obtain ⟨m2, h2, hlen2, hg2⟩ := fill_spec (⟨1, 0⟩ : Cplx K) 0
      (indexOfFrequency dt (N : Int) (c + b / 2)).toNat m1 (by omega)
    refine ⟨m2, ?_, by omega, ?_⟩
    · rw [h1]; exact h2
    · intro k
      rw [hg2 k, hg1 k]
      by_cases hk2 : (k : Int) < indexOfFrequency dt (N : Int) (c + b / 2)
      · rw [if_pos (by omega), if_pos (Or.inl ⟨hs.1, hs.2, Or.inr hk2⟩)]
      · rw [if_neg (by omega)]
        by_cases hk1 : indexOfFrequency dt (N : Int) (c - b / 2) ≤ (k : Int) ∧ k < N
        · rw [if_pos (by omega), if_pos (Or.inl ⟨hs.1, hs.2, Or.inl hk1⟩)]
        · rw [if_neg (by omega), if_neg]
          rintro (⟨_, _, h | h⟩ | ⟨h, _⟩)
          · exact hk1 h
          · exact hk2 h
          · exact h hs
  · rw [if_neg hs]
    obtain ⟨m1, h1, hlen1, hg1⟩ := fill_spec (⟨1, 0⟩ : Cplx K)
      (indexOfFrequency dt (N : Int) (c - b / 2)).toNat
      (indexOfFrequency dt (N : Int) (c + b / 2)).toNat m (by omega)
    refine ⟨m1, h1, by omega, ?_⟩
    intro k
    rw [hg1 k]
    by_cases hk : indexOfFrequency dt (N : Int) (c - b / 2) ≤ (k : Int) ∧
        (k : Int) < indexOfFrequency dt (N : Int) (c + b / 2)
    · rw [if_pos (by omega), if_pos (Or.inr ⟨hs, hk⟩)]
    · rw [if_neg (by omega), if_neg]
      rintro (⟨h1, h2, _⟩ | ⟨_, h⟩)
      · exact hs ⟨h1, h2⟩
      · exact hk h

/-- With a single band the band loop of the boxcar builder is one pass. -/
theorem constructRangeBandpassBoxcar_single [FloorRing K] (dt c b : K) (fft_size : Int)
    (m : List (Cplx K)) :
    constructRangeBandpassBoxcar [c] [b] dt fft_size m = boxcarBand dt fft_size c b m := by
  simp [constructRangeBandpassBoxcar, forSize, List.range_succ]

/-! ## The raised-cosine builder -/

/-- The inner loop of the cosine builder on a mask as long as the axis succeeds
and rewrites every bin by `cosineGain`. -/
theorem cosineBand_spec (pi : K) (cos : K → K) (fmid bandwidth beta : K) (frequency : List K)
    (m : List (Cplx K)) (hm : m.length = frequency.length) :
    ∃ out, cosineBand pi cos fmid bandwidth beta frequency m = some out ∧
      out.length = m.length ∧
      ∀ (k : Nat) (fi : K) (old : Cplx K), frequency[k]? = some fi → m[k]? = some old →
        out[k]? = some (cosineGain pi cos fmid bandwidth beta fi old) := by
  obtain ⟨out, ho, hlen, hP⟩ := foldlM_range_inv
    (fun i (st : List (Cplx K)) =>
      match frequency[0 + i]? with
      | none => none
      | some fi =>
        if |fi - fmid| ≤ 0.5 * bandwidth - 0.5 * bandwidth * beta then
          writeAt st (0 + i) ⟨1.0, 0.0⟩
        else if |fi - fmid| > 0.5 * bandwidth - 0.5 * bandwidth * beta ∧
            |fi - fmid| ≤ 0.5 * bandwidth + 0.5 * bandwidth * beta then
          writeAt st (0 + i) ⟨raisedCosine pi cos 1.0 bandwidth beta |fi - fmid|, 0.0⟩
        else some st)
    (fun t st => st.length = m.length ∧
      ∀ (k : Nat) (fi : K) (old : Cplx K), frequency[k]? = some fi → m[k]? = some old →
        st[k]? = some (if k < t then cosineGain pi cos fmid bandwidth beta fi old else old))
    frequency.length m
    ⟨rfl, fun k fi old _ hold => by simpa using hold⟩
    (by
      rintro t ht st ⟨hlen, hst⟩
      have ht' : t < st.length := by omega
      obtain ⟨ft, hft⟩ : ∃ ft, frequency[t]? = some ft :=
        ⟨frequency[t], List.getElem?_eq_getElem ht⟩
      obtain ⟨ot, hot⟩ : ∃ ot, m[t]? = some ot :=
        ⟨m[t], List.getElem?_eq_getElem (by omega)⟩
      have key : ∀ v : Cplx K, v = cosineGain pi cos fmid bandwidth beta ft ot →
          (st.set t v).length = m.length ∧
          ∀ (k : Nat) (fi : K) (old : Cplx K), frequency[k]? = some fi → m[k]? = some old →
            (st.set t v)[k]? =
              some (if k < t + 1 then cosineGain pi cos fmid bandwidth beta fi old else old) := by
        intro v hv
        refine ⟨by simp [hlen], ?_⟩
        intro k fi old hfi hold
        by_cases hkt : k = t
        · subst hkt
          rw [hft] at hfi
          rw [hot] at hold
          rw [← Option.some.inj hfi, ← Option.some.inj hold]
          simp [List.getElem?_set, ht', hv]
        · rw [List.getElem?_set_ne (Ne.symm hkt), hst k fi old hfi hold]
          congr 1
          by_cases hlt : k < t
          · rw [if_pos hlt, if_pos (by omega)]
          · rw [if_neg hlt, if_neg (by omega)]
      simp only [zero_add, hft]
      by_cases hpass : |ft - fmid| ≤ 0.5 * bandwidth - 0.5 * bandwidth * beta
      · rw [if_pos hpass]
        exact ⟨st.set t ⟨1.0, 0.0⟩, by simp [writeAt, ht'], key _ (by simp [cosineGain, hpass])⟩
      · rw [if_neg hpass]
        by_cases htr : |ft - fmid| > 0.5 * bandwidth - 0.5 * bandwidth * beta ∧
            |ft - fmid| ≤ 0.5 * bandwidth + 0.5 * bandwidth * beta
        · rw [if_pos htr]
          exact ⟨st.set t ⟨raisedCosine pi cos 1.0 bandwidth beta |ft - fmid|, 0.0⟩,
            by simp [writeAt, ht'], key _ (by simp only [cosineGain, if_neg hpass, if_pos htr])⟩
        · rw [if_neg htr]
          refine ⟨st, rfl, hlen, ?_⟩
          intro k fi old hfi hold
          rw [hst k fi old hfi hold]
          congr 1
          by_cases hkt : k = t
          · subst hkt
            rw [hft] at hfi
            rw [hot] at hold
            rw [← Option.some.inj hfi, ← Option.some.inj hold]
            simp [cosineGain, hpass, htr]
          · by_cases hlt : k < t
            · rw [if_pos hlt, if_pos (by omega)]
            · rw [if_neg hlt, if_neg (by omega)])
  refine ⟨out, ?_, hlen, ?_⟩
  · unfold cosineBand forSize
    simpa using ho
  · intro k fi old hfi hold
    rw [hP k fi old hfi hold, if_pos (lt_length_of_getElem? hfi)]

/-- For a non-negative bandwidth and roll-off, a band rewrites a bin exactly when
the shifted frequency is within `0.5 * bandwidth * (1 + beta)`, and then with gain
`1` in the passband and the roll-off formula otherwise. -/
theorem cosineGain_of_nonneg (pi : K) (cos : K → K) (c b beta fk : K) (old : Cplx K)
    (hb : 0 ≤ b) (hbeta : 0 ≤ beta) :
    cosineGain pi cos c b beta fk old =
      if |fk - c| ≤ 0.5 * b * (1 + beta) then
        ⟨if |fk - c| ≤ 0.5 * b - 0.5 * b * beta then 1
          else 0.5 * (1 + cos (pi / (b * beta) * (|fk - c| - 0.5 * (1 - beta) * b))), 0⟩
      else old := by
  have e : (0.5 : K) * b + 0.5 * b * beta = 0.5 * b * (1 + beta) := by ring
  have hbb : (0 : K) ≤ 0.5 * b * beta := by
    have : (0 : K) ≤ 0.5 := by norm_num
    positivity
  unfold cosineGain raisedCosine
  by_cases hpass : |fk - c| ≤ 0.5 * b - 0.5 * b * beta
  · have hhit : |fk - c| ≤ 0.5 * b * (1 + beta) := by rw [← e]; linarith
    rw [if_pos hpass, if_pos hhit, if_pos hpass]
    norm_num
  · rw [if_neg hpass, e]
    by_cases hhit : |fk - c| ≤ 0.5 * b * (1 + beta)
    · rw [if_pos ⟨not_le.mp hpass, hhit⟩, if_pos hhit, if_neg hpass]
      norm_num
    · rw [if_neg (fun h => hhit h.2), if_neg hhit]

/-! ## The range filter builder -/

/-- A counted loop whose body preserves a property of the state preserves it. -/
theorem foldlM_range_preserves {σ : Type} (body : Nat → σ → Option σ) (Q : σ → Prop)
    (hbody : ∀ t st st', Q st → body t st = some st' → Q st') :
    ∀ (n : Nat) (s s' : σ), Q s →
      (List.range n).foldlM (fun st t => body t st) s = some s' → Q s' := by
  intro n
  induction n with
  | zero =>
    intro s s' hs h
    have : s = s' := by simpa using h
    exact this ▸ hs
  | succ k ih =>
    intro s s' hs h
    rw [List.range_succ, List.foldlM_append] at h
    cases h1 : (List.range k).foldlM (fun st t => body t st) s with
    | none => rw [h1] at h; exact Option.noConfusion h
    | some s1 =>
      rw [h1] at h
      have h2 : body k s1 = some s' := by simpa using h
      exact hbody k s1 s' (ih s s1 hs h1) h2

theorem writeAt_length {α : Type} {a a' : List α} {i : Nat} {v : α}
    (h : writeAt a i v = some a') : a'.length = a.length := by
  unfold writeAt at h
  split_ifs at h
  rw [← Option.some.inj h, List.length_set]

/-- A fill loop that returns keeps the length of the sequence. -/
theorem fill_length {α : Type} (v : α) (lo hi : Nat) (m m' : List α)
    (h : forSize lo hi (fun ind st => writeAt st ind v) m = some m') : m'.length = m.length :=
  foldlM_range_preserves (fun t st => writeAt st (lo + t) v) (fun st => st.length = m.length)
    (fun _ _ _ hst hw => (writeAt_length hw).trans hst) (hi - lo) m m' rfl h

/-- One boxcar band that returns keeps the length of the mask. -/
theorem boxcarBand_length [FloorRing K] (dt : K) (fft_size : Int) (c b : K)
    (m m' : List (Cplx K)) (h : boxcarBand dt fft_size c b m = some m') :
    m'.length = m.length := by
  unfold boxcarBand at h
  simp only at h
  split_ifs at h
  · cases h1 : forSize (toSizeT (indexOfFrequency dt fft_size (c - b / 2))) (toSizeT fft_size)
      (fun ind st => writeAt st ind (⟨1.0, 0.0⟩ : Cplx K)) m with
    | none => rw [h1] at h; exact Option.noConfusion h
    | some m1 =>
      rw [h1] at h
      exact (fill_length _ _ _ _ _ h).trans (fill_length _ _ _ _ _ h1)
  · exact fill_length _ _ _ _ _ h

/-- The boxcar builder, when it returns, keeps the length of the mask. -/
theorem constructRangeBandpassBoxcar_length [FloorRing K] (cs bs : List K) (dt : K)
    (fft_size : Int) (m m' : List (Cplx K))
    (h : constructRangeBandpassBoxcar cs bs dt fft_size m = some m') : m'.length = m.length := by
  refine foldlM_range_preserves
    (fun i st =>
      match cs[0 + i]?, bs[0 + i]? with
      | some c, some b => boxcarBand dt fft_size c b st
      | _, _ => none)
    (fun st => st.length = m.length) ?_ (cs.length - 0) m m' rfl h
  intro t st st' hst hb
  simp only at hb
  split at hb
  · exact (boxcarBand_length _ _ _ _ _ _ hb).trans hst
  · exact Option.noConfusion hb

/-- One cosine band that returns keeps the length of the mask. -/
theorem cosineBand_length (pi : K) (cos : K → K) (fmid bandwidth beta : K) (frequency : List K)
    (m m' : List (Cplx K)) (h : cosineBand pi cos fmid bandwidth beta frequency m = some m') :
    m'.length = m.length := by
  refine foldlM_range_preserves
    (fun i (st : List (Cplx K)) =>
      match frequency[0 + i]? with
      | none => none
      | some fi =>
        if |fi - fmid| ≤ 0.5 * bandwidth - 0.5 * bandwidth * beta then
          writeAt st (0 + i) ⟨1.0, 0.0⟩
        else if |fi - fmid| > 0.5 * bandwidth - 0.5 * bandwidth * beta ∧
            |fi - fmid| ≤ 0.5 * bandwidth + 0.5 * bandwidth * beta then
          writeAt st (0 + i) ⟨raisedCosine pi cos 1.0 bandwidth beta |fi - fmid|, 0.0⟩
        else some st)
    (fun st => st.length = m.length) ?_ (frequency.length - 0) m m' rfl h
  intro t st st' hst hb
  simp only at hb
  split at hb
  · exact Option.noConfusion hb
  · split_ifs at hb
    · exact (writeAt_length hb).trans hst
    · exact (writeAt_length hb).trans hst
    · rw [← Option.some.inj hb]; exact hst

/-- The cosine builder, when it returns, keeps the length of the mask. -/
theorem constructRangeBandpassCosine_length (pi : K) (cos : K → K) (cs bs frequency : List K)
    (beta : K) (m m' : List (Cplx K))
    (h : constructRangeBandpassCosine pi cos cs bs frequency beta m = some m') :
    m'.length = m.length := by
  refine foldlM_range_preserves
    (fun i st =>
      match cs[0 + i]?, bs[0 + i]? with
      | some fmid, some bandwidth => cosineBand pi cos fmid bandwidth beta frequency st
      | _, _ => none)
    (fun st => st.length = m.length) ?_ (cs.length - 0) m m' rfl h
  intro t st st' hst hb
  simp only at hb
  split at hb
  · exact (cosineBand_length _ _ _ _ _ _ _ _ hb).trans hst
  · exact Option.noConfusion hb

/-- The one-dimensional range mask, when it is built, has `ncols` entries. -/
theorem rangeFilter1D_length [FloorRing K] (pi : K) (cos : K → K) (fs : K) (cs bs : List K)
    (ncols : Nat) (filterType : String) (m : List (Cplx K))
    (h : rangeFilter1D pi cos fs cs bs ncols filterType = some m) : m.length = ncols := by
  unfold rangeFilter1D at h
  simp only [toSizeT_natCast] at h
  cases hf : fftfreq (1.0 / fs) (List.replicate ncols 0) with
  | none => rw [hf] at h; exact Option.noConfusion h
  | some fr =>
    rw [hf] at h
    simp only [Option.some_bind] at h
    split_ifs at h
    · rw [constructRangeBandpassBoxcar_length _ _ _ _ _ _ h, List.length_replicate]
    · rw [constructRangeBandpassCosine_length _ _ _ _ _ _ _ _ h, List.length_replicate]
    · rw [← Option.some.inj h, List.length_replicate]

/-- The broadcast loop nest of the range builder succeeds on a one-dimensional
mask of `ncols` entries and stores `filter1D[col] / norm` at `line*ncols + col`. -/
theorem rangeFilterBlock_spec (filter1D : List (Cplx K)) (ncols nrows : Nat)
    (hlen : filter1D.length = ncols) :
    ∃ out, rangeFilterBlock filter1D ncols nrows = some out ∧ out.length = ncols * nrows ∧
      ∀ line col : Nat, line < nrows → col < ncols →
        out[line * ncols + col]? =
          (filter1D[col]?).map fun v => v.div (rangeNorm (ncols : Int)) := by
  have hidx : ∀ line col : Nat, line < nrows → col < ncols →
      line * ncols + col < ncols * nrows := by
    intro line col hl hc
    have h1 : (line + 1) * ncols ≤ nrows * ncols := Nat.mul_le_mul_right ncols hl
    rw [Nat.succ_mul] at h1
    rw [Nat.mul_comm ncols nrows]
    omega
  obtain ⟨out, ho, hol, hP⟩ := foldlM_range_inv
    (fun line (flt : List (Cplx K)) =>
      forSize 0 ncols
        (fun col flt =>
          match filter1D[col]? with
          | some v => writeAt flt ((0 + line) * ncols + col) (v.div (rangeNorm (ncols : Int)))
          | none => none)
        flt)
    (fun t st => st.length = ncols * nrows ∧
      ∀ line col : Nat, line < t → col < ncols →
        st[line * ncols + col]? =
          (filter1D[col]?).map fun v => v.div (rangeNorm (ncols : Int)))
    nrows (List.replicate (ncols * nrows) ⟨0, 0⟩)
    ⟨by simp, fun line _ hl => absurd hl (Nat.not_lt_zero line)⟩
    (by
      rintro t ht st ⟨hstl, hst⟩
      obtain ⟨st', hst', hlen', hout, hin⟩ := foldlM_range_inv
        (fun col (flt : List (Cplx K)) =>
          match filter1D[0 + col]? with
          | some v =>
            writeAt flt ((0 + t) * ncols + (0 + col)) (v.div (rangeNorm (ncols : Int)))
          | none => none)
        (Written (fun col => t * ncols + col)
          (fun col => ((filter1D[col]?).getD ⟨0, 0⟩).div (rangeNorm (ncols : Int))) st)
        ncols st (Written.zero _ _ _)
        (by
          intro u hu flt hW
          obtain ⟨v, hv⟩ : ∃ v, filter1D[u]? = some v :=
            ⟨filter1D[u], List.getElem?_eq_getElem (by omega)⟩
          obtain ⟨flt', hw, hW'⟩ := hW.step (by rw [hstl]; exact hidx t u ht hu)
            (fun w hw => by omega)
          refine ⟨flt', ?_, hW'⟩
          simp only [zero_add, hv]
          simpa [hv] using hw)
      refine ⟨st', hst', by omega, ?_⟩
      intro line col hl hc
      rcases Nat.lt_succ_iff_lt_or_eq.mp hl with hlt | heq
      · have h1 : (line + 1) * ncols ≤ t * ncols := Nat.mul_le_mul_right ncols hlt
        rw [Nat.succ_mul] at h1
        rw [hout (line * ncols + col) (fun u hu => by dsimp only; omega)]
        exact hst line col hlt hc
      · subst heq
        rw [hin col hc]
        obtain ⟨v, hv⟩ : ∃ v, filter1D[col]? = some v :=
          ⟨filter1D[col], List.getElem?_eq_getElem (by omega)⟩
        simp [hv])
  refine ⟨out, ?_, hol, hP⟩
  unfold rangeFilterBlock
  simpa [toSizeT_natCast, forSize] using ho

/-- For `ncols ≥ 1` the frequency axis is built without fault, and the `boxcar`
shape of the range builder is the boxcar builder on the all-zero mask. -/
theorem rangeFilter1D_boxcar [FloorRing K] (pi : K) (cos : K → K) (fs : K) (cs bs : List K)
    (ncols : Nat) (h : 1 ≤ ncols) :
    rangeFilter1D pi cos fs cs bs ncols "boxcar" =
      constructRangeBandpassBoxcar cs bs (1.0 / fs) (ncols : Int)
        (List.replicate ncols ⟨0, 0⟩) := by
  obtain ⟨axis, ha, _, _⟩ := fftfreq_get (1.0 / fs) (List.replicate ncols 0) (by simpa using h)
  unfold rangeFilter1D
  simp only [toSizeT_natCast, ha, Option.some_bind, if_true]
  norm_num

/-- The range mask for one band of the full sampling bandwidth on a single
column: the one-dimensional mask is `[1]`. -/
theorem rangeFilter1D_one_column :
    rangeFilter1D Real.pi Real.cos 1 [0] [1] 1 "boxcar" = some [⟨1, 0⟩] := by
  have hL : indexOfFrequency ((1.0 : ℝ) / 1) ((1 : Nat) : Int) (0 - 1 / 2) = 1 := by
    unfold indexOfFrequency cround
    norm_num
  have hH : indexOfFrequency ((1.0 : ℝ) / 1) ((1 : Nat) : Int) (0 + 1 / 2) = 1 := by
    unfold indexOfFrequency cround
    norm_num
  obtain ⟨mask, hm, hlen, hget⟩ := boxcarBand_spec ((1.0 : ℝ) / 1) 0 1 1
    (List.replicate 1 ⟨0, 0⟩) (by simp) (by rw [hL]; decide) (by rw [hH]; decide)
    (by rw [hH]; decide)
  rw [rangeFilter1D_boxcar _ _ _ _ _ _ (le_refl 1), constructRangeBandpassBoxcar_single, hm]
  congr 1
  apply List.ext_getElem?
  intro k
  rw [hget k, hL, hH]
  by_cases hk : k < 1
  · have : k = 0 := by omega
    subst this
    norm_num
  · rw [if_neg, List.getElem?_eq_none (by simp only [List.length_replicate]; omega),
      List.getElem?_eq_none (by simp only [List.length_singleton]; omega)]
    rintro (⟨_, _, h | h⟩ | ⟨h, _⟩)
    · omega
    · omega
    · exact h (by norm_num)

/-- The frequency axis of length one is `[0]`. -/
theorem fftfreq_singleton (dt x : K) : fftfreq dt [x] = some [0] := by
  obtain ⟨out, ho, hlen, hget⟩ := fftfreq_get dt [x] (by simp)
  rw [ho]
  congr 1
  apply List.ext_getElem?
  intro k
  by_cases hk : k < 1
  · have : k = 0 := by omega
    subst this
    rw [hget 0 (by simp)]
    simp [signedBin]
  · rw [List.getElem?_eq_none (by rw [hlen]; simp only [List.length_singleton]; omega),
      List.getElem?_eq_none (by simp only [List.length_singleton]; omega)]

/-! ## The azimuth builder -/

/-- Row-major indices determine row and column. -/
theorem stride_inj {n i j i' j' : Nat} (hj : j < n) (hj' : j' < n)
    (h : i * n + j = i' * n + j') : i = i' ∧ j = j' := by
  have hn : 0 < n := by omega
  have h1 : (i * n + j) / n = i := by
    rw [Nat.add_comm, Nat.add_mul_div_right _ _ hn, Nat.div_eq_of_lt hj, Nat.zero_add]
  have h2 : (i' * n + j') / n = i' := by
    rw [Nat.add_comm, Nat.add_mul_div_right _ _ hn, Nat.div_eq_of_lt hj', Nat.zero_add]
  have hi : i = i' := by rw [← h1, h, h2]
  subst hi
  exact ⟨rfl, by omega⟩

/-- Row-major indices of an `r × n` block are below `n * r`. -/
theorem stride_lt {n r i j : Nat} (hi : i < r) (hj : j < n) : i * n + j < n * r := by
  have h1 : (i + 1) * n ≤ r * n := Nat.mul_le_mul_right n hi
  rw [Nat.succ_mul] at h1
  rw [Nat.mul_comm n r]
  omega

/-- Every index below `n * r` is the row-major index of a row and a column. -/
theorem stride_surj {n r k : Nat} (hk : k < n * r) :
    ∃ i j, i < r ∧ j < n ∧ k = i * n + j := by
  have hn : 0 < n := by
    rcases Nat.eq_zero_or_pos n with h | h
    · subst h; simp at hk
    · exact h
  refine ⟨k / n, k % n, ?_, Nat.mod_lt k hn, ?_⟩
  · rw [Nat.div_lt_iff_lt_mul hn, Nat.mul_comm]; exact hk
  · have := Nat.div_add_mod k n
    rw [Nat.mul_comm] at this
    exact this.symm

/-- A counted read-modify-write loop `m[idx u] = h (m[idx u])` at pairwise
distinct in-range indices succeeds and updates exactly those entries. -/
theorem updateLoop_spec (idx : Nat → Nat) (h : Cplx K → Cplx K) (n : Nat)
    (m : List (Cplx K))
    (hlt : ∀ t, t < n → idx t < m.length)
    (hinj : ∀ t, t < n → ∀ u, u < t → idx u ≠ idx t) :
    ∃ m', (List.range n).foldlM
        (fun st t =>
          match st[idx t]? with
          | some v => writeAt st (idx t) (h v)
          | none => none) m = some m' ∧
      m'.length = m.length ∧ (∀ j, (∀ u, u < n → idx u ≠ j) → m'[j]? = m[j]?) ∧
      (∀ u, u < n → m'[idx u]? = (m[idx u]?).map h) := by
  obtain ⟨m', hm', hlen, hout, hin⟩ := foldlM_range_inv
    (fun t (st : List (Cplx K)) =>
      match st[idx t]? with
      | some v => writeAt st (idx t) (h v)
      | none => none)
    (fun t st => st.length = m.length ∧ (∀ j, (∀ u, u < t → idx u ≠ j) → st[j]? = m[j]?) ∧
      (∀ u, u < t → st[idx u]? = (m[idx u]?).map h))
    n m ⟨rfl, fun _ _ => rfl, fun u hu => absurd hu (Nat.not_lt_zero u)⟩
    (by
      rintro t ht st ⟨hlen, hout, hin⟩
      have hlt' : idx t < st.length := by rw [hlen]; exact hlt t ht
      have hcur : st[idx t]? = m[idx t]? := hout _ (hinj t ht)
      have hmv : m[idx t]? = some m[idx t] := List.getElem?_eq_getElem (hlt t ht)
      refine ⟨st.set (idx t) (h m[idx t]), ?_, by simp [hlen], ?_, ?_⟩
      · simp only [hcur, hmv]
        simp [writeAt, hlt']
      · intro j hj
        rw [List.getElem?_set_ne (hj t (Nat.lt_succ_self t))]
        exact hout j (fun u hu => hj u (Nat.lt_succ_of_lt hu))
      · intro u hu
        rcases Nat.lt_succ_iff_lt_or_eq.mp hu with hlt1 | heq
        · rw [List.getElem?_set_ne (Ne.symm (hinj t ht u hlt1))]
          exact hin u hlt1
        · subst heq
          simp [List.getElem?_set, hlt', hmv])
  exact ⟨m', hm', hlen, hout, hin⟩

/-- The three-way write of the azimuth builder stores `cosineGain` started from
zero: `1` in the passband, the roll-off value in the transition region, `0` in
the stop band. -/
theorem azimuth_write_eq (pi : K) (cos : K → K) (fmid bandwidth beta fi : K)
    (flt : List (Cplx K)) (k : Nat) :
    (if |fi - fmid| ≤ 0.5 * bandwidth - 0.5 * bandwidth * beta then
        writeAt flt k (⟨1.0, 0.0⟩ : Cplx K)
      else if |fi - fmid| > 0.5 * bandwidth - 0.5 * bandwidth * beta ∧
          |fi - fmid| ≤ 0.5 * bandwidth + 0.5 * bandwidth * beta then
        writeAt flt k ⟨raisedCosine pi cos 1.0 bandwidth beta |fi - fmid|, 0.0⟩
      else writeAt flt k ⟨0.0, 0.0⟩) =
      writeAt flt k (cosineGain pi cos fmid bandwidth beta fi ⟨0.0, 0.0⟩) := by
  unfold cosineGain
  split_ifs <;> rfl

/-- Full description of the mask left by `constructAzimuthCommonbandFilter`: for
`nrows ≥ 1` the builder succeeds, the mask has `ncols * nrows` elements, and the
element at row `i`, column `j` is the raised-cosine gain of axis bin `i` for the
centre `0.5 * (ref j + sec j)`, divided by `filtNorm`. -/
theorem constructAzimuthCommonbandFilter_spec (pi : K) (cos : K → K) (ref sec : K → K)
    (bandwidth prf beta : K) (ncols nrows : Nat) (hr : 1 ≤ nrows) :
    ∃ axis out, fftfreq (1.0 / prf) (List.replicate nrows 0) = some axis ∧
      axis.length = nrows ∧
      constructAzimuthCommonbandFilter pi cos ref sec bandwidth prf beta ncols nrows
        = some out ∧
      out.length = ncols * nrows ∧
      ∀ (i j : Nat) (fi : K), j < ncols → axis[i]? = some fi →
        out[i * ncols + j]? = some
          ((cosineGain pi cos (0.5 * (ref (j : K) + sec (j : K))) bandwidth beta fi
            ⟨0.0, 0.0⟩).div (azimuthNorm (nrows : Int))) := by
  obtain ⟨axis, ha, halen, _⟩ := fftfreq_get (1.0 / prf) (List.replicate nrows 0)
    (by simpa using hr)
  rw [List.length_replicate] at halen
  -- first loop nest: the gains
  obtain ⟨f1, h1, hl1, hg1⟩ := foldlM_range_inv
    (fun j (flt : List (Cplx K)) =>
      (List.range axis.length).foldlM
        (fun st i =>
          match axis[i]? with
          | none => none
          | some fi =>
            if |fi - 0.5 * (ref (j : K) + sec (j : K))| ≤ 0.5 * bandwidth - 0.5 * bandwidth * beta
            then writeAt st (i * ncols + j) (⟨1.0, 0.0⟩ : Cplx K)
            else if |fi - 0.5 * (ref (j : K) + sec (j : K))|
                  > 0.5 * bandwidth - 0.5 * bandwidth * beta ∧
                |fi - 0.5 * (ref (j : K) + sec (j : K))|
                  ≤ 0.5 * bandwidth + 0.5 * bandwidth * beta
            then writeAt st (i * ncols + j)
              ⟨raisedCosine pi cos 1.0 bandwidth beta
                |fi - 0.5 * (ref (j : K) + sec (j : K))|, 0.0⟩
            else writeAt st (i * ncols + j) ⟨0.0, 0.0⟩) flt)
    (fun t st => st.length = ncols * nrows ∧
      ∀ (i j : Nat) (fi : K), j < t → axis[i]? = some fi →
        st[i * ncols + j]? = some
          (cosineGain pi cos (0.5 * (ref (j : K) + sec (j : K))) bandwidth beta fi ⟨0.0, 0.0⟩))
    ncols (List.replicate (ncols * nrows) ⟨0, 0⟩)
    ⟨by simp, fun _ j _ hj => absurd hj (Nat.not_lt_zero j)⟩
    (by
      rintro t ht st ⟨hlen, hst⟩
      obtain ⟨st', hst', hlen', hout, hin⟩ := foldlM_range_inv
        (fun i (flt : List (Cplx K)) =>
          match axis[i]? with
          | none => none
          | some fi =>
            if |fi - 0.5 * (ref (t : K) + sec (t : K))| ≤ 0.5 * bandwidth - 0.5 * bandwidth * beta
            then writeAt flt (i * ncols + t) (⟨1.0, 0.0⟩ : Cplx K)
            else if |fi - 0.5 * (ref (t : K) + sec (t : K))|
                  > 0.5 * bandwidth - 0.5 * bandwidth * beta ∧
                |fi - 0.5 * (ref (t : K) + sec (t : K))|
                  ≤ 0.5 * bandwidth + 0.5 * bandwidth * beta
            then writeAt flt (i * ncols + t)
              ⟨raisedCosine pi cos 1.0 bandwidth beta
                |fi - 0.5 * (ref (t : K) + sec (t : K))|, 0.0⟩
            else writeAt flt (i * ncols + t) ⟨0.0, 0.0⟩)
        (Written (fun i => i * ncols + t)
          (fun i => cosineGain pi cos (0.5 * (ref (t : K) + sec (t : K))) bandwidth beta
            ((axis[i]?).getD 0) ⟨0.0, 0.0⟩) st)
        axis.length st (Written.zero _ _ _)
        (by
          intro u hu flt hW
          have hfu : axis[u]? = some axis[u] := List.getElem?_eq_getElem hu
          obtain ⟨flt', hw, hW'⟩ := hW.step
            (by rw [hlen]; exact stride_lt (by omega) ht)
            (fun w hw heq => by
              have := (stride_inj ht ht heq).1
              omega)
          refine ⟨flt', ?_, hW'⟩
          simp only [hfu, azimuth_write_eq]
          simpa [hfu] using hw)
      refine ⟨st', hst', by omega, ?_⟩
      intro i j fi hj hfi
      have hi : i < axis.length := lt_length_of_getElem? hfi
      rcases Nat.lt_succ_iff_lt_or_eq.mp hj with hlt | heq
      · rw [hout (i * ncols + j) (fun u _ heq => by
          have := (stride_inj ht (by omega) heq).2
          omega)]
        exact hst i j fi hlt hfi
      · subst heq
        have := hin i hi
        simp only [hfi, Option.getD_some] at this
        exact this)
  -- second loop nest: the normalisation
  obtain ⟨f2, h2, hl2, hg2⟩ := foldlM_range_inv
    (fun j (flt : List (Cplx K)) =>
      (List.range axis.length).foldlM
        (fun st i =>
          match st[i * ncols + j]? with
          | some v => writeAt st (i * ncols + j) (v.div (azimuthNorm (nrows : Int)))
          | none => none) flt)
    (fun t st => st.length = ncols * nrows ∧
      ∀ (i j : Nat) (fi : K), j < ncols → axis[i]? = some fi →
        st[i * ncols + j]? = some
          (if j < t then
            (cosineGain pi cos (0.5 * (ref (j : K) + sec (j : K))) bandwidth beta fi
              ⟨0.0, 0.0⟩).div (azimuthNorm (nrows : Int))
          else cosineGain pi cos (0.5 * (ref (j : K) + sec (j : K))) bandwidth beta fi
              ⟨0.0, 0.0⟩))
    ncols f1
    ⟨hl1, fun i j fi hj hfi => by simpa using hg1 i j fi hj hfi⟩
    (by
      rintro t ht st ⟨hlen, hst⟩
      obtain ⟨st', hst', hlen', hout, hin⟩ := updateLoop_spec (fun i => i * ncols + t)
        (fun v : Cplx K => v.div (azimuthNorm (nrows : Int))) axis.length st
        (fun u hu => by rw [hlen]; exact stride_lt (by omega) ht)
        (fun u _ w hw heq => by
          have := (stride_inj ht ht heq).1
          omega)
      refine ⟨st', hst', by omega, ?_⟩
      intro i j fi hj hfi
      have hi : i < axis.length := lt_length_of_getElem? hfi
      by_cases hjt : j = t
      · subst hjt
        rw [hin i hi, hst i j fi hj hfi, if_neg (Nat.lt_irrefl j), if_pos (Nat.lt_succ_self j)]
        rfl
      · rw [hout (i * ncols + j) (fun u _ heq => hjt (stride_inj ht hj heq).2.symm),
          hst i j fi hj hfi]
        congr 1
        by_cases hlt : j < t
        · rw [if_pos hlt, if_pos (by omega)]
        · rw [if_neg hlt, if_neg (by omega)])
  refine ⟨axis, f2, ha, halen, ?_, hl2, ?_⟩
  · unfold constructAzimuthCommonbandFilter
    simp only [toSizeT_natCast, ha, Option.some_bind, forSize, Nat.sub_zero, Nat.zero_add]
    exact Option.bind_eq_some.mpr ⟨f1, h1, h2⟩
  · intro i j fi hj hfi
    rw [hg2 i j fi hj hfi, if_pos hj]

/-! ## Gains in the unit interval -/

theorem writeAt_forall {α : Type} {P : α → Prop} {a a' : List α} {i : Nat} {v : α}
    (ha : ∀ e ∈ a, P e) (hv : P v) (h : writeAt a i v = some a') : ∀ e ∈ a', P e := by
  unfold writeAt at h
  split_ifs at h
  rw [← Option.some.inj h]
  intro e he
  rcases List.mem_or_eq_of_mem_set he with h1 | h1
  · exact ha e h1
  · exact h1 ▸ hv

theorem unitGain_one : UnitGain (⟨1.0, 0.0⟩ : Cplx K) := by
  refine ⟨?_, ?_, ?_⟩ <;> norm_num

theorem unitGain_zero : UnitGain (⟨0.0, 0.0⟩ : Cplx K) := by
  refine ⟨?_, ?_, ?_⟩ <;> norm_num

/-- The roll-off value lies in `[0, 1]` when `cos` takes values in `[-1, 1]`. -/
theorem unitGain_raisedCosine (pi : K) (cos : K → K) (hcos : ∀ x, -1 ≤ cos x ∧ cos x ≤ 1)
    (bandwidth beta freq : K) :
    UnitGain (⟨raisedCosine pi cos 1.0 bandwidth beta freq, 0.0⟩ : Cplx K) := by
  obtain ⟨h1, h2⟩ := hcos (pi / (bandwidth * beta) * (freq - 0.5 * (1.0 - beta) * bandwidth))
  unfold raisedCosine
  refine ⟨?_, ?_, ?_⟩
  · norm_num
    linarith
  · norm_num
    linarith
  · norm_num

theorem unitGain_cosineGain (pi : K) (cos : K → K) (hcos : ∀ x, -1 ≤ cos x ∧ cos x ≤ 1)
    (fmid bandwidth beta fi : K) (old : Cplx K) (hold : UnitGain old) :
    UnitGain (cosineGain pi cos fmid bandwidth beta fi old) := by
  unfold cosineGain
  split_ifs
  · exact unitGain_one
  · exact unitGain_raisedCosine pi cos hcos _ _ _
  · exact hold

/-- A fill loop with a unit gain keeps all entries unit gains. -/
theorem fill_unitGain (v : Cplx K) (hv : UnitGain v) (lo hi : Nat) (m m' : List (Cplx K))
    (hm : ∀ e ∈ m, UnitGain e)
    (h : forSize lo hi (fun ind st => writeAt st ind v) m = some m') :
    ∀ e ∈ m', UnitGain e :=
  foldlM_range_preserves (fun t st => writeAt st (lo + t) v) (fun st => ∀ e ∈ st, UnitGain e)
    (fun _ _ _ hst hw => writeAt_forall hst hv hw) (hi - lo) m m' hm h

theorem boxcarBand_unitGain [FloorRing K] (dt : K) (fft_size : Int) (c b : K)
    (m m' : List (Cplx K)) (hm : ∀ e ∈ m, UnitGain e)
    (h : boxcarBand dt fft_size c b m = some m') : ∀ e ∈ m', UnitGain e := by
  unfold boxcarBand at h
  simp only at h
  split_ifs at h
  · cases h1 : forSize (toSizeT (indexOfFrequency dt fft_size (c - b / 2))) (toSizeT fft_size)
      (fun ind st => writeAt st ind (⟨1.0, 0.0⟩ : Cplx K)) m with
    | none => rw [h1] at h; exact Option.noConfusion h
    | some m1 =>
      rw [h1] at h
      exact fill_unitGain _ unitGain_one _ _ _ _ (fill_unitGain _ unitGain_one _ _ _ _ hm h1) h
  · exact fill_unitGain _ unitGain_one _ _ _ _ hm h

theorem constructRangeBandpassBoxcar_unitGain [FloorRing K] (cs bs : List K) (dt : K)
    (fft_size : Int) (m m' : List (Cplx K)) (hm : ∀ e ∈ m, UnitGain e)
    (h : constructRangeBandpassBoxcar cs bs dt fft_size m = some m') :
    ∀ e ∈ m', UnitGain e := by
  refine foldlM_range_preserves
    (fun i st =>
      match cs[0 + i]?, bs[0 + i]? with
      | some c, some b => boxcarBand dt fft_size c b st
      | _, _ => none)
    (fun st => ∀ e ∈ st, UnitGain e) ?_ (cs.length - 0) m m' hm h
  intro t st st' hst hb
  simp only at hb
  split at hb
  · exact boxcarBand_unitGain _ _ _ _ _ _ hst hb
  · exact Option.noConfusion hb

theorem cosineBand_unitGain (pi : K) (cos : K → K) (hcos : ∀ x, -1 ≤ cos x ∧ cos x ≤ 1)
    (fmid bandwidth beta : K) (frequency : List K) (m m' : List (Cplx K))
    (hm : ∀ e ∈ m, UnitGain e)
    (h : cosineBand pi cos fmid bandwidth beta frequency m = some m') :
    ∀ e ∈ m', UnitGain e := by
  refine foldlM_range_preserves
    (fun i (st : List (Cplx K)) =>
      match frequency[0 + i]? with
      | none => none
      | some fi =>
        if |fi - fmid| ≤ 0.5 * bandwidth - 0.5 * bandwidth * beta then
          writeAt st (0 + i) ⟨1.0, 0.0⟩
        else if |fi - fmid| > 0.5 * bandwidth - 0.5 * bandwidth * beta ∧
            |fi - fmid| ≤ 0.5 * bandwidth + 0.5 * bandwidth * beta then
          writeAt st (0 + i) ⟨raisedCosine pi cos 1.0 bandwidth beta |fi - fmid|, 0.0⟩
        else some st)
    (fun st => ∀ e ∈ st, UnitGain e) ?_ (frequency.length - 0) m m' hm h
  intro t st st' hst hb
  simp only at hb
  split at hb
  · exact Option.noConfusion hb
  · split_ifs at hb
    · exact writeAt_forall hst unitGain_one hb
    · exact writeAt_forall hst (unitGain_raisedCosine pi cos hcos _ _ _) hb
    · rw [← Option.some.inj hb]; exact hst

theorem constructRangeBandpassCosine_unitGain (pi : K) (cos : K → K)
    (hcos : ∀ x, -1 ≤ cos x ∧ cos x ≤ 1) (cs bs frequency : List K)
    (beta : K) (m m' : List (Cplx K)) (hm : ∀ e ∈ m, UnitGain e)
    (h : constructRangeBandpassCosine pi cos cs bs frequency beta m = some m') :
    ∀ e ∈ m', UnitGain e := by
  refine foldlM_range_preserves
    (fun i st =>
      match cs[0 + i]?, bs[0 + i]? with
      | some fmid, some bandwidth => cosineBand pi cos fmid bandwidth beta frequency st
      | _, _ => none)
    (fun st => ∀ e ∈ st, UnitGain e) ?_ (cs.length - 0) m m' hm h
  intro t st st' hst hb
  simp only at hb
  split at hb
  · exact cosineBand_unitGain pi cos hcos _ _ _ _ _ _ hst hb
  · exact Option.noConfusion hb

/-- Every entry of the one-dimensional range mask is a unit gain. -/
theorem rangeFilter1D_unitGain [FloorRing K] (pi : K) (cos : K → K)
    (hcos : ∀ x, -1 ≤ cos x ∧ cos x ≤ 1) (fs : K) (cs bs : List K)
    (ncols : Nat) (filterType : String) (m : List (Cplx K))
    (h : rangeFilter1D pi cos fs cs bs ncols filterType = some m) : ∀ e ∈ m, UnitGain e := by
  have hz : ∀ e ∈ List.replicate ncols (⟨0.0, 0.0⟩ : Cplx K), UnitGain e := by
    intro e he
    rw [(List.mem_replicate.mp he).2]
    exact unitGain_zero
  unfold rangeFilter1D at h
  simp only [toSizeT_natCast] at h
  cases hf : fftfreq (1.0 / fs) (List.replicate ncols 0) with
  | none => rw [hf] at h; exact Option.noConfusion h
  | some fr =>
    rw [hf] at h
    simp only [Option.some_bind] at h
    split_ifs at h
    · exact constructRangeBandpassBoxcar_unitGain _ _ _ _ _ _ hz h
    · exact constructRangeBandpassCosine_unitGain pi cos hcos _ _ _ _ _ _ hz h
    · rw [← Option.some.inj h]; exact hz

/-- Dividing a unit gain by the constant `(n, n)`, `n ≥ 1`, leaves a real part in
`[0, 1]`. -/
theorem div_norm_re_bounds (e : Cplx K) (he : UnitGain e) (n : Nat) (hn : 1 ≤ n) :
    0 ≤ (e.div ⟨((n : Int) : K), ((n : Int) : K)⟩).re ∧
      (e.div ⟨((n : Int) : K), ((n : Int) : K)⟩).re ≤ 1 := by
  obtain ⟨h0, h1, him⟩ := he
  have hn' : (1 : K) ≤ (n : K) := by exact_mod_cast hn
  have hpos : (0 : K) < (n : K) * (n : K) + (n : K) * (n : K) := by positivity
  simp only [Cplx.div, him, Int.cast_natCast, zero_mul, add_zero]
  constructor
  · exact div_nonneg (mul_nonneg h0 (by linarith)) hpos.le
  · rw [div_le_one hpos]
    nlinarith [mul_nonneg h0 (by linarith : (0 : K) ≤ (n : K))]

/-- Real parts of the range mask lie in `[0, 1]`. -/
theorem rangeFilter_re_bounds [FloorRing K] (pi : K) (cos : K → K)
    (hcos : ∀ x, -1 ≤ cos x ∧ cos x ≤ 1) (fs : K) (cs bs : List K) (ncols nrows : Nat)
    (filterType : String) (mask1D : List (Cplx K)) (hc : 1 ≤ ncols)
    (h1D : rangeFilter1D pi cos fs cs bs ncols filterType = some mask1D) :
    ∃ out, constructRangeBandpassFilter pi cos fs cs bs ncols nrows filterType = some out ∧
      out.length = ncols * nrows ∧ ∀ e ∈ out, 0 ≤ e.re ∧ e.re ≤ 1 := by
  have hlen := rangeFilter1D_length pi cos fs cs bs ncols filterType mask1D h1D
  have hunit := rangeFilter1D_unitGain pi cos hcos fs cs bs ncols filterType mask1D h1D
  obtain ⟨out, ho, hol, hget⟩ := rangeFilterBlock_spec mask1D ncols nrows hlen
  refine ⟨out, ?_, hol, ?_⟩
  · unfold constructRangeBandpassFilter
    rw [h1D]
    exact ho
  · intro e he
    obtain ⟨k, hk⟩ := List.getElem?_of_mem he
    obtain ⟨i, j, hi, hj, rfl⟩ := stride_surj (hol ▸ lt_length_of_getElem? hk)
    rw [hget i j hi hj, List.getElem?_eq_getElem (by omega : j < mask1D.length)] at hk
    rw [← Option.some.inj hk]
    exact div_norm_re_bounds _ (hunit _ (List.getElem_mem _)) ncols hc

/-- Real parts of the azimuth mask lie in `[0, 1]`. -/
theorem azimuth_re_bounds (pi : K) (cos : K → K) (hcos : ∀ x, -1 ≤ cos x ∧ cos x ≤ 1)
    (ref sec : K → K) (bandwidth prf beta : K) (ncols nrows : Nat) (hr : 1 ≤ nrows) :
    ∃ out, constructAzimuthCommonbandFilter pi cos ref sec bandwidth prf beta ncols nrows
        = some out ∧
      out.length = ncols * nrows ∧ ∀ e ∈ out, 0 ≤ e.re ∧ e.re ≤ 1 := by
  obtain ⟨axis, out, _, halen, ho, hol, hget⟩ :=
    constructAzimuthCommonbandFilter_spec pi cos ref sec bandwidth prf beta ncols nrows hr
  refine ⟨out, ho, hol, ?_⟩
  intro e he
  obtain ⟨k, hk⟩ := List.getElem?_of_mem he
  obtain ⟨i, j, hi, hj, rfl⟩ := stride_surj (hol ▸ lt_length_of_getElem? hk)
  rw [hget i j axis[i] hj (List.getElem?_eq_getElem (by omega))] at hk
  rw [← Option.some.inj hk]
  exact div_norm_re_bounds _ (unitGain_cosineGain pi cos hcos _ _ _ _ _ unitGain_zero) nrows hr

/-! ## Faulting runs -/

/-- A counted loop faults when one of its iterations faults in every state
satisfying an invariant of the loop. -/
theorem foldlM_range_fault {σ : Type} (body : Nat → σ → Option σ) (Q : σ → Prop)
    (hbody : ∀ t st st', Q st → body t st = some st' → Q st') (t0 : Nat)
    (hf : ∀ st, Q st → body t0 st = none) :
    ∀ (n : Nat) (s : σ), Q s → t0 < n →
      (List.range n).foldlM (fun st t => body t st) s = none := by
  intro n
  induction n with
  | zero => intro s _ h; exact absurd h (Nat.not_lt_zero t0)
  | succ k ih =>
    intro s hs h
    rw [List.range_succ, List.foldlM_append]
    rcases Nat.lt_succ_iff_lt_or_eq.mp h with hlt | heq
    · rw [ih s hs hlt]
      rfl
    · subst heq
      cases h1 : (List.range t0).foldlM (fun st t => body t st) s with
      | none => rfl
      | some s1 =>
        have hQ := foldlM_range_preserves body Q hbody t0 s s1 hs h1
        simp [hf s1 hQ]

/-- A fill loop that starts inside the sequence and whose upper bound is past its
end faults: it reaches the index `m.length`. -/
theorem fill_fault {α : Type} (v : α) (lo hi : Nat) (m : List α) (hlo : lo ≤ m.length)
    (hhi : m.length < hi) : forSize lo hi (fun ind st => writeAt st ind v) m = none := by
  refine foldlM_range_fault (fun t st => writeAt st (lo + t) v) (fun st => st.length = m.length)
    (fun _ _ _ hst hw => (writeAt_length hw).trans hst) (m.length - lo) ?_ (hi - lo) m rfl
    (by omega)
  intro st hst
  have : ¬ lo + (m.length - lo) < st.length := by omega
  simp [writeAt, this]

/-- The frequency axis builder faults on an empty sequence: `N_mid` is
`(0 - 1) / 2 + 1 = 1` under truncating division, and `freq[0]` is written. -/
theorem fftfreq_nil (dt : K) : fftfreq dt [] = none := by
  have h : Int.tdiv (((0 : Nat) : Int) - 1) 2 + 1 = 1 := by decide
  unfold fftfreq forInt
  simp only [List.length_nil, h]
  simp [writeAt, toSizeT, List.range_succ]

/-- With no columns the range builder faults while building the frequency axis. -/
theorem constructRangeBandpassFilter_zero_cols [FloorRing K] (pi : K) (cos : K → K) (fs : K)
    (cs bs : List K) (nrows : Nat) (filterType : String) :
    constructRangeBandpassFilter pi cos fs cs bs 0 nrows filterType = none := by
  have h : toSizeT ((0 : Nat) : Int) = 0 := toSizeT_natCast 0
  unfold constructRangeBandpassFilter rangeFilter1D
  simp only [h, List.replicate, fftfreq_nil]
  rfl

/-- A boxcar band across the seam whose upper index lies past the end of the mask
faults in its second run. -/
theorem boxcarBand_fault [FloorRing K] (dt c b : K) (N : Nat) (m : List (Cplx K))
    (hs : c - b / 2 < 0 ∧ c + b / 2 ≥ 0)
    (hH : (m.length : Int) < indexOfFrequency dt (N : Int) (c + b / 2)) :
    boxcarBand dt (N : Int) c b m = none := by
  unfold boxcarBand
  simp only [if_pos hs]
  cases h1 : forSize (toSizeT (indexOfFrequency dt (N : Int) (c - b / 2))) (toSizeT (N : Int))
      (fun ind st => writeAt st ind (⟨1.0, 0.0⟩ : Cplx K)) m with
  | none => rfl
  | some m1 =>
    have hlen := fill_length _ _ _ _ _ h1
    simp only [Option.some_bind]
    apply fill_fault _ _ _ _ (Nat.zero_le _)
    rw [toSizeT_of_nonneg (by omega), hlen]
    omega

/-- The located upper index of the band `(0, 6)` on four bins with `dt = 1`. -/
theorem indexOfFrequency_wide [FloorRing K] : indexOfFrequency (1 : K) ((4 : Nat) : Int) (0 + 6 / 2) = 12 := by
  have h : ¬ ((0 : K) + 6 / 2 < 0) := by norm_num
  have e : ((0 : K) + 6 / 2) / (1 / (1 * (((4 : Nat) : Int) : K))) = ((12 : Int) : K) := by
    norm_num
  unfold indexOfFrequency
  simp only [if_neg h]
  rw [e, cround_intCast]

/-- The band `(0, 6)` on a four-bin mask with `dt = 1` makes the boxcar builder
write past the end of the mask. -/
theorem boxcar_wide_band_fault [FloorRing K] :
    constructRangeBandpassBoxcar [(0 : K)] [6] 1 ((4 : Nat) : Int) (List.replicate 4 ⟨0, 0⟩)
      = none := by
  rw [constructRangeBandpassBoxcar_single]
  apply boxcarBand_fault
  · constructor <;> norm_num
  · rw [indexOfFrequency_wide]
    simp

/-- With a single band the band loop of the cosine builder is one pass. -/
theorem constructRangeBandpassCosine_single (pi : K) (cos : K → K) (c b beta : K)
    (frequency : List K) (m : List (Cplx K)) :
    constructRangeBandpassCosine pi cos [c] [b] frequency beta m
      = cosineBand pi cos c b beta frequency m := by
  simp [constructRangeBandpassCosine, forSize, List.range_succ]

theorem cplx_zero_literal : (⟨0.0, 0.0⟩ : Cplx K) = ⟨0, 0⟩ := by
  congr 1 <;> norm_num

theorem cplx_one_literal : (⟨1.0, 0.0⟩ : Cplx K) = ⟨1, 0⟩ := by
  congr 1 <;> norm_num

/-- The single-band raised-cosine rule on an all-zero mask: it succeeds and bin
`i` receives `cosineGain` started from zero. -/
theorem cosine_single_band_spec (pi : K) (cos : K → K) (c b beta : K) (axis : List K) :
    ∃ col1D, constructRangeBandpassCosine pi cos [c] [b] axis beta
        (List.replicate axis.length ⟨0, 0⟩) = some col1D ∧
      col1D.length = axis.length ∧
      ∀ (i : Nat) (fi : K), axis[i]? = some fi →
        col1D[i]? = some (cosineGain pi cos c b beta fi ⟨0.0, 0.0⟩) := by
  obtain ⟨out, ho, hlen, hget⟩ := cosineBand_spec pi cos c b beta axis
    (List.replicate axis.length ⟨0, 0⟩) (by simp)
  refine ⟨out, by rw [constructRangeBandpassCosine_single]; exact ho, by simpa using hlen, ?_⟩
  intro i fi hfi
  rw [hget i fi ⟨0, 0⟩ hfi (by simp [lt_length_of_getElem? hfi]), cplx_zero_literal]

/-- In the transition region the real roll-off value is strictly below `1`. -/
theorem raisedCosine_lt_one (bandwidth beta freq : ℝ)
    (h1 : freq > 0.5 * bandwidth - 0.5 * bandwidth * beta)
    (h2 : freq ≤ 0.5 * bandwidth + 0.5 * bandwidth * beta) :
    raisedCosine Real.pi Real.cos 1.0 bandwidth beta freq < 1 := by
  have hd : 0 < freq - 0.5 * (1.0 - beta) * bandwidth := by
    norm_num at h1 ⊢
    linarith
  have hd2 : freq - 0.5 * (1.0 - beta) * bandwidth ≤ bandwidth * beta := by
    norm_num at h2 ⊢
    linarith
  have hbb : 0 < bandwidth * beta := lt_of_lt_of_le hd hd2
  have hx0 : 0 < Real.pi / (bandwidth * beta) * (freq - 0.5 * (1.0 - beta) * bandwidth) :=
    mul_pos (div_pos Real.pi_pos hbb) hd
  have hx1 : Real.pi / (bandwidth * beta) * (freq - 0.5 * (1.0 - beta) * bandwidth) ≤ Real.pi := by
    have := mul_le_mul_of_nonneg_left hd2 (div_pos Real.pi_pos hbb).le
    rwa [div_mul_cancel₀ _ hbb.ne'] at this
  have hne : Real.cos (Real.pi / (bandwidth * beta) *
      (freq - 0.5 * (1.0 - beta) * bandwidth)) ≠ 1 := by
    intro h
    have := (Real.cos_eq_one_iff_of_lt_of_lt (by linarith [Real.pi_pos])
      (by linarith [Real.pi_pos])).mp h
    linarith
  have hlt := lt_of_le_of_ne (Real.cos_le_one _) hne
  unfold raisedCosine
  norm_num
  linarith

/-- Over the reals a bin holds the full gain, started from zero, exactly in the
passband. -/
theorem cosineGain_eq_one_iff (fmid bandwidth beta fi : ℝ) :
    cosineGain Real.pi Real.cos fmid bandwidth beta fi ⟨0.0, 0.0⟩ = ⟨1, 0⟩ ↔
      |fi - fmid| ≤ 0.5 * bandwidth - 0.5 * bandwidth * beta := by
  unfold cosineGain
  by_cases hp : |fi - fmid| ≤ 0.5 * bandwidth - 0.5 * bandwidth * beta
  · rw [if_pos hp, cplx_one_literal]
    exact ⟨fun _ => hp, fun _ => rfl⟩
  · rw [if_neg hp]
    refine ⟨fun h => ?_, fun h => absurd h hp⟩
    exfalso
    by_cases ht : |fi - fmid| > 0.5 * bandwidth - 0.5 * bandwidth * beta ∧
        |fi - fmid| ≤ 0.5 * bandwidth + 0.5 * bandwidth * beta
    · rw [if_pos ht] at h
      have hre := congrArg Cplx.re h
      have := raisedCosine_lt_one bandwidth beta |fi - fmid| ht.1 ht.2
      simp only at hre
      linarith
    · rw [if_neg ht] at h
      have hre := congrArg Cplx.re h
      norm_num at hre

/-- Division by the constant `(n, n)`, `n ≥ 1`, is injective on real gains. -/
theorem div_norm_inj (a b : Cplx K) (ha : a.im = 0) (hb : b.im = 0) (n : Nat) (hn : 1 ≤ n)
    (h : a.div ⟨((n : Int) : K), ((n : Int) : K)⟩ = b.div ⟨((n : Int) : K), ((n : Int) : K)⟩) :
    a = b := by
  have hn' : (0 : K) < (n : K) := by exact_mod_cast hn
  have hpos : (0 : K) < (n : K) * (n : K) + (n : K) * (n : K) := by positivity
  have hre := congrArg Cplx.re h
  simp only [Cplx.div, ha, hb, Int.cast_natCast, zero_mul, add_zero] at hre
  rw [div_left_inj' hpos.ne'] at hre
  have hab : a.re = b.re := mul_right_cancel₀ hn'.ne' hre
  cases a
  cases b
  simp only at ha hb hab
  rw [ha, hb, hab]

/-- The range mask for one boxcar band of the full sampling bandwidth on a single
sample is `[1 / (1 + i)]`. -/
theorem rangeFilter_one_by_one :
    constructRangeBandpassFilter Real.pi Real.cos 1 [0] [1] 1 1 "boxcar"
      = some [⟨1 / 2, -1 / 2⟩] := by
  obtain ⟨out, ho, hol, hget⟩ := rangeFilterBlock_spec ([⟨1, 0⟩] : List (Cplx ℝ)) 1 1 rfl
  unfold constructRangeBandpassFilter
  rw [rangeFilter1D_one_column]
  simp only [Option.some_bind]
  rw [ho]
  congr 1
  apply List.ext_getElem?
  intro k
  by_cases hk : k < 1
  · have : k = 0 := by omega
    subst this
    have := hget 0 0 (by decide) (by decide)
    simp only [Nat.zero_mul, Nat.add_zero] at this
    rw [this]
    simp [Cplx.div, rangeNorm]
    norm_num
  · rw [List.getElem?_eq_none (by rw [hol]; omega),
      List.getElem?_eq_none (by simp only [List.length_singleton]; omega)]

/-- The frequency axis of four bins with unit sampling interval. -/
theorem fftfreq_four : fftfreq (1 : ℚ) [0, 0, 0, 0] = some [0, 1 / 4, -1 / 2, -1 / 4] := by
  obtain ⟨out, ho, hlen, hget⟩ := fftfreq_get (1 : ℚ) [0, 0, 0, 0] (by decide)
  rw [ho]
  congr 1
  apply List.ext_getElem?
  intro i
  by_cases hi : i < 4
  · rw [hget i hi]
    interval_cases i <;> simp [signedBin] <;> norm_num
  · rw [List.getElem?_eq_none (by rw [hlen]; simpa using hi),
      List.getElem?_eq_none (by simpa using hi)]

/-! ## Several boxcar bands -/

/-- One boxcar band with in-range indices, in terms of `boxcarSelects`. -/
theorem boxcarBand_selects [FloorRing K] (dt c b : K) (N : Nat) (m : List (Cplx K))
    (hm : m.length = N)
    (hL0 : 0 ≤ indexOfFrequency dt (N : Int) (c - b / 2))
    (hH0 : 0 ≤ indexOfFrequency dt (N : Int) (c + b / 2))
    (hH1 : indexOfFrequency dt (N : Int) (c + b / 2) ≤ (N : Int)) :
    ∃ out, boxcarBand dt (N : Int) c b m = some out ∧ out.length = N ∧
      ∀ k : Nat, (boxcarSelects dt N c b k → out[k]? = some ⟨1, 0⟩) ∧
        (¬ boxcarSelects dt N c b k → out[k]? = m[k]?) := by
  obtain ⟨out, ho, hlen, hget⟩ := boxcarBand_spec dt c b N m hm hL0 hH0 hH1
  refine ⟨out, ho, hlen, ?_⟩
  intro k
  constructor
  · intro h
    rw [hget k]
    exact if_pos h
  · intro h
    rw [hget k]
    exact if_neg h

/-- A selected bin is a bin of the mask. -/
theorem boxcarSelects_lt [FloorRing K] {dt c b : K} {N k : Nat}
    (hH1 : indexOfFrequency dt (N : Int) (c + b / 2) ≤ (N : Int))
    (h : boxcarSelects dt N c b k) : k < N := by
  rcases h with ⟨_, _, h | h⟩ | ⟨_, _, h⟩
  · exact h.2
  · omega
  · omega

/-- The boxcar builder on a list of bands with in-range indices: it succeeds, and
a bin ends at gain `1` if some band selects it and keeps its initial value
otherwise. -/
theorem constructRangeBandpassBoxcar_spec [FloorRing K] (dt : K) (N : Nat) (cs bs : List K)
    (m : List (Cplx K)) (hm : m.length = N) (hlen : cs.length = bs.length)
    (hin : ∀ (i : Nat) (c b : K), cs[i]? = some c → bs[i]? = some b →
      0 ≤ indexOfFrequency dt (N : Int) (c - b / 2) ∧
      0 ≤ indexOfFrequency dt (N : Int) (c + b / 2) ∧
      indexOfFrequency dt (N : Int) (c + b / 2) ≤ (N : Int)) :
    ∃ out, constructRangeBandpassBoxcar cs bs dt (N : Int) m = some out ∧ out.length = N ∧
      ∀ k : Nat,
        ((∃ (i : Nat) (c b : K), cs[i]? = some c ∧ bs[i]? = some b ∧ boxcarSelects dt N c b k) →
          out[k]? = some ⟨1, 0⟩) ∧
        ((¬ ∃ (i : Nat) (c b : K), cs[i]? = some c ∧ bs[i]? = some b ∧
            boxcarSelects dt N c b k) → out[k]? = m[k]?) := by
  obtain ⟨out, ho, hol, hP⟩ := foldlM_range_inv
    (fun i (st : List (Cplx K)) =>
      match cs[0 + i]?, bs[0 + i]? with
      | some c, some b => boxcarBand dt (N : Int) c b st
      | _, _ => none)
    (fun t st => st.length = N ∧
      ∀ k : Nat,
        ((∃ (i : Nat) (c b : K), i < t ∧ cs[i]? = some c ∧ bs[i]? = some b ∧
            boxcarSelects dt N c b k) → st[k]? = some ⟨1, 0⟩) ∧
        ((¬ ∃ (i : Nat) (c b : K), i < t ∧ cs[i]? = some c ∧ bs[i]? = some b ∧
            boxcarSelects dt N c b k) → st[k]? = m[k]?))
    cs.length m
    ⟨hm, fun k => ⟨fun ⟨i, _, _, hi, _⟩ => absurd hi (Nat.not_lt_zero i), fun _ => rfl⟩⟩
    (by
      rintro t ht st ⟨hstl, hst⟩
      obtain ⟨ct, hct⟩ : ∃ ct, cs[t]? = some ct := ⟨cs[t], List.getElem?_eq_getElem ht⟩
      obtain ⟨bt, hbt⟩ : ∃ bt, bs[t]? = some bt :=
        ⟨bs[t], List.getElem?_eq_getElem (by omega)⟩
      obtain ⟨hL0, hH0, hH1⟩ := hin t ct bt hct hbt
      obtain ⟨st', hst', hlen', hget⟩ := boxcarBand_selects dt ct bt N st hstl hL0 hH0 hH1
      refine ⟨st', by simp only [zero_add, hct, hbt]; exact hst', hlen', ?_⟩
      intro k
      by_cases hsel : boxcarSelects dt N ct bt k
      · constructor
        · intro _
          exact (hget k).1 hsel
        · intro hno
          exact absurd ⟨t, ct, bt, Nat.lt_succ_self t, hct, hbt, hsel⟩ hno
      · rw [(hget k).2 hsel]
        constructor
        · rintro ⟨i, c, b, hi, hc, hb, hs⟩
          rcases Nat.lt_succ_iff_lt_or_eq.mp hi with hlt | heq
          · exact (hst k).1 ⟨i, c, b, hlt, hc, hb, hs⟩
          · subst heq
            rw [hct] at hc
            rw [hbt] at hb
            rw [← Option.some.inj hc, ← Option.some.inj hb] at hs
            exact absurd hs hsel
        · intro hno
          exact (hst k).2 (fun ⟨i, c, b, hi, hc, hb, hs⟩ =>
            hno ⟨i, c, b, Nat.lt_succ_of_lt hi, hc, hb, hs⟩))
  refine ⟨out, ?_, hol, ?_⟩
  · unfold constructRangeBandpassBoxcar forSize
    simpa using ho
  · intro k
    constructor
    · rintro ⟨i, c, b, hc, hb, hs⟩
      exact (hP k).1 ⟨i, c, b, lt_length_of_getElem? hc, hc, hb, hs⟩
    · intro hno
      exact (hP k).2 (fun ⟨i, c, b, _, hc, hb, hs⟩ => hno ⟨i, c, b, hc, hb, hs⟩)

/-- A centre and a bandwidth occur at a common position of two lists exactly when
the pair is a member of the zipped list. -/
theorem exists_band_iff_mem_zip {α : Type} {cs bs : List α} {c b : α} :
    (∃ i : Nat, cs[i]? = some c ∧ bs[i]? = some b) ↔ (c, b) ∈ cs.zip bs := by
  rw [List.mem_iff_getElem?]
  constructor
  · rintro ⟨i, hc, hb⟩
    exact ⟨i, List.getElem?_zip_eq_some.mpr ⟨hc, hb⟩⟩
  · rintro ⟨i, hi⟩
    exact ⟨i, List.getElem?_zip_eq_some.mp hi⟩

/-- The run of a single band on an all-zero mask: the bins at gain `1` are the
selected bins. -/
theorem boxcar_own_run [FloorRing K] (dt c b : K) (N : Nat)
    (hL0 : 0 ≤ indexOfFrequency dt (N : Int) (c - b / 2))
    (hH0 : 0 ≤ indexOfFrequency dt (N : Int) (c + b / 2))
    (hH1 : indexOfFrequency dt (N : Int) (c + b / 2) ≤ (N : Int)) :
    ∃ own, constructRangeBandpassBoxcar [c] [b] dt (N : Int) (List.replicate N ⟨0, 0⟩)
        = some own ∧
      ∀ k : Nat, own[k]? = some ⟨1, 0⟩ ↔ boxcarSelects dt N c b k := by
  obtain ⟨own, ho, _, hget⟩ := boxcarBand_selects dt c b N (List.replicate N ⟨0, 0⟩)
    (by simp) hL0 hH0 hH1
  refine ⟨own, by rw [constructRangeBandpassBoxcar_single]; exact ho, ?_⟩
  intro k
  constructor
  · intro h
    by_contra hsel
    rw [(hget k).2 hsel, List.getElem?_replicate] at h
    split_ifs at h
    have := congrArg Cplx.re (Option.some.inj h)
    simp at this
  · exact (hget k).1

/-! ## Bands inside the Nyquist interval -/

/-- A frequency inside the Nyquist interval `[-1/(2 dt), 1/(2 dt)]` is located at
an index in `[0, N]`. -/
theorem indexOfFrequency_nyquist [FloorRing K] (dt : K) (hdt : 0 < dt) (N : Nat) (hN : 1 ≤ N)
    (f : K) (hlo : -(1 / (2 * dt)) ≤ f) (hhi : f ≤ 1 / (2 * dt)) :
    0 ≤ indexOfFrequency dt (N : Int) f ∧ indexOfFrequency dt (N : Int) f ≤ (N : Int) := by
  have hNpos : (0 : K) < (N : K) := by exact_mod_cast hN
  have hN1 : (1 : K) ≤ (N : K) := by exact_mod_cast hN
  have hs : (0 : K) < 1 / ((N : K) * dt) := by positivity
  have hfy := eq_scale_mul_div_df dt hdt N hN f
  have hnyq : 1 / (2 * dt) = 1 / ((N : K) * dt) * ((N : K) / 2) := by
    field_simp
    ring
  have hylo : -((N : K) / 2) ≤ f / (1 / (dt * ((N : Int) : K))) := by
    have : 1 / ((N : K) * dt) * (-((N : K) / 2))
        ≤ 1 / ((N : K) * dt) * (f / (1 / (dt * ((N : Int) : K)))) := by
      rw [← hfy, mul_neg, ← hnyq]; exact hlo
    exact le_of_mul_le_mul_left this hs
  have hyhi : f / (1 / (dt * ((N : Int) : K))) ≤ (N : K) / 2 := by
    have : 1 / ((N : K) * dt) * (f / (1 / (dt * ((N : Int) : K))))
        ≤ 1 / ((N : K) * dt) * ((N : K) / 2) := by
      rw [← hfy, ← hnyq]; exact hhi
    exact le_of_mul_le_mul_left this hs
  by_cases hf : f < 0
  · have hy := div_df_neg dt hdt N hN hf
    have hidx : indexOfFrequency dt (N : Int) f
        = cround (f / (1 / (dt * ((N : Int) : K))) + ((N : Int) : K)) := by
      simp [indexOfFrequency, hf]
    generalize f / (1 / (dt * ((N : Int) : K))) = y at hylo hyhi hy hidx
    have h0 : (0 : K) ≤ y + ((N : Int) : K) := by
      rw [Int.cast_natCast]; linarith
    rw [cround_of_nonneg h0] at hidx
    rw [hidx]
    constructor
    · rw [Int.floor_nonneg]; linarith
    · rw [← Int.lt_add_one_iff, Int.floor_lt, Int.cast_add, Int.cast_one]
      linarith
  · have hy := div_df_nonneg dt hdt N hN (not_lt.mp hf)
    have hidx : indexOfFrequency dt (N : Int) f = cround (f / (1 / (dt * ((N : Int) : K)))) := by
      simp [indexOfFrequency, hf]
    generalize f / (1 / (dt * ((N : Int) : K))) = y at hylo hyhi hy hidx
    rw [cround_of_nonneg hy] at hidx
    rw [hidx]
    constructor
    · rw [Int.floor_nonneg]; linarith
    · rw [← Int.lt_add_one_iff, Int.floor_lt, Int.cast_add, Int.cast_one, Int.cast_natCast]
      linarith

/-- The range builder with four columns, sampling frequency `1` and the band
`(0, 6)` faults while the one-dimensional mask is built. -/
theorem rangeFilter_wide_band_fault (nrows : Nat) :
    constructRangeBandpassFilter Real.pi Real.cos 1 [0] [6] 4 nrows "boxcar" = none := by
  have e : (1.0 : ℝ) / 1 = 1 := by norm_num
  unfold constructRangeBandpassFilter
  rw [rangeFilter1D_boxcar _ _ _ _ _ _ (by decide), e, boxcar_wide_band_fault]
  rfl

/-! ## The centred boxcar band -/

set_option maxHeartbeats 1000000 in
/-- The boxcar builder on the single band (centre `0`, bandwidth `B`) with
`0 < B ≤ 1/dt`, started from an all-zero mask of `N ≥ 1` bins with bin spacing
`df = 1/(N*dt)`: bin `i` of axis frequency `f` ends at gain `1` exactly when
`0 ≤ f ≤ B/2 - df/2` or `-B/2 - df/2 < f < 0`, and at gain `0` otherwise. -/
theorem boxcar_centred_band_rule [FloorRing K] (dt B : K) (hdt : 0 < dt) (hB : 0 < B)
    (hB1 : B ≤ 1 / dt) (N : Nat) (hN : 1 ≤ N) :
    ∃ axis mask, fftfreq dt (List.replicate N 0) = some axis ∧
      constructRangeBandpassBoxcar [0] [B] dt (N : Int) (List.replicate N ⟨0, 0⟩) = some mask ∧
      axis.length = N ∧ mask.length = N ∧
      ∀ (i : Nat) (fi : K), axis[i]? = some fi →
        mask[i]? = some
          (if (0 ≤ fi ∧ fi ≤ B / 2 - 1 / ((N : K) * dt) / 2) ∨
              (-(B / 2) - 1 / ((N : K) * dt) / 2 < fi ∧ fi < 0)
            then (⟨1, 0⟩ : Cplx K) else ⟨0, 0⟩) := by
  have hNpos : (0 : K) < (N : K) := by exact_mod_cast hN
  have hs : (0 : K) < 1 / ((N : K) * dt) := by positivity
  have hfH : (0 : K) ≤ 0 + B / 2 := by linarith
  have hfL : (0 : K) - B / 2 < 0 := by linarith
  -- the quotient `x = (B/2) / df`
  have hxB := eq_scale_mul_div_df dt hdt N hN (0 + B / 2)
  have hx0 := div_df_nonneg dt hdt N hN hfH
  have hxL : (0 - B / 2) / (1 / (dt * ((N : Int) : K)))
      = -((0 + B / 2) / (1 / (dt * ((N : Int) : K)))) := by
    rw [zero_sub, zero_add, neg_div]
  have hxN : (0 + B / 2) / (1 / (dt * ((N : Int) : K))) ≤ (N : K) / 2 := by
    have h1 : B * dt ≤ 1 := (le_div_iff₀ hdt).mp hB1
    have e : (0 + B / 2) / (1 / (dt * ((N : Int) : K))) = (B * dt) * (N : K) / 2 := by
      rw [Int.cast_natCast]
      field_simp
      ring
    rw [e]
    have := mul_le_mul_of_nonneg_right h1 hNpos.le
    linarith
  have hH : indexOfFrequency dt (N : Int) (0 + B / 2)
      = cround ((0 + B / 2) / (1 / (dt * ((N : Int) : K)))) := by
    simp only [indexOfFrequency, not_lt.mpr hfH, if_false]
  have hL : indexOfFrequency dt (N : Int) (0 - B / 2)
      = cround (-((0 + B / 2) / (1 / (dt * ((N : Int) : K)))) + (N : K)) := by
    simp only [indexOfFrequency, hfL, if_true]
    rw [hxL, Int.cast_natCast]
  generalize (0 + B / 2) / (1 / (dt * ((N : Int) : K))) = x at hxB hx0 hxN hH hL
  rw [cround_of_nonneg hx0] at hH
  rw [cround_of_nonneg (by linarith)] at hL
  obtain ⟨nm, hnm⟩ : ∃ nm : Nat, nm = (N - 1) / 2 + 1 := ⟨_, rfl⟩
  have hmidK : (2 : K) * (nm : K) ≤ (N : K) + 1 := by
    have : 2 * nm ≤ N + 1 := by omega
    exact_mod_cast this
  have hmidK' : (N : K) ≤ 2 * (nm : K) := by
    have : N ≤ 2 * nm := by omega
    exact_mod_cast this
  have hH0 : 0 ≤ indexOfFrequency dt (N : Int) (0 + B / 2) := by
    rw [hH, Int.floor_nonneg]; linarith
  have hHmid : indexOfFrequency dt (N : Int) (0 + B / 2) ≤ (nm : Int) := by
    rw [hH, ← Int.lt_add_one_iff, Int.floor_lt, Int.cast_add, Int.cast_one, Int.cast_natCast]
    linarith
  have hLmid : (nm : Int) ≤ indexOfFrequency dt (N : Int) (0 - B / 2) := by
    rw [hL, Int.le_floor, Int.cast_natCast]
    linarith
  obtain ⟨axis, ha, halen, hget⟩ := fftfreq_get dt (List.replicate N 0)
    (by simpa using hN)
  rw [List.length_replicate] at halen hget
  obtain ⟨mask, hm, hmlen, hmget⟩ := boxcarBand_spec dt 0 B N (List.replicate N ⟨0, 0⟩)
    (by simp) (by omega) hH0 (by omega)
  refine ⟨axis, mask, ha, by rw [constructRangeBandpassBoxcar_single]; exact hm, halen, hmlen, ?_⟩
  intro i fi hfi
  have hi : i < N := halen ▸ lt_length_of_getElem? hfi
  rw [hget i hi] at hfi
  have hfi' := (Option.some.inj hfi).symm
  have hhalf : 1 / ((N : K) * dt) / 2 = 1 / ((N : K) * dt) * (1 / 2) := by ring
  have hB2 : B / 2 = 1 / ((N : K) * dt) * x := by rw [← hxB]; ring
  have hiK : (i : K) < (N : K) := by exact_mod_cast hi
  have hi0 : (0 : K) ≤ (i : K) := Nat.cast_nonneg i
  rw [hmget i, List.getElem?_replicate, if_pos hi, hfi', hhalf]
  by_cases hlt : i < (N - 1) / 2 + 1
  · rw [signedBin_of_lt hlt, Int.cast_natCast]
    have hf0 : (0 : K) ≤ 1 / ((N : K) * dt) * (i : K) := mul_nonneg hs.le hi0
    by_cases hc : (i : K) ≤ x - 1 / 2
    · have hsel : (i : Int) < indexOfFrequency dt (N : Int) (0 + B / 2) := by
        rw [hH, ← Int.add_one_le_iff, Int.le_floor, Int.cast_add, Int.cast_one, Int.cast_natCast]
        linarith
      have hcond : 1 / ((N : K) * dt) * (i : K)
          ≤ B / 2 - 1 / ((N : K) * dt) * (1 / 2) := by
        have := mul_le_mul_of_nonneg_left hc hs.le
        linarith
      rw [if_pos (Or.inl ⟨hfL, hfH, Or.inr hsel⟩), if_pos (Or.inl ⟨hf0, hcond⟩)]
    · have hc' : x - 1 / 2 < (i : K) := not_le.mp hc
      have hnsel : ¬ (i : Int) < indexOfFrequency dt (N : Int) (0 + B / 2) := by
        rw [not_lt, hH]
        have hfl := Int.floor_le (x + 1 / 2)
        have h1 : ((⌊x + 1 / 2⌋ : Int) : K) < ((((i : Int)) + 1 : Int) : K) := by
          rw [Int.cast_add, Int.cast_one, Int.cast_natCast]
          linarith
        have := Int.cast_lt.mp h1
        omega
      have hncond : ¬ (1 / ((N : K) * dt) * (i : K)
          ≤ B / 2 - 1 / ((N : K) * dt) * (1 / 2)) := by
        intro h
        have h' : 1 / ((N : K) * dt) * (i : K) ≤ 1 / ((N : K) * dt) * (x - 1 / 2) := by
          linarith
        exact hc (le_of_mul_le_mul_left h' hs)
      rw [if_neg, if_neg]
      · rintro (⟨_, h⟩ | ⟨_, h⟩)
        · exact hncond h
        · linarith
      · rintro (⟨_, _, h | h⟩ | ⟨h, _⟩)
        · omega
        · exact hnsel h
        · exact h ⟨hfL, hfH⟩
  · have hge := Nat.not_lt.mp hlt
    rw [signedBin_of_ge hge, Int.cast_sub, Int.cast_natCast, Int.cast_natCast]
    have hfneg : 1 / ((N : K) * dt) * ((i : K) - (N : K)) < 0 :=
      mul_neg_of_pos_of_neg hs (by linarith)
    by_cases hc : -x - 1 / 2 < (i : K) - (N : K)
    · have hsel : indexOfFrequency dt (N : Int) (0 - B / 2) ≤ (i : Int) := by
        rw [hL]
        have hfl := Int.floor_le (-x + (N : K) + 1 / 2)
        have h1 : ((⌊-x + (N : K) + 1 / 2⌋ : Int) : K) < ((((i : Int)) + 1 : Int) : K) := by
          rw [Int.cast_add, Int.cast_one, Int.cast_natCast]
          linarith
        have := Int.cast_lt.mp h1
        omega
      have hcond : -(B / 2) - 1 / ((N : K) * dt) * (1 / 2)
          < 1 / ((N : K) * dt) * ((i : K) - (N : K)) := by
        have := mul_lt_mul_of_pos_left hc hs
        linarith
      rw [if_pos (Or.inl ⟨hfL, hfH, Or.inl ⟨hsel, hi⟩⟩), if_pos (Or.inr ⟨hcond, hfneg⟩)]
    · have hc' : (i : K) - (N : K) ≤ -x - 1 / 2 := not_lt.mp hc
      have hnsel : ¬ indexOfFrequency dt (N : Int) (0 - B / 2) ≤ (i : Int) := by
        have h3 : (i : Int) + 1 ≤ indexOfFrequency dt (N : Int) (0 - B / 2) := by
          rw [hL, Int.le_floor, Int.cast_add, Int.cast_one, Int.cast_natCast]
          linarith
        omega
      have hncond : ¬ (-(B / 2) - 1 / ((N : K) * dt) * (1 / 2)
          < 1 / ((N : K) * dt) * ((i : K) - (N : K))) := by
        intro h
        have h' : 1 / ((N : K) * dt) * (-x - 1 / 2)
            < 1 / ((N : K) * dt) * ((i : K) - (N : K)) := by
          linarith
        exact hc (lt_of_mul_lt_mul_left h' hs.le)
      rw [if_neg, if_neg]
      · rintro (⟨h, _⟩ | ⟨h, _⟩)
        · linarith
        · exact hncond h
      · rintro (⟨_, _, h | h⟩ | ⟨h, _⟩)
        · exact hnsel h.1
        · omega
        · exact h ⟨hfL, hfH⟩

/-! ## The complex normalisation constant -/

/-- Division by the constant `n + i n`: the quotient of `a + i b` is
`(a + b)/(2 n) + i (b - a)/(2 n)`. -/
theorem div_complex_norm (v : Cplx K) (n : Nat) (hn : 1 ≤ n) :
    v.div ⟨((n : Int) : K), ((n : Int) : K)⟩
      = ⟨(v.re + v.im) / (2 * (n : K)), (v.im - v.re) / (2 * (n : K))⟩ := by
  have hn' : (0 : K) < (n : K) := by exact_mod_cast hn
  simp only [Cplx.div, Int.cast_natCast, Cplx.mk.injEq]
  constructor
  · field_simp
    ring
  · field_simp
    ring

/-- The quotient by `n + i n` agrees with the quotient by the real number `n * m`
only for the value zero. -/
theorem div_complex_norm_eq_real_iff (v : Cplx K) (n m : Nat) (hn : 1 ≤ n) (hm : 1 ≤ m) :
    (⟨(v.re + v.im) / (2 * (n : K)), (v.im - v.re) / (2 * (n : K))⟩ : Cplx K)
        = ⟨v.re / ((n : K) * (m : K)), v.im / ((n : K) * (m : K))⟩ ↔ v = ⟨0, 0⟩ := by
  have hn' : (0 : K) < (n : K) := by exact_mod_cast hn
  have hm' : (0 : K) < (m : K) := by exact_mod_cast hm
  obtain ⟨a, b⟩ := v
  simp only [Cplx.mk.injEq]
  constructor
  · rintro ⟨h1, h2⟩
    rw [div_eq_div_iff (by positivity) (by positivity)] at h1 h2
    have e1 : (m : K) * (a + b) = 2 * a := by
      have : (n : K) * ((m : K) * (a + b)) = (n : K) * (2 * a) := by linarith
      exact mul_left_cancel₀ hn'.ne' this
    have e2 : (m : K) * (b - a) = 2 * b := by
      have : (n : K) * ((m : K) * (b - a)) = (n : K) * (2 * b) := by linarith
      exact mul_left_cancel₀ hn'.ne' this
    have e3 : ((m : K) * (m : K) + ((m : K) - 2) * ((m : K) - 2)) * a = 0 := by
      have h3 : ((m : K) - 2) * ((m : K) * (a + b)) = ((m : K) - 2) * (2 * a) := by rw [e1]
      have h4 : (m : K) * ((m : K) * (b - a)) = (m : K) * (2 * b) := by rw [e2]
      have h5 : (m : K) * b = (2 - (m : K)) * a := by linarith
      have h6 : ((m : K) - 2) * b = (m : K) * a := by linarith
      have h7 : ((m : K) - 2) * ((m : K) * b) = ((m : K) - 2) * ((2 - (m : K)) * a) := by rw [h5]
      have h8 : (m : K) * (((m : K) - 2) * b) = (m : K) * ((m : K) * a) := by rw [h6]
      linarith
    have hpos : (0 : K) < (m : K) * (m : K) + ((m : K) - 2) * ((m : K) - 2) := by
      have := mul_pos hm' hm'
      have := mul_self_nonneg ((m : K) - 2)
      linarith
    have ha : a = 0 := by
      rcases mul_eq_zero.mp e3 with h | h
      · exact absurd h hpos.ne'
      · exact h
    have hb : b = 0 := by
      rw [ha] at e1
      have : (m : K) * b = 0 := by linarith
      rcases mul_eq_zero.mp this with h | h
      · exact absurd h hm'.ne'
      · exact h
    exact ⟨ha, hb⟩
  · rintro ⟨ha, hb⟩
    rw [ha, hb]
    simp

/-! ## Claims -/

/-- C1. For every length `N ≥ 1` and `dt > 0`, `fftfreq` succeeds and fills all
`N` bins: with `N_mid = (N-1)/2 + 1 ≤ N`, bin `i < N_mid` holds `i / (N * dt)` and
bin `N_mid + m`, `m < N - N_mid`, holds `(m - N/2) / (N * dt)`; the two index
ranges together are exactly the `N` bins, each covered once. -/
theorem fftfreq_fills_every_bin (dt : K) (_hdt : 0 < dt) (freq : List K)
    (hN : 1 ≤ freq.length) :
    ∃ out, fftfreq dt freq = some out ∧ out.length = freq.length ∧
      (freq.length - 1) / 2 + 1 ≤ freq.length ∧
      (∀ i : Nat, i < (freq.length - 1) / 2 + 1 →
        out[i]? = some ((i : K) / ((freq.length : K) * dt))) ∧
      (∀ m : Nat, m < freq.length - ((freq.length - 1) / 2 + 1) →
        out[(freq.length - 1) / 2 + 1 + m]? =
          some (((m : K) - ((freq.length / 2 : Nat) : K)) / ((freq.length : K) * dt))) := by
  obtain ⟨out, ho, hlen, hpos, hneg⟩ := fftfreq_spec dt freq hN
  refine ⟨out, ho, hlen, by omega, ?_, ?_⟩
  · intro i hi
    rw [hpos i hi]
    simp only [Int.cast_natCast]
    congr 1
    ring
  · intro m hm
    rw [hneg m (by omega)]
    simp only [Int.cast_natCast, Int.cast_add, Int.cast_neg]
    congr 1
    ring

theorem fftfreq_fills_every_bin_witness :
    ∃ out, fftfreq (1 : ℚ) [7, 7, 7, 7] = some out ∧ out.length = [(7 : ℚ), 7, 7, 7].length ∧
      ([(7 : ℚ), 7, 7, 7].length - 1) / 2 + 1 ≤ [(7 : ℚ), 7, 7, 7].length ∧
      (∀ i : Nat, i < ([(7 : ℚ), 7, 7, 7].length - 1) / 2 + 1 →
        out[i]? = some ((i : ℚ) / (([(7 : ℚ), 7, 7, 7].length : ℚ) * 1))) ∧
      (∀ m : Nat, m < [(7 : ℚ), 7, 7, 7].length - (([(7 : ℚ), 7, 7, 7].length - 1) / 2 + 1) →
        out[([(7 : ℚ), 7, 7, 7].length - 1) / 2 + 1 + m]? =
          some (((m : ℚ) - (([(7 : ℚ), 7, 7, 7].length / 2 : Nat) : ℚ)) /
            (([(7 : ℚ), 7, 7, 7].length : ℚ) * 1))) :=
  fftfreq_fills_every_bin (1 : ℚ) (by norm_num) [7, 7, 7, 7] (by decide)

/-- C2. Round-trip law: for `N ≥ 1` and `dt > 0` the axis built by `fftfreq` exists
and `indexOfFrequency dt N` maps the value stored in every bin `i` back to `i`. -/
theorem indexOfFrequency_fftfreq_roundtrip [FloorRing K] (dt : K) (hdt : 0 < dt)
    (freq : List K) (hN : 1 ≤ freq.length) :
    ∃ out, fftfreq dt freq = some out ∧ out.length = freq.length ∧
      ∀ (i : Nat) (f : K), out[i]? = some f →
        indexOfFrequency dt (freq.length : Int) f = (i : Int) := by
  obtain ⟨out, ho, hlen, hget⟩ := fftfreq_get dt freq hN
  refine ⟨out, ho, hlen, ?_⟩
  intro i f hf
  have hi : i < freq.length := by
    by_contra hcon
    rw [List.getElem?_eq_none (by omega)] at hf
    exact Option.noConfusion hf
  rw [hget i hi] at hf
  have hf' := (Option.some.inj hf).symm
  have hNpos : (0 : K) < (freq.length : K) := by exact_mod_cast hN
  have hscale : (0 : K) < 1 / ((freq.length : K) * dt) := by positivity
  unfold indexOfFrequency
  simp only
  rw [hf', scale_div_df dt hdt _ hN]
  by_cases h : i < (freq.length - 1) / 2 + 1
  · rw [signedBin_of_lt h]
    have : ¬ (1 / ((freq.length : K) * dt) * (((i : Int)) : K) < 0) := by
      have : (0 : K) ≤ (((i : Int)) : K) := by simp
      have := mul_nonneg hscale.le this
      linarith
    rw [if_neg this]
    exact cround_intCast _
  · have hge := Nat.not_lt.mp h
    rw [signedBin_of_ge hge]
    have hneg : (1 / ((freq.length : K) * dt) * (((i : Int) - (freq.length : Int) : Int) : K) < 0) := by
      apply mul_neg_of_pos_of_neg hscale
      have : ((i : Int) - (freq.length : Int)) < 0 := by omega
      exact_mod_cast this
    rw [if_pos hneg]
    have : (((i : Int) - (freq.length : Int) : Int) : K) + (((freq.length : Int)) : K)
        = (((i : Int)) : K) := by push_cast; ring
    rw [this]
    exact cround_intCast _

theorem indexOfFrequency_fftfreq_roundtrip_witness :
    ∃ out, fftfreq (1 / 2 : ℚ) [0, 0, 0, 0, 0] = some out ∧
      out.length = [(0 : ℚ), 0, 0, 0, 0].length ∧
      ∀ (i : Nat) (f : ℚ), out[i]? = some f →
        indexOfFrequency (1 / 2 : ℚ) ([(0 : ℚ), 0, 0, 0, 0].length : Int) f = (i : Int) :=
  indexOfFrequency_fftfreq_roundtrip (1 / 2 : ℚ) (by norm_num) [0, 0, 0, 0, 0] (by decide)

/-- C3 (refuted as stated). At `N = 4`, `dt = 1`, `f = -1/8` (so `f/df = -1/2`)
`indexOfFrequency` returns `4`, whereas `round(f/df) + N` is `3`. -/
theorem indexOfFrequency_neg_half_counterexample :
    (-1 / 8 : ℚ) < 0 ∧ indexOfFrequency (1 : ℚ) 4 (-1 / 8) = 4 ∧
      cround ((-1 / 8 : ℚ) / (1 / (1 * ((4 : Int) : ℚ)))) + 4 = 3 ∧
      indexOfFrequency (1 : ℚ) 4 (-1 / 8) ≠
        cround ((-1 / 8 : ℚ) / (1 / (1 * ((4 : Int) : ℚ)))) + 4 := by
  have h1 : indexOfFrequency (1 : ℚ) 4 (-1 / 8) = 4 := by
    unfold indexOfFrequency cround
    norm_num
  have h2 : cround ((-1 / 8 : ℚ) / (1 / (1 * ((4 : Int) : ℚ)))) + 4 = 3 := by
    have e : (-1 / 8 : ℚ) / (1 / (1 * ((4 : Int) : ℚ))) = ((-1 : Int) : ℚ) + 1 / 2 := by norm_num
    rw [e, cround_of_neg (by norm_num)]
    have e2 : ((-1 : Int) : ℚ) + 1 / 2 - 1 / 2 = ((-1 : Int) : ℚ) := by ring
    rw [e2, Int.ceil_intCast]
    rfl
  refine ⟨by norm_num, h1, h2, ?_⟩
  rw [h1, h2]
  decide

/-- C3 (amended). With `df = 1/(dt*N)`, `N ≥ 1`, `dt > 0`: for `f ≥ 0` the result is
`round(f/df)`; for `f < 0` it is `round(f/df + N)`, which is `round(f/df) + N`
unless `f/df` is a half-integer with `0 ≤ f/df + N`, and `round(f/df) + N + 1`
at those half-integers. -/
theorem indexOfFrequency_round_cases [FloorRing K] (dt : K) (hdt : 0 < dt) (N : Nat)
    (hN : 1 ≤ N) (f : K) :
    indexOfFrequency dt (N : Int) f =
      if f < 0 then
        if 0 ≤ f / (1 / (dt * ((N : Int) : K))) + ((N : Int) : K) ∧
            Int.fract (f / (1 / (dt * ((N : Int) : K))) + 1 / 2) = 0 then
          cround (f / (1 / (dt * ((N : Int) : K)))) + (N : Int) + 1
        else cround (f / (1 / (dt * ((N : Int) : K)))) + (N : Int)
      else cround (f / (1 / (dt * ((N : Int) : K)))) := by
  by_cases hf : f < 0
  · have hy := div_df_neg dt hdt N hN hf
    simp only [indexOfFrequency, hf, if_true]
    exact cround_add_int_of_neg hy _
  · simp only [indexOfFrequency, hf, if_false]

theorem indexOfFrequency_round_cases_witness :
    indexOfFrequency (1 : ℚ) ((4 : Nat) : Int) (-1 / 8) =
      if (-1 / 8 : ℚ) < 0 then
        if 0 ≤ (-1 / 8 : ℚ) / (1 / (1 * (((4 : Nat) : Int) : ℚ))) + (((4 : Nat) : Int) : ℚ) ∧
            Int.fract ((-1 / 8 : ℚ) / (1 / (1 * (((4 : Nat) : Int) : ℚ))) + 1 / 2) = 0 then
          cround ((-1 / 8 : ℚ) / (1 / (1 * (((4 : Nat) : Int) : ℚ)))) + ((4 : Nat) : Int) + 1
        else cround ((-1 / 8 : ℚ) / (1 / (1 * (((4 : Nat) : Int) : ℚ)))) + ((4 : Nat) : Int)
      else cround ((-1 / 8 : ℚ) / (1 / (1 * (((4 : Nat) : Int) : ℚ)))) :=
  indexOfFrequency_round_cases (1 : ℚ) (by norm_num) 4 (by decide) (-1 / 8)

/-- C4 (refuted as stated). On the length-4 axis `[0, 1/4, -1/2, -1/4]` (`dt = 1`)
the target `f = -3/40` lies between the smallest and the largest axis value, yet
`indexOfFrequency` returns `4`, which is not an index below `N = 4`. -/
theorem indexOfFrequency_out_of_range_counterexample :
    fftfreq (1 : ℚ) [0, 0, 0, 0] = some [0, 1 / 4, -1 / 2, -1 / 4] ∧
      (-1 / 2 : ℚ) ≤ -3 / 40 ∧ (-3 / 40 : ℚ) ≤ 1 / 4 ∧
      indexOfFrequency (1 : ℚ) 4 (-3 / 40) = 4 ∧
      ¬ (indexOfFrequency (1 : ℚ) 4 (-3 / 40) < 4) := by
  have h1 : indexOfFrequency (1 : ℚ) 4 (-3 / 40) = 4 := by
    unfold indexOfFrequency cround
    norm_num
  refine ⟨?_, by norm_num, by norm_num, h1, ?_⟩
  · obtain ⟨out, ho, hlen, hget⟩ := fftfreq_get (1 : ℚ) [0, 0, 0, 0] (by decide)
    rw [ho]
    congr 1
    apply List.ext_getElem?
    intro i
    by_cases hi : i < 4
    · rw [hget i hi]
      interval_cases i <;> simp [signedBin] <;> norm_num
    · rw [List.getElem?_eq_none (by rw [hlen]; simpa using hi),
        List.getElem?_eq_none (by simpa using hi)]
  · rw [h1]
    decide

/-- C4 (amended). For `N ≥ 1`, `dt > 0` and a target `f` between the smallest and
the largest value of the axis built by `fftfreq`, `indexOfFrequency` returns `n`
with `0 ≤ n ≤ N`; `n = N` occurs only for `-df/2 ≤ f < 0` and stands for bin `0`;
the bin `n mod N` holds an axis frequency nearest to `f`. -/
theorem indexOfFrequency_nearest_mod [FloorRing K] (dt : K) (hdt : 0 < dt) (freq : List K)
    (hN : 1 ≤ freq.length) :
    ∃ out, fftfreq dt freq = some out ∧ out.length = freq.length ∧
      ∀ f : K, (∃ a ∈ out, a ≤ f) → (∃ b ∈ out, f ≤ b) →
        0 ≤ indexOfFrequency dt (freq.length : Int) f ∧
        indexOfFrequency dt (freq.length : Int) f ≤ (freq.length : Int) ∧
        (indexOfFrequency dt (freq.length : Int) f = (freq.length : Int) →
          f < 0 ∧ -(1 / ((freq.length : K) * dt) / 2) ≤ f) ∧
        ∃ fn, out[(indexOfFrequency dt (freq.length : Int) f % (freq.length : Int)).toNat]?
              = some fn ∧
          ∀ (m : Nat) (fm : K), out[m]? = some fm → |fn - f| ≤ |fm - f| := by
  obtain ⟨out, ho, hlen, hget⟩ := fftfreq_get dt freq hN
  refine ⟨out, ho, hlen, ?_⟩
  rintro f ⟨a, ha, haf⟩ ⟨b, hb, hfb⟩
  have hNpos : (0 : K) < (freq.length : K) := by exact_mod_cast hN
  have hs : (0 : K) < 1 / ((freq.length : K) * dt) := by positivity
  have hfy := eq_scale_mul_div_df dt hdt freq.length hN f
  obtain ⟨ia, hia⟩ := List.getElem?_of_mem ha
  obtain ⟨ib, hib⟩ := List.getElem?_of_mem hb
  have hia_lt : ia < freq.length := hlen ▸ lt_length_of_getElem? hia
  have hib_lt : ib < freq.length := hlen ▸ lt_length_of_getElem? hib
  rw [hget ia hia_lt] at hia
  rw [hget ib hib_lt] at hib
  have hlo : (-((freq.length / 2 : Nat) : Int) : K)
      ≤ f / (1 / (dt * ((freq.length : Int) : K))) := by
    have h1 : ((-((freq.length / 2 : Nat) : Int) : Int) : K) ≤ ((signedBin freq.length ia : Int) : K) :=
      Int.cast_le.mpr (signedBin_bounds hia_lt).1
    have h2 : 1 / ((freq.length : K) * dt) * ((signedBin freq.length ia : Int) : K)
        ≤ 1 / ((freq.length : K) * dt) * (f / (1 / (dt * ((freq.length : Int) : K)))) := by
      rw [← hfy, Option.some.inj hia]; exact haf
    have h3 := le_of_mul_le_mul_left h2 hs
    rw [Int.cast_neg] at h1
    linarith
  have hhi : f / (1 / (dt * ((freq.length : Int) : K)))
      ≤ ((((freq.length - 1) / 2 : Nat) : Int) : K) := by
    have h1 : ((signedBin freq.length ib : Int) : K) ≤ ((((freq.length - 1) / 2 : Nat) : Int) : K) :=
      Int.cast_le.mpr (signedBin_bounds hib_lt).2
    have h2 : 1 / ((freq.length : K) * dt) * (f / (1 / (dt * ((freq.length : Int) : K))))
        ≤ 1 / ((freq.length : K) * dt) * ((signedBin freq.length ib : Int) : K) := by
      rw [← hfy, Option.some.inj hib]; exact hfb
    have h3 := le_of_mul_le_mul_left h2 hs
    linarith
  obtain ⟨h0, hle, hN', hmod, hnear⟩ :=
    indexOfFrequency_signedBin dt hdt freq.length hN f hlo hhi
  refine ⟨h0, hle, ?_, _, hget _ hmod, ?_⟩
  · intro heq
    obtain ⟨hneg, hhalf⟩ := hN' heq
    refine ⟨hneg, ?_⟩
    have := mul_le_mul_of_nonneg_left hhalf hs.le
    rw [← hfy] at this
    linarith
  · intro m fm hm
    have hm_lt : m < freq.length := hlen ▸ lt_length_of_getElem? hm
    rw [hget m hm_lt] at hm
    rw [← Option.some.inj hm]
    have key := nearest_of_abs_le_half _ (signedBin freq.length m) _ hnear
    have e : ∀ k : Int, |1 / ((freq.length : K) * dt) * (k : K) - f|
        = 1 / ((freq.length : K) * dt) * |(k : K) - f / (1 / (dt * ((freq.length : Int) : K)))| := by
      intro k
      conv_lhs => rw [hfy]
      rw [← mul_sub, abs_mul, abs_of_pos hs]
    rw [e, e]
    exact mul_le_mul_of_nonneg_left key hs.le

theorem indexOfFrequency_nearest_mod_witness :
    ∃ out, fftfreq (1 : ℚ) [0, 0, 0, 0] = some out ∧ out.length = [(0 : ℚ), 0, 0, 0].length ∧
      ∀ f : ℚ, (∃ a ∈ out, a ≤ f) → (∃ b ∈ out, f ≤ b) →
        0 ≤ indexOfFrequency (1 : ℚ) ([(0 : ℚ), 0, 0, 0].length : Int) f ∧
        indexOfFrequency (1 : ℚ) ([(0 : ℚ), 0, 0, 0].length : Int) f
          ≤ ([(0 : ℚ), 0, 0, 0].length : Int) ∧
        (indexOfFrequency (1 : ℚ) ([(0 : ℚ), 0, 0, 0].length : Int) f
            = ([(0 : ℚ), 0, 0, 0].length : Int) →
          f < 0 ∧ -(1 / (([(0 : ℚ), 0, 0, 0].length : ℚ) * 1) / 2) ≤ f) ∧
        ∃ fn, out[(indexOfFrequency (1 : ℚ) ([(0 : ℚ), 0, 0, 0].length : Int) f
              % ([(0 : ℚ), 0, 0, 0].length : Int)).toNat]? = some fn ∧
          ∀ (m : Nat) (fm : ℚ), out[m]? = some fm → |fn - f| ≤ |fm - f| :=
  indexOfFrequency_nearest_mod (1 : ℚ) (by norm_num) [0, 0, 0, 0] (by decide)

/-- C5. A single sub-band `(c, b)` applied by `constructRangeBandpassBoxcar` to an
all-zero mask of length `N`, with both located indices in `[0, N]`: the builder
succeeds; if `fL < 0 ≤ fH` the bins with gain 1 are exactly those in `[indL, N)`
and `[0, indH)`, otherwise exactly those in `[indL, indH)`; all other bins are 0. -/
theorem boxcar_single_band_runs [FloorRing K] (dt c b : K) (N : Nat)
    (hL0 : 0 ≤ indexOfFrequency dt (N : Int) (c - b / 2))
    (_hL1 : indexOfFrequency dt (N : Int) (c - b / 2) ≤ (N : Int))
    (hH0 : 0 ≤ indexOfFrequency dt (N : Int) (c + b / 2))
    (hH1 : indexOfFrequency dt (N : Int) (c + b / 2) ≤ (N : Int)) :
    ∃ out, constructRangeBandpassBoxcar [c] [b] dt (N : Int) (List.replicate N ⟨0, 0⟩) = some out ∧
      out.length = N ∧
      ∀ k : Nat, k < N → out[k]? = some
        (if (c - b / 2 < 0 ∧ 0 ≤ c + b / 2 ∧
              (indexOfFrequency dt (N : Int) (c - b / 2) ≤ (k : Int) ∨
                (k : Int) < indexOfFrequency dt (N : Int) (c + b / 2))) ∨
            (¬ (c - b / 2 < 0 ∧ 0 ≤ c + b / 2) ∧
              indexOfFrequency dt (N : Int) (c - b / 2) ≤ (k : Int) ∧
              (k : Int) < indexOfFrequency dt (N : Int) (c + b / 2))
          then (⟨1, 0⟩ : Cplx K) else ⟨0, 0⟩) := by
  obtain ⟨out, ho, hlen, hget⟩ := boxcarBand_spec dt c b N (List.replicate N ⟨0, 0⟩)
    (by simp) hL0 hH0 hH1
  refine ⟨out, by rw [constructRangeBandpassBoxcar_single]; exact ho, hlen, ?_⟩
  intro k hk
  rw [hget k]
  simp only [hk, and_true, List.getElem?_replicate, if_true]
  split_ifs <;> rfl

theorem boxcar_single_band_runs_witness :
    ∃ out, constructRangeBandpassBoxcar [(0 : ℚ)] [1 / 2] 1 ((4 : Nat) : Int)
        (List.replicate 4 ⟨0, 0⟩) = some out ∧
      out.length = 4 ∧
      ∀ k : Nat, k < 4 → out[k]? = some
        (if ((0 : ℚ) - 1 / 2 / 2 < 0 ∧ 0 ≤ (0 : ℚ) + 1 / 2 / 2 ∧
              (indexOfFrequency (1 : ℚ) ((4 : Nat) : Int) (0 - 1 / 2 / 2) ≤ (k : Int) ∨
                (k : Int) < indexOfFrequency (1 : ℚ) ((4 : Nat) : Int) (0 + 1 / 2 / 2))) ∨
            (¬ ((0 : ℚ) - 1 / 2 / 2 < 0 ∧ 0 ≤ (0 : ℚ) + 1 / 2 / 2) ∧
              indexOfFrequency (1 : ℚ) ((4 : Nat) : Int) (0 - 1 / 2 / 2) ≤ (k : Int) ∧
              (k : Int) < indexOfFrequency (1 : ℚ) ((4 : Nat) : Int) (0 + 1 / 2 / 2))
          then (⟨1, 0⟩ : Cplx ℚ) else ⟨0, 0⟩) :=
  boxcar_single_band_runs (1 : ℚ) 0 (1 / 2) 4
    (by unfold indexOfFrequency cround; norm_num)
    (by unfold indexOfFrequency cround; norm_num)
    (by unfold indexOfFrequency cround; norm_num)
    (by unfold indexOfFrequency cround; norm_num)

/-- C6 (refuted as stated). `N = 8`, `dt = 1`, one band with centre `0` and
bandwidth `B = 3/5`: bin `2` has axis frequency `1/4`, strictly inside
`(-3/10, 3/10)`, and yet keeps gain `0`, because `indH = round(2.4) = 2`. -/
theorem boxcar_passband_counterexample :
    ∃ axis mask, fftfreq (1 : ℚ) (List.replicate 8 0) = some axis ∧
      constructRangeBandpassBoxcar [(0 : ℚ)] [3 / 5] 1 8 (List.replicate 8 ⟨0, 0⟩) = some mask ∧
      (0 : ℚ) < 3 / 5 ∧ (3 / 5 : ℚ) ≤ 1 / 1 ∧
      axis[2]? = some (1 / 4) ∧ -((3 / 5 : ℚ) / 2) < 1 / 4 ∧ (1 / 4 : ℚ) < (3 / 5) / 2 ∧
      mask[2]? = some ⟨0, 0⟩ := by
  have hL : indexOfFrequency (1 : ℚ) ((8 : Nat) : Int) (0 - 3 / 5 / 2) = 6 := by
    unfold indexOfFrequency cround
    norm_num
  have hH : indexOfFrequency (1 : ℚ) ((8 : Nat) : Int) (0 + 3 / 5 / 2) = 2 := by
    unfold indexOfFrequency cround
    norm_num
  obtain ⟨axis, ha, _, hget⟩ := fftfreq_get (1 : ℚ) (List.replicate 8 0) (by simp)
  obtain ⟨mask, hm, _, hmget⟩ := boxcarBand_spec (1 : ℚ) 0 (3 / 5) 8 (List.replicate 8 ⟨0, 0⟩)
    (by simp) (by rw [hL]; decide) (by rw [hH]; decide) (by rw [hH]; decide)
  refine ⟨axis, mask, ha, ?_, by norm_num, by norm_num, ?_, by norm_num, by norm_num, ?_⟩
  · rw [constructRangeBandpassBoxcar_single]
    exact hm
  · rw [hget 2 (by simp)]
    simp [signedBin]
    norm_num
  · rw [hmget 2, hL, hH]
    norm_num

/-- C6 (amended). For `N ≥ 1`, `dt > 0` and `0 < B ≤ 1/dt`, after the single band
(centre `0`, bandwidth `B`) on an all-zero mask, with bin spacing `df = 1/(N*dt)`,
every bin has gain `1` or `0`, and a bin of axis frequency `f` has gain `1` exactly
when `0 ≤ f ≤ B/2 - df/2` or `-B/2 - df/2 < f < 0`.  In particular every bin with
`-B/2 < f < 0` has gain `1` and every bin with `f > B/2` or `f ≤ -B/2 - df/2` has
gain `0`. -/
theorem boxcar_passband_exact [FloorRing K] (dt B : K) (hdt : 0 < dt) (hB : 0 < B)
    (hB1 : B ≤ 1 / dt) (N : Nat) (hN : 1 ≤ N) :
    ∃ axis mask, fftfreq dt (List.replicate N 0) = some axis ∧
      constructRangeBandpassBoxcar [0] [B] dt (N : Int) (List.replicate N ⟨0, 0⟩) = some mask ∧
      axis.length = N ∧ mask.length = N ∧
      ∀ (i : Nat) (fi : K), axis[i]? = some fi →
        (mask[i]? = some ⟨1, 0⟩ ∨ mask[i]? = some ⟨0, 0⟩) ∧
        (mask[i]? = some ⟨1, 0⟩ ↔
          ((0 ≤ fi ∧ fi ≤ B / 2 - 1 / ((N : K) * dt) / 2) ∨
            (-(B / 2) - 1 / ((N : K) * dt) / 2 < fi ∧ fi < 0))) ∧
        ((-(B / 2) < fi ∧ fi < 0) → mask[i]? = some ⟨1, 0⟩) ∧
        ((fi ≤ -(B / 2) - 1 / ((N : K) * dt) / 2 ∨ B / 2 < fi) → mask[i]? = some ⟨0, 0⟩) := by
  have hNpos : (0 : K) < (N : K) := by exact_mod_cast hN
  have hs : (0 : K) < 1 / ((N : K) * dt) / 2 := by positivity
  obtain ⟨axis, mask, ha, hm, halen, hmlen, hrule⟩ :=
    boxcar_centred_band_rule dt B hdt hB hB1 N hN
  refine ⟨axis, mask, ha, hm, halen, hmlen, ?_⟩
  intro i fi hfi
  have h := hrule i fi hfi
  have h10 : (⟨1, 0⟩ : Cplx K) ≠ ⟨0, 0⟩ := by
    intro e
    exact one_ne_zero (congrArg Cplx.re e)
  by_cases hc : (0 ≤ fi ∧ fi ≤ B / 2 - 1 / ((N : K) * dt) / 2) ∨
      (-(B / 2) - 1 / ((N : K) * dt) / 2 < fi ∧ fi < 0)
  · rw [if_pos hc] at h
    refine ⟨Or.inl h, ⟨fun _ => hc, fun _ => h⟩, fun _ => h, ?_⟩
    rintro (h1 | h1)
    · rcases hc with ⟨h2, h3⟩ | ⟨h2, _⟩
      · linarith
      · linarith
    · rcases hc with ⟨_, h3⟩ | ⟨_, h3⟩
      · linarith
      · linarith
  · rw [if_neg hc] at h
    refine ⟨Or.inr h, ⟨?_, fun h1 => absurd h1 hc⟩, ?_, fun _ => h⟩
    · intro h1
      rw [h] at h1
      exact absurd (Option.some.inj h1).symm h10
    · rintro ⟨h1, h2⟩
      exact absurd (Or.inr ⟨by linarith, h2⟩) hc

theorem boxcar_passband_exact_witness :
    ∃ axis mask, fftfreq (1 : ℚ) (List.replicate 8 0) = some axis ∧
      constructRangeBandpassBoxcar [0] [(3 / 5 : ℚ)] 1 ((8 : Nat) : Int)
        (List.replicate 8 ⟨0, 0⟩) = some mask ∧
      axis.length = 8 ∧ mask.length = 8 ∧
      ∀ (i : Nat) (fi : ℚ), axis[i]? = some fi →
        (mask[i]? = some ⟨1, 0⟩ ∨ mask[i]? = some ⟨0, 0⟩) ∧
        (mask[i]? = some ⟨1, 0⟩ ↔
          ((0 ≤ fi ∧ fi ≤ (3 / 5 : ℚ) / 2 - 1 / (((8 : Nat) : ℚ) * 1) / 2) ∨
            (-((3 / 5 : ℚ) / 2) - 1 / (((8 : Nat) : ℚ) * 1) / 2 < fi ∧ fi < 0))) ∧
        ((-((3 / 5 : ℚ) / 2) < fi ∧ fi < 0) → mask[i]? = some ⟨1, 0⟩) ∧
        ((fi ≤ -((3 / 5 : ℚ) / 2) - 1 / (((8 : Nat) : ℚ) * 1) / 2 ∨ (3 / 5 : ℚ) / 2 < fi) →
          mask[i]? = some ⟨0, 0⟩) :=
  boxcar_passband_exact (1 : ℚ) (3 / 5) (by norm_num) (by norm_num) (by norm_num) 8
    (by decide)

/-- C7 (refuted as stated). One band with centre `0`, bandwidth `-1`, `beta = 1` on
the axis `[0]`: `|0 - 0| ≤ 0.5 * (-1) * (1 + 1)` is false, so no band satisfies
the inequality, yet the builder writes gain `1` (the passband test
`0 ≤ 0.5 * (-1) - 0.5 * (-1) * 1 = 0` succeeds). -/
theorem cosine_negative_bandwidth_counterexample :
    constructRangeBandpassCosine Real.pi Real.cos [0] [-1] [0] 1 [⟨0, 0⟩] = some [⟨1, 0⟩] ∧
      ¬ (|(0 : ℝ) - 0| ≤ 0.5 * (-1) * (1 + 1)) ∧ (⟨1, 0⟩ : Cplx ℝ) ≠ ⟨0, 0⟩ := by
  refine ⟨?_, by norm_num, ?_⟩
  · simp [constructRangeBandpassCosine, forSize, cosineBand, writeAt, List.range_succ]
    norm_num
  · intro h
    have := congrArg Cplx.re h
    norm_num at this

/-- C7 (amended). For every axis, every `beta` in `[0, 1]` and every list of
sub-bands with equally long centre and bandwidth lists and non-negative
bandwidths, `constructRangeBandpassCosine` on an all-zero mask succeeds and leaves
in bin `k`: `0` if no band has `|axis[k] - centre| ≤ 0.5*bw*(1+beta)`; otherwise the
gain of the last band for which the inequality holds, `1` when
`|axis[k] - centre| ≤ 0.5*bw - df` and the cosine roll-off value otherwise. -/
theorem cosine_last_writer_wins (pi : K) (cos : K → K) (axis cs bs : List K) (beta : K)
    (hb0 : 0 ≤ beta) (_hb1 : beta ≤ 1) (hlen : cs.length = bs.length)
    (hbw : ∀ b ∈ bs, 0 ≤ b) :
    ∃ out, constructRangeBandpassCosine pi cos cs bs axis beta
        (List.replicate axis.length ⟨0, 0⟩) = some out ∧
      out.length = axis.length ∧
      ∀ (k : Nat) (fk : K), axis[k]? = some fk →
        ((∀ (i : Nat) (c b : K), cs[i]? = some c → bs[i]? = some b →
            ¬ |fk - c| ≤ 0.5 * b * (1 + beta)) → out[k]? = some ⟨0, 0⟩) ∧
        (∀ (i : Nat) (c b : K), cs[i]? = some c → bs[i]? = some b →
          |fk - c| ≤ 0.5 * b * (1 + beta) →
          (∀ (j : Nat) (c' b' : K), i < j → cs[j]? = some c' → bs[j]? = some b' →
            ¬ |fk - c'| ≤ 0.5 * b' * (1 + beta)) →
          out[k]? = some
            ⟨if |fk - c| ≤ 0.5 * b - 0.5 * b * beta then 1
              else 0.5 * (1 + cos (pi / (b * beta) * (|fk - c| - 0.5 * (1 - beta) * b))), 0⟩) := by
  obtain ⟨out, ho, hol, hP⟩ := foldlM_range_inv
    (fun i (st : List (Cplx K)) =>
      match cs[0 + i]?, bs[0 + i]? with
      | some fmid, some bandwidth => cosineBand pi cos fmid bandwidth beta axis st
      | _, _ => none)
    (fun t st => st.length = axis.length ∧
      ∀ (k : Nat) (fk : K), axis[k]? = some fk →
        ((∀ (i : Nat) (c b : K), i < t → cs[i]? = some c → bs[i]? = some b →
            ¬ |fk - c| ≤ 0.5 * b * (1 + beta)) → st[k]? = some ⟨0, 0⟩) ∧
        (∀ (i : Nat) (c b : K), i < t → cs[i]? = some c → bs[i]? = some b →
          |fk - c| ≤ 0.5 * b * (1 + beta) →
          (∀ (j : Nat) (c' b' : K), i < j → j < t → cs[j]? = some c' → bs[j]? = some b' →
            ¬ |fk - c'| ≤ 0.5 * b' * (1 + beta)) →
          st[k]? = some
            ⟨if |fk - c| ≤ 0.5 * b - 0.5 * b * beta then 1
              else 0.5 * (1 + cos (pi / (b * beta) * (|fk - c| - 0.5 * (1 - beta) * b))), 0⟩))
    cs.length (List.replicate axis.length ⟨0, 0⟩)
    ⟨by simp, fun k fk hfk =>
      ⟨fun _ => by simp [lt_length_of_getElem? hfk],
        fun i _ _ hi => absurd hi (Nat.not_lt_zero i)⟩⟩
    (by
      rintro t ht st ⟨hlen', hst⟩
      obtain ⟨ct, hct⟩ : ∃ ct, cs[t]? = some ct := ⟨cs[t], List.getElem?_eq_getElem ht⟩
      obtain ⟨bt, hbt⟩ : ∃ bt, bs[t]? = some bt :=
        ⟨bs[t], List.getElem?_eq_getElem (by omega)⟩
      have hbt0 : 0 ≤ bt := hbw bt (List.mem_iff_getElem?.mpr ⟨t, hbt⟩)
      obtain ⟨st', hst', hlen'', hget⟩ := cosineBand_spec pi cos ct bt beta axis st hlen'
      refine ⟨st', by simp only [zero_add, hct, hbt]; exact hst', by omega, ?_⟩
      intro k fk hfk
      have hk : k < st.length := by rw [hlen']; exact lt_length_of_getElem? hfk
      obtain ⟨old, hold⟩ : ∃ old, st[k]? = some old := ⟨st[k], List.getElem?_eq_getElem hk⟩
      have hnew := hget k fk old hfk hold
      rw [cosineGain_of_nonneg pi cos ct bt beta fk old hbt0 hb0] at hnew
      obtain ⟨hA, hB⟩ := hst k fk hfk
      by_cases hhit : |fk - ct| ≤ 0.5 * bt * (1 + beta)
      · rw [if_pos hhit] at hnew
        constructor
        · intro hno
          exact absurd hhit (hno t ct bt (Nat.lt_succ_self t) hct hbt)
        · intro i c b hi hc hb hhiti hlast
          rcases Nat.lt_succ_iff_lt_or_eq.mp hi with hlt | heq
          · exact absurd hhit (hlast t ct bt hlt (Nat.lt_succ_self t) hct hbt)
          · subst heq
            rw [hct] at hc
            rw [hbt] at hb
            rw [← Option.some.inj hc, ← Option.some.inj hb]
            exact hnew
      · rw [if_neg hhit, ← hold] at hnew
        rw [hnew]
        constructor
        · intro hno
          exact hA (fun i c b hi => hno i c b (Nat.lt_succ_of_lt hi))
        · intro i c b hi hc hb hhiti hlast
          rcases Nat.lt_succ_iff_lt_or_eq.mp hi with hlt | heq
          · exact hB i c b hlt hc hb hhiti
              (fun j c' b' hij hjt => hlast j c' b' hij (Nat.lt_succ_of_lt hjt))
          · subst heq
            rw [hct] at hc
            rw [← Option.some.inj hc] at hhiti
            rw [hbt] at hb
            rw [← Option.some.inj hb] at hhiti
            exact absurd hhiti hhit)
  refine ⟨out, ?_, hol, ?_⟩
  · unfold constructRangeBandpassCosine forSize
    simpa using ho
  · intro k fk hfk
    obtain ⟨hA, hB⟩ := hP k fk hfk
    constructor
    · intro hno
      exact hA (fun i c b _ => hno i c b)
    · intro i c b hc hb hhit hlast
      exact hB i c b (lt_length_of_getElem? hc) hc hb hhit
        (fun j c' b' hij _ => hlast j c' b' hij)

theorem cosine_last_writer_wins_witness :
    ∃ out, constructRangeBandpassCosine Real.pi Real.cos [0, 1] [1, 1] [0, 1 / 2, -1 / 2] (1 / 4)
        (List.replicate [(0 : ℝ), 1 / 2, -1 / 2].length ⟨0, 0⟩) = some out ∧
      out.length = [(0 : ℝ), 1 / 2, -1 / 2].length ∧
      ∀ (k : Nat) (fk : ℝ), [(0 : ℝ), 1 / 2, -1 / 2][k]? = some fk →
        ((∀ (i : Nat) (c b : ℝ), [(0 : ℝ), 1][i]? = some c → [(1 : ℝ), 1][i]? = some b →
            ¬ |fk - c| ≤ 0.5 * b * (1 + 1 / 4)) → out[k]? = some ⟨0, 0⟩) ∧
        (∀ (i : Nat) (c b : ℝ), [(0 : ℝ), 1][i]? = some c → [(1 : ℝ), 1][i]? = some b →
          |fk - c| ≤ 0.5 * b * (1 + 1 / 4) →
          (∀ (j : Nat) (c' b' : ℝ), i < j → [(0 : ℝ), 1][j]? = some c' →
            [(1 : ℝ), 1][j]? = some b' → ¬ |fk - c'| ≤ 0.5 * b' * (1 + 1 / 4)) →
          out[k]? = some
            ⟨if |fk - c| ≤ 0.5 * b - 0.5 * b * (1 / 4) then 1
              else 0.5 * (1 + Real.cos (Real.pi / (b * (1 / 4)) *
                (|fk - c| - 0.5 * (1 - 1 / 4) * b))), 0⟩) :=
  cosine_last_writer_wins Real.pi Real.cos [0, 1 / 2, -1 / 2] [0, 1] [1, 1] (1 / 4)
    (by norm_num) (by norm_num) (by simp) (by simp)

/-- C8. Raised-cosine continuity over the reals: for `bandwidth > 0` and
`0 < beta ≤ 1`, with `df = 0.5 * bandwidth * beta`, the transition expression of
the cosine builders (with `norm = 1`) equals `1` at `freq = 0.5 * bandwidth - df`
and `0` at `freq = 0.5 * bandwidth + df`. -/
theorem raisedCosine_continuity (bandwidth beta : ℝ) (hbw : 0 < bandwidth) (hb0 : 0 < beta)
    (_hb1 : beta ≤ 1) :
    raisedCosine Real.pi Real.cos 1.0 bandwidth beta
        (0.5 * bandwidth - 0.5 * bandwidth * beta) = 1 ∧
      raisedCosine Real.pi Real.cos 1.0 bandwidth beta
        (0.5 * bandwidth + 0.5 * bandwidth * beta) = 0 := by
  have hne : bandwidth * beta ≠ 0 := (mul_pos hbw hb0).ne'
  constructor
  · have e : Real.pi / (bandwidth * beta) *
        (0.5 * bandwidth - 0.5 * bandwidth * beta - 0.5 * (1.0 - beta) * bandwidth) = 0 := by
      have : (0.5 : ℝ) * bandwidth - 0.5 * bandwidth * beta - 0.5 * (1.0 - beta) * bandwidth = 0 := by
        norm_num
        ring
      rw [this, mul_zero]
    unfold raisedCosine
    rw [e, Real.cos_zero]
    norm_num
  · have e : Real.pi / (bandwidth * beta) *
        (0.5 * bandwidth + 0.5 * bandwidth * beta - 0.5 * (1.0 - beta) * bandwidth) = Real.pi := by
      have : (0.5 : ℝ) * bandwidth + 0.5 * bandwidth * beta - 0.5 * (1.0 - beta) * bandwidth
          = bandwidth * beta := by
        norm_num
        ring
      rw [this]
      field_simp
    unfold raisedCosine
    rw [e, Real.cos_pi]
    norm_num

theorem raisedCosine_continuity_witness :
    raisedCosine Real.pi Real.cos 1.0 2 (1 / 2) (0.5 * 2 - 0.5 * 2 * (1 / 2)) = 1 ∧
      raisedCosine Real.pi Real.cos 1.0 2 (1 / 2) (0.5 * 2 + 0.5 * 2 * (1 / 2)) = 0 :=
  raisedCosine_continuity 2 (1 / 2) (by norm_num) (by norm_num) (by norm_num)

/-- C9 (the code's divisor). For `nrows ≥ 1`, `ncols ≥ 1`, shape `boxcar` or
`cosine`, whenever the one-dimensional mask is built, `constructRangeBandpassFilter`
returns `ncols * nrows` elements, and element `(line, col)` is the one-dimensional
value `v` at `col` divided by the complex constant `ncols + i ncols`, that is
`(v.re + v.im)/(2 ncols) + i (v.im - v.re)/(2 ncols)`.  It equals `v` divided by
the real number `ncols * nrows` only where `v` is zero. -/
theorem rangeFilter_divisor_complex [FloorRing K] (pi : K) (cos : K → K) (fs : K)
    (cs bs : List K) (ncols nrows : Nat) (filterType : String) (mask1D : List (Cplx K))
    (hr : 1 ≤ nrows) (hc : 1 ≤ ncols)
    (_hshape : filterType = "boxcar" ∨ filterType = "cosine")
    (h1D : rangeFilter1D pi cos fs cs bs ncols filterType = some mask1D) :
    ∃ out, constructRangeBandpassFilter pi cos fs cs bs ncols nrows filterType = some out ∧
      out.length = ncols * nrows ∧
      ∀ line col : Nat, line < nrows → col < ncols →
        ∃ v, mask1D[col]? = some v ∧
          out[line * ncols + col]? = some
            ⟨(v.re + v.im) / (2 * (ncols : K)), (v.im - v.re) / (2 * (ncols : K))⟩ ∧
          (out[line * ncols + col]? = some
              ⟨v.re / ((ncols : K) * (nrows : K)), v.im / ((ncols : K) * (nrows : K))⟩ ↔
            v = ⟨0, 0⟩) := by
  have hlen := rangeFilter1D_length pi cos fs cs bs ncols filterType mask1D h1D
  obtain ⟨out, ho, hol, hget⟩ := rangeFilterBlock_spec mask1D ncols nrows hlen
  refine ⟨out, ?_, hol, ?_⟩
  · unfold constructRangeBandpassFilter
    rw [h1D]
    exact ho
  · intro line col hl hcol
    have hc' : col < mask1D.length := by omega
    have hval : out[line * ncols + col]? = some
        ⟨(mask1D[col].re + mask1D[col].im) / (2 * (ncols : K)),
          (mask1D[col].im - mask1D[col].re) / (2 * (ncols : K))⟩ := by
      rw [hget line col hl hcol, List.getElem?_eq_getElem hc', Option.map_some']
      unfold rangeNorm
      rw [div_complex_norm _ ncols hc]
    refine ⟨mask1D[col], List.getElem?_eq_getElem hc', hval, ?_⟩
    rw [hval, Option.some_inj]
    exact div_complex_norm_eq_real_iff _ ncols nrows hc hr

theorem rangeFilter_divisor_complex_witness :
    ∃ out, constructRangeBandpassFilter Real.pi Real.cos 1 [0] [1] 1 1 "boxcar" = some out ∧
      out.length = 1 * 1 ∧
      ∀ line col : Nat, line < 1 → col < 1 →
        ∃ v, ([⟨1, 0⟩] : List (Cplx ℝ))[col]? = some v ∧
          out[line * 1 + col]? = some
            ⟨(v.re + v.im) / (2 * ((1 : Nat) : ℝ)), (v.im - v.re) / (2 * ((1 : Nat) : ℝ))⟩ ∧
          (out[line * 1 + col]? = some
              ⟨v.re / (((1 : Nat) : ℝ) * ((1 : Nat) : ℝ)),
                v.im / (((1 : Nat) : ℝ) * ((1 : Nat) : ℝ))⟩ ↔
            v = ⟨0, 0⟩) :=
  rangeFilter_divisor_complex Real.pi Real.cos 1 [0] [1] 1 1 "boxcar" [⟨1, 0⟩]
    (by decide) (by decide) (Or.inl rfl) rangeFilter1D_one_column

/-- C10 (the code at the failing inputs). With one row and one column, a boxcar
band covering the sampling bandwidth gives the range mask `[1/2 - i/2]`, and
constant zero Doppler with bandwidth `1`, `prf = 1`, `beta = 1/4` gives the
azimuth mask `[1/2 - i/2]`: the imaginary part is `-1/2`, not `0`. -/
theorem filter_mask_imaginary_part_nonzero :
    constructRangeBandpassFilter Real.pi Real.cos 1 [0] [1] 1 1 "boxcar"
        = some [⟨1 / 2, -1 / 2⟩] ∧
      constructAzimuthCommonbandFilter Real.pi Real.cos (fun _ => 0) (fun _ => 0) 1 1 (1 / 4) 1 1
        = some [⟨1 / 2, -1 / 2⟩] ∧
      (-1 / 2 : ℝ) ≠ 0 := by
  refine ⟨?_, ?_, by norm_num⟩
  · have h1 : toSizeT (1 : Int) = 1 := by simp [toSizeT]
    unfold constructRangeBandpassFilter
    rw [rangeFilter1D_one_column]
    simp [rangeFilterBlock, forSize, writeAt, h1, List.range_succ, Cplx.div, rangeNorm]
    norm_num
  · unfold constructAzimuthCommonbandFilter
    simp only [toSizeT_natCast, List.replicate, fftfreq_singleton]
    simp [forSize, writeAt, List.range_succ, Cplx.div, azimuthNorm]
    norm_num

/-- C11. For `nrows, ncols ≥ 1`: after `constructRangeBandpassFilter` (shape
`boxcar` or `cosine`, sub-bands for which the one-dimensional mask is built
without an out-of-range access) and after `constructAzimuthCommonbandFilter` (any
Doppler models, bandwidth, `prf > 0`, `beta`), each builder has returned a mask
and the real part of every element lies in `[0, 1]`. -/
theorem filter_mask_gain_unit_interval (fs : ℝ) (cs bs : List ℝ) (ncols nrows : Nat)
    (filterType : String) (mask1D : List (Cplx ℝ)) (hr : 1 ≤ nrows) (hc : 1 ≤ ncols)
    (_hshape : filterType = "boxcar" ∨ filterType = "cosine")
    (h1D : rangeFilter1D Real.pi Real.cos fs cs bs ncols filterType = some mask1D)
    (ref sec : ℝ → ℝ) (bandwidth prf beta : ℝ) (_hprf : 0 < prf) :
    (∃ out, constructRangeBandpassFilter Real.pi Real.cos fs cs bs ncols nrows filterType
          = some out ∧
        out.length = ncols * nrows ∧ ∀ e ∈ out, 0 ≤ e.re ∧ e.re ≤ 1) ∧
    (∃ out, constructAzimuthCommonbandFilter Real.pi Real.cos ref sec bandwidth prf beta
          ncols nrows = some out ∧
        out.length = ncols * nrows ∧ ∀ e ∈ out, 0 ≤ e.re ∧ e.re ≤ 1) :=
  ⟨rangeFilter_re_bounds Real.pi Real.cos (fun x => ⟨Real.neg_one_le_cos x, Real.cos_le_one x⟩)
      fs cs bs ncols nrows filterType mask1D hc h1D,
    azimuth_re_bounds Real.pi Real.cos (fun x => ⟨Real.neg_one_le_cos x, Real.cos_le_one x⟩)
      ref sec bandwidth prf beta ncols nrows hr⟩

theorem filter_mask_gain_unit_interval_witness :
    (∃ out, constructRangeBandpassFilter Real.pi Real.cos 1 [0] [1] 1 2 "boxcar" = some out ∧
        out.length = 1 * 2 ∧ ∀ e ∈ out, 0 ≤ e.re ∧ e.re ≤ 1) ∧
    (∃ out, constructAzimuthCommonbandFilter Real.pi Real.cos (fun _ => 10) (fun _ => 20)
          5 100 (1 / 4) 1 2 = some out ∧
        out.length = 1 * 2 ∧ ∀ e ∈ out, 0 ≤ e.re ∧ e.re ≤ 1) :=
  filter_mask_gain_unit_interval 1 [0] [1] 1 2 "boxcar" [⟨1, 0⟩] (by decide) (by decide)
    (Or.inl rfl) rangeFilter1D_one_column (fun _ => 10) (fun _ => 20) 5 100 (1 / 4)
    (by norm_num)

/-- C12 (refuted as stated). The builder does not complete for every input: with
four columns, the band `(0, 6)` at sampling frequency `1` makes the boxcar builder
write past the end of the one-dimensional mask, and with no columns the frequency
axis builder writes `freq[0]` of an empty sequence; no mask is left. -/
theorem rangeFilter_broadcast_counterexample :
    constructRangeBandpassFilter Real.pi Real.cos 1 [0] [6] 4 2 "boxcar" = none ∧
      constructRangeBandpassFilter Real.pi Real.cos 1 [0] [1] 0 2 "boxcar" = none := by
  refine ⟨?_, constructRangeBandpassFilter_zero_cols _ _ _ _ _ _ _⟩
  have e : (1.0 : ℝ) / 1 = 1 := by norm_num
  unfold constructRangeBandpassFilter
  rw [rangeFilter1D_boxcar _ _ _ _ _ _ (by decide), e, boxcar_wide_band_fault]
  rfl

/-- C12 (amended). For every `nrows`, `ncols`, sampling frequency, sub-band lists
and `filterType` string for which the one-dimensional mask is built (no
out-of-range access), `constructRangeBandpassFilter` returns a mask of exactly
`ncols * nrows` elements in which every row is identical to every other row. -/
theorem rangeFilter_rows_identical [FloorRing K] (pi : K) (cos : K → K) (fs : K)
    (cs bs : List K) (ncols nrows : Nat) (filterType : String) (mask1D : List (Cplx K))
    (h1D : rangeFilter1D pi cos fs cs bs ncols filterType = some mask1D) :
    ∃ out, constructRangeBandpassFilter pi cos fs cs bs ncols nrows filterType = some out ∧
      out.length = ncols * nrows ∧
      ∀ r1 r2 col : Nat, r1 < nrows → r2 < nrows → col < ncols →
        out[r1 * ncols + col]? = out[r2 * ncols + col]? := by
  have hlen := rangeFilter1D_length pi cos fs cs bs ncols filterType mask1D h1D
  obtain ⟨out, ho, hol, hget⟩ := rangeFilterBlock_spec mask1D ncols nrows hlen
  refine ⟨out, ?_, hol, ?_⟩
  · unfold constructRangeBandpassFilter
    rw [h1D]
    exact ho
  · intro r1 r2 col h1 h2 hc
    rw [hget r1 col h1 hc, hget r2 col h2 hc]

theorem rangeFilter_rows_identical_witness :
    ∃ out, constructRangeBandpassFilter Real.pi Real.cos 1 [0] [1] 1 3 "boxcar" = some out ∧
      out.length = 1 * 3 ∧
      ∀ r1 r2 col : Nat, r1 < 3 → r2 < 3 → col < 1 →
        out[r1 * 1 + col]? = out[r2 * 1 + col]? :=
  rangeFilter_rows_identical Real.pi Real.cos 1 [0] [1] 1 3 "boxcar" [⟨1, 0⟩]
    rangeFilter1D_one_column

/-- C13. For every pair of Doppler models, bandwidth, `prf > 0`, `beta`,
`nrows ≥ 1`, `ncols ≥ 1`: the azimuth builder succeeds, and for every column `j`
the single-band raised-cosine rule of `constructRangeBandpassCosine`, applied to
the axis `fftfreq(1/prf)` of length `nrows` for the band with centre
`0.5 * (ref j + sec j)` on an all-zero mask, succeeds with a column whose bin `i`
divided by the common constant `filtNorm` is the mask element at `(i, j)`. -/
theorem azimuth_refines_cosine_rule (pi : K) (cos : K → K) (ref sec : K → K)
    (bandwidth prf beta : K) (ncols nrows : Nat) (_hprf : 0 < prf) (hr : 1 ≤ nrows)
    (_hc : 1 ≤ ncols) :
    ∃ axis mask, fftfreq (1.0 / prf) (List.replicate nrows 0) = some axis ∧
      axis.length = nrows ∧
      constructAzimuthCommonbandFilter pi cos ref sec bandwidth prf beta ncols nrows
        = some mask ∧
      mask.length = ncols * nrows ∧
      ∀ j : Nat, j < ncols →
        ∃ col1D, constructRangeBandpassCosine pi cos [0.5 * (ref (j : K) + sec (j : K))]
            [bandwidth] axis beta (List.replicate nrows ⟨0, 0⟩) = some col1D ∧
          ∀ i : Nat, i < nrows →
            ∃ g, col1D[i]? = some g ∧
              mask[i * ncols + j]? = some (g.div (azimuthNorm (nrows : Int))) := by
  obtain ⟨axis, mask, ha, halen, hm, hml, hget⟩ :=
    constructAzimuthCommonbandFilter_spec pi cos ref sec bandwidth prf beta ncols nrows hr
  refine ⟨axis, mask, ha, halen, hm, hml, ?_⟩
  intro j hj
  obtain ⟨col1D, hc1, _, hcget⟩ :=
    cosine_single_band_spec pi cos (0.5 * (ref (j : K) + sec (j : K))) bandwidth beta axis
  rw [halen] at hc1
  refine ⟨col1D, hc1, ?_⟩
  intro i hi
  have hfi : axis[i]? = some axis[i] := List.getElem?_eq_getElem (by omega)
  exact ⟨_, hcget i _ hfi, hget i j _ hj hfi⟩

theorem azimuth_refines_cosine_rule_witness :
    ∃ axis mask, fftfreq ((1.0 : ℝ) / 100) (List.replicate 4 0) = some axis ∧
      axis.length = 4 ∧
      constructAzimuthCommonbandFilter Real.pi Real.cos (fun _ => 10) (fun _ => 20)
        50 100 (1 / 4) 3 4 = some mask ∧
      mask.length = 3 * 4 ∧
      ∀ j : Nat, j < 3 →
        ∃ col1D, constructRangeBandpassCosine Real.pi Real.cos
            [0.5 * ((fun _ => (10 : ℝ)) (j : ℝ) + (fun _ => (20 : ℝ)) (j : ℝ))]
            [50] axis (1 / 4) (List.replicate 4 ⟨0, 0⟩) = some col1D ∧
          ∀ i : Nat, i < 4 →
            ∃ g, col1D[i]? = some g ∧
              mask[i * 3 + j]? = some (g.div (azimuthNorm ((4 : Nat) : Int))) :=
  azimuth_refines_cosine_rule Real.pi Real.cos (fun _ => 10) (fun _ => 20) 50 100 (1 / 4) 3 4
    (by norm_num) (by decide) (by decide)

/-- C14 (the code's divisor). For `nrows ≥ 1`, `ncols ≥ 1` and every input the
azimuth builder returns `ncols * nrows` elements, and the element at row `i`,
column `j` is its raised-cosine gain `g` (`1` in the passband, the roll-off value
in the transition region, `0` in the stop band) divided by the complex constant
`nrows + i nrows`, that is `g/(2 nrows) - i g/(2 nrows)`.  It equals `g` divided
by the real number `nrows * ncols` only where `g` is zero. -/
theorem azimuth_divisor_complex (pi : K) (cos : K → K) (ref sec : K → K)
    (bandwidth prf beta : K) (ncols nrows : Nat) (hr : 1 ≤ nrows) (hc : 1 ≤ ncols) :
    ∃ axis mask, fftfreq (1.0 / prf) (List.replicate nrows 0) = some axis ∧
      constructAzimuthCommonbandFilter pi cos ref sec bandwidth prf beta ncols nrows
        = some mask ∧
      mask.length = ncols * nrows ∧
      ∀ (i j : Nat) (fi : K), j < ncols → axis[i]? = some fi →
        ∃ g : K,
          g = (if |fi - 0.5 * (ref (j : K) + sec (j : K))|
                ≤ 0.5 * bandwidth - 0.5 * bandwidth * beta then 1
              else if |fi - 0.5 * (ref (j : K) + sec (j : K))|
                  ≤ 0.5 * bandwidth + 0.5 * bandwidth * beta then
                0.5 * (1 + cos (pi / (bandwidth * beta) *
                  (|fi - 0.5 * (ref (j : K) + sec (j : K))| - 0.5 * (1 - beta) * bandwidth)))
              else 0) ∧
          mask[i * ncols + j]? = some ⟨g / (2 * (nrows : K)), -g / (2 * (nrows : K))⟩ ∧
          (mask[i * ncols + j]? = some ⟨g / ((nrows : K) * (ncols : K)), 0⟩ ↔ g = 0) := by
  obtain ⟨axis, mask, ha, _, hm, hml, hget⟩ :=
    constructAzimuthCommonbandFilter_spec pi cos ref sec bandwidth prf beta ncols nrows hr
  refine ⟨axis, mask, ha, hm, hml, ?_⟩
  intro i j fi hj hfi
  have hgain : ∃ g : K,
      g = (if |fi - 0.5 * (ref (j : K) + sec (j : K))|
            ≤ 0.5 * bandwidth - 0.5 * bandwidth * beta then 1
          else if |fi - 0.5 * (ref (j : K) + sec (j : K))|
              ≤ 0.5 * bandwidth + 0.5 * bandwidth * beta then
            0.5 * (1 + cos (pi / (bandwidth * beta) *
              (|fi - 0.5 * (ref (j : K) + sec (j : K))| - 0.5 * (1 - beta) * bandwidth)))
          else 0) ∧
      cosineGain pi cos (0.5 * (ref (j : K) + sec (j : K))) bandwidth beta fi ⟨0.0, 0.0⟩
        = ⟨g, 0⟩ := by
    refine ⟨_, rfl, ?_⟩
    unfold cosineGain raisedCosine
    by_cases hp : |fi - 0.5 * (ref (j : K) + sec (j : K))|
        ≤ 0.5 * bandwidth - 0.5 * bandwidth * beta
    · rw [if_pos hp, if_pos hp, cplx_one_literal]
    · rw [if_neg hp, if_neg hp]
      by_cases ht : |fi - 0.5 * (ref (j : K) + sec (j : K))|
          ≤ 0.5 * bandwidth + 0.5 * bandwidth * beta
      · rw [if_pos ⟨not_le.mp hp, ht⟩, if_pos ht]
        congr 1 <;> norm_num
      · rw [if_neg (fun h => ht h.2), if_neg ht, cplx_zero_literal]
  obtain ⟨g, hg, hcg⟩ := hgain
  have hval : mask[i * ncols + j]? = some ⟨g / (2 * (nrows : K)), -g / (2 * (nrows : K))⟩ := by
    rw [hget i j fi hj hfi, hcg]
    unfold azimuthNorm
    rw [div_complex_norm _ nrows hr]
    simp
  refine ⟨g, hg, hval, ?_⟩
  have hiff := div_complex_norm_eq_real_iff (⟨g, 0⟩ : Cplx K) nrows ncols hr hc
  simp only [add_zero, zero_sub, zero_div, Cplx.mk.injEq, and_true] at hiff
  rw [hval, Option.some_inj, Cplx.mk.injEq]
  exact hiff

theorem azimuth_divisor_complex_witness :
    ∃ axis mask, fftfreq ((1.0 : ℝ) / 1) (List.replicate 1 0) = some axis ∧
      constructAzimuthCommonbandFilter Real.pi Real.cos (fun _ => 0) (fun _ => 0)
        1 1 (1 / 4) 1 1 = some mask ∧
      mask.length = 1 * 1 ∧
      ∀ (i j : Nat) (fi : ℝ), j < 1 → axis[i]? = some fi →
        ∃ g : ℝ,
          g = (if |fi - 0.5 * ((fun _ => (0 : ℝ)) (j : ℝ) + (fun _ => (0 : ℝ)) (j : ℝ))|
                ≤ 0.5 * 1 - 0.5 * 1 * (1 / 4) then 1
              else if |fi - 0.5 * ((fun _ => (0 : ℝ)) (j : ℝ) + (fun _ => (0 : ℝ)) (j : ℝ))|
                  ≤ 0.5 * 1 + 0.5 * 1 * (1 / 4) then
                0.5 * (1 + Real.cos (Real.pi / (1 * (1 / 4)) *
                  (|fi - 0.5 * ((fun _ => (0 : ℝ)) (j : ℝ) + (fun _ => (0 : ℝ)) (j : ℝ))|
                    - 0.5 * (1 - 1 / 4) * 1)))
              else 0) ∧
          mask[i * 1 + j]? = some ⟨g / (2 * ((1 : Nat) : ℝ)), -g / (2 * ((1 : Nat) : ℝ))⟩ ∧
          (mask[i * 1 + j]? = some ⟨g / (((1 : Nat) : ℝ) * ((1 : Nat) : ℝ)), 0⟩ ↔ g = 0) :=
  azimuth_divisor_complex Real.pi Real.cos (fun _ => 0) (fun _ => 0) 1 1 (1 / 4) 1 1
    (by decide) (by decide)

/-- C15. Azimuth common-band centering over the reals: for constant Doppler models
`ref = a`, `sec = b`, bandwidth `> 0`, `beta` in `[0, 1]`, `prf > 0`, `nrows ≥ 1`,
`ncols ≥ 1`, the azimuth builder succeeds, all columns of the mask are identical,
and in every column the rows holding the full passband value (gain `1` divided by
`filtNorm`) are exactly the rows `i` with
`|fftfreq(1/prf)[i] - (a + b)/2| ≤ 0.5 * bandwidth * (1 - beta)`. -/
theorem azimuth_commonband_centering (a b bandwidth prf beta : ℝ) (ncols nrows : Nat)
    (_hbw : 0 < bandwidth) (_hb0 : 0 ≤ beta) (_hb1 : beta ≤ 1) (_hprf : 0 < prf)
    (hr : 1 ≤ nrows) (_hc : 1 ≤ ncols) :
    ∃ axis mask, fftfreq ((1.0 : ℝ) / prf) (List.replicate nrows 0) = some axis ∧
      axis.length = nrows ∧
      constructAzimuthCommonbandFilter Real.pi Real.cos (fun _ => a) (fun _ => b)
        bandwidth prf beta ncols nrows = some mask ∧
      mask.length = ncols * nrows ∧
      (∀ i j1 j2 : Nat, i < nrows → j1 < ncols → j2 < ncols →
        mask[i * ncols + j1]? = mask[i * ncols + j2]?) ∧
      ∀ (i j : Nat) (fi : ℝ), j < ncols → axis[i]? = some fi →
        (mask[i * ncols + j]? = some ((⟨1, 0⟩ : Cplx ℝ).div (azimuthNorm (nrows : Int))) ↔
          |fi - (a + b) / 2| ≤ 0.5 * bandwidth * (1 - beta)) := by
  obtain ⟨axis, mask, ha, halen, hm, hml, hget⟩ :=
    constructAzimuthCommonbandFilter_spec Real.pi Real.cos (fun _ => a) (fun _ => b)
      bandwidth prf beta ncols nrows hr
  refine ⟨axis, mask, ha, halen, hm, hml, ?_, ?_⟩
  · intro i j1 j2 hi h1 h2
    have hfi : axis[i]? = some axis[i] := List.getElem?_eq_getElem (by omega)
    rw [hget i j1 _ h1 hfi, hget i j2 _ h2 hfi]
  · intro i j fi hj hfi
    rw [hget i j fi hj hfi]
    have e1 : (0.5 : ℝ) * (a + b) = (a + b) / 2 := by norm_num; ring
    have e2 : (0.5 : ℝ) * bandwidth - 0.5 * bandwidth * beta = 0.5 * bandwidth * (1 - beta) := by
      ring
    rw [← e1, ← e2, ← cosineGain_eq_one_iff]
    constructor
    · intro h
      refine div_norm_inj _ _ ?_ rfl nrows hr (Option.some.inj h)
      unfold cosineGain
      split_ifs <;> norm_num
    · intro h
      rw [h]

theorem azimuth_commonband_centering_witness :
    ∃ axis mask, fftfreq ((1.0 : ℝ) / 100) (List.replicate 8 0) = some axis ∧
      axis.length = 8 ∧
      constructAzimuthCommonbandFilter Real.pi Real.cos (fun _ => 10) (fun _ => 20)
        50 100 (1 / 4) 3 8 = some mask ∧
      mask.length = 3 * 8 ∧
      (∀ i j1 j2 : Nat, i < 8 → j1 < 3 → j2 < 3 →
        mask[i * 3 + j1]? = mask[i * 3 + j2]?) ∧
      ∀ (i j : Nat) (fi : ℝ), j < 3 → axis[i]? = some fi →
        (mask[i * 3 + j]? = some ((⟨1, 0⟩ : Cplx ℝ).div (azimuthNorm ((8 : Nat) : Int))) ↔
          |fi - (10 + 20) / 2| ≤ 0.5 * 50 * (1 - 1 / 4)) :=
  azimuth_commonband_centering 10 20 50 100 (1 / 4) 3 8 (by norm_num) (by norm_num)
    (by norm_num) (by norm_num) (by decide) (by decide)

/-- C16 (the code at the failing input). One sample (`nrows = ncols = 1`), where
the identity functions are an exact unnormalised transform pair: the mask built
from the all-ones one-dimensional mask is `[1/2 - i/2]`, and `filter` turns the
signal `[1]` into `[1/2 - i/2]` instead of leaving it unchanged. -/
theorem filter_identity_mask_changes_signal :
    ∃ mask, constructRangeBandpassFilter Real.pi Real.cos 1 [0] [1] 1 1 "boxcar" = some mask ∧
      filter id id mask [⟨1, 0⟩] = some [⟨1 / 2, -1 / 2⟩] ∧
      ([⟨1 / 2, -1 / 2⟩] : List (Cplx ℝ)) ≠ [⟨1, 0⟩] := by
  refine ⟨_, rangeFilter_one_by_one, ?_, ?_⟩
  · simp [filter, Cplx.mul]
  · intro h
    have h1 := List.head_eq_of_cons_eq h
    have := congrArg Cplx.re h1
    norm_num at this

/-- C17 (the code at the failing input). `N = 4`, `dt = 1`, one band with centre
`0` and bandwidth `6`: the located upper index is `12`, and the run
`for (ind = 0; ind < 12; ++ind)` writes the four-bin mask past its end. -/
theorem boxcar_writes_past_end :
    indexOfFrequency (1 : ℚ) ((4 : Nat) : Int) (0 + 6 / 2) = 12 ∧
      constructRangeBandpassBoxcar [(0 : ℚ)] [6] 1 ((4 : Nat) : Int) (List.replicate 4 ⟨0, 0⟩)
        = none :=
  ⟨indexOfFrequency_wide, boxcar_wide_band_fault⟩

/-- C18 (the code at the failing input). On an empty sequence `N_mid` is
`(0 - 1) / 2 + 1 = 1` under truncating division, so the first loop runs once and
writes `freq[0]`, which does not exist: the call faults for every `dt`. -/
theorem fftfreq_empty_writes_bin_zero (dt : ℚ) :
    Int.tdiv ((([] : List ℚ).length : Int) - 1) 2 + 1 = 1 ∧ fftfreq dt [] = none :=
  ⟨by decide, fftfreq_nil dt⟩

/-- C19 (refuted as stated). `N = 4`, `dt = 1`: the axis is `[0, 1/4, -1/2, -1/4]`
and `⌈(N-1)/2⌉ = 2`, but bin `2` holds `-1/2`, which is negative. -/
theorem fftfreq_sign_split_counterexample :
    fftfreq (1 : ℚ) [0, 0, 0, 0] = some [0, 1 / 4, -1 / 2, -1 / 4] ∧
      ⌈(((4 : Nat) : ℚ) - 1) / 2⌉ = 2 ∧
      ([0, 1 / 4, -1 / 2, -1 / 4] : List ℚ)[2]? = some (-1 / 2 : ℚ) ∧
      ¬ (0 ≤ (-1 / 2 : ℚ)) := by
  refine ⟨fftfreq_four, ?_, rfl, by norm_num⟩
  rw [Int.ceil_eq_iff]
  norm_num

/-- C19 (amended). For `N ≥ 1` and `dt > 0`, in the axis built by `fftfreq` the bins
`0..⌊(N-1)/2⌋` are non-negative and strictly increasing, and all remaining bins
are negative and strictly increasing. -/
theorem fftfreq_sign_split (dt : K) (hdt : 0 < dt) (freq : List K) (hN : 1 ≤ freq.length) :
    ∃ out, fftfreq dt freq = some out ∧ out.length = freq.length ∧
      (∀ (i : Nat) (fi : K), i ≤ (freq.length - 1) / 2 → out[i]? = some fi → 0 ≤ fi) ∧
      (∀ (i k : Nat) (fi fk : K), i < k → k ≤ (freq.length - 1) / 2 →
        out[i]? = some fi → out[k]? = some fk → fi < fk) ∧
      (∀ (i : Nat) (fi : K), (freq.length - 1) / 2 < i → out[i]? = some fi → fi < 0) ∧
      (∀ (i k : Nat) (fi fk : K), (freq.length - 1) / 2 < i → i < k →
        out[i]? = some fi → out[k]? = some fk → fi < fk) := by
  obtain ⟨out, ho, hlen, hget⟩ := fftfreq_get dt freq hN
  have hNpos : (0 : K) < (freq.length : K) := by exact_mod_cast hN
  have hs : (0 : K) < 1 / ((freq.length : K) * dt) := by positivity
  have hval : ∀ (i : Nat) (fi : K), out[i]? = some fi →
      i < freq.length ∧ fi = 1 / ((freq.length : K) * dt) * ((signedBin freq.length i : Int) : K) := by
    intro i fi hfi
    have hi : i < freq.length := hlen ▸ lt_length_of_getElem? hfi
    rw [hget i hi] at hfi
    exact ⟨hi, (Option.some.inj hfi).symm⟩
  refine ⟨out, ho, hlen, ?_, ?_, ?_, ?_⟩
  · intro i fi hi hfi
    obtain ⟨_, rfl⟩ := hval i fi hfi
    rw [signedBin_of_lt (by omega)]
    exact mul_nonneg hs.le (by exact_mod_cast Nat.zero_le i)
  · intro i k fi fk hik hk hfi hfk
    obtain ⟨_, rfl⟩ := hval i fi hfi
    obtain ⟨_, rfl⟩ := hval k fk hfk
    rw [signedBin_of_lt (by omega), signedBin_of_lt (by omega)]
    exact mul_lt_mul_of_pos_left (by exact_mod_cast hik) hs
  · intro i fi hi hfi
    obtain ⟨hiN, rfl⟩ := hval i fi hfi
    rw [signedBin_of_ge (by omega)]
    apply mul_neg_of_pos_of_neg hs
    have : (i : Int) - (freq.length : Int) < 0 := by omega
    exact_mod_cast this
  · intro i k fi fk hi hik hfi hfk
    obtain ⟨_, rfl⟩ := hval i fi hfi
    obtain ⟨_, rfl⟩ := hval k fk hfk
    rw [signedBin_of_ge (by omega), signedBin_of_ge (by omega)]
    apply mul_lt_mul_of_pos_left _ hs
    have : (i : Int) - (freq.length : Int) < (k : Int) - (freq.length : Int) := by omega
    exact_mod_cast this

theorem fftfreq_sign_split_witness :
    ∃ out, fftfreq (1 : ℚ) [0, 0, 0, 0] = some out ∧ out.length = [(0 : ℚ), 0, 0, 0].length ∧
      (∀ (i : Nat) (fi : ℚ), i ≤ ([(0 : ℚ), 0, 0, 0].length - 1) / 2 → out[i]? = some fi →
        0 ≤ fi) ∧
      (∀ (i k : Nat) (fi fk : ℚ), i < k → k ≤ ([(0 : ℚ), 0, 0, 0].length - 1) / 2 →
        out[i]? = some fi → out[k]? = some fk → fi < fk) ∧
      (∀ (i : Nat) (fi : ℚ), ([(0 : ℚ), 0, 0, 0].length - 1) / 2 < i → out[i]? = some fi →
        fi < 0) ∧
      (∀ (i k : Nat) (fi fk : ℚ), ([(0 : ℚ), 0, 0, 0].length - 1) / 2 < i → i < k →
        out[i]? = some fi → out[k]? = some fk → fi < fk) :=
  fftfreq_sign_split (1 : ℚ) (by norm_num) [0, 0, 0, 0] (by decide)

/-- C20. For every `filterType` other than `"boxcar"` and `"cosine"`, every
`nrows, ncols ≥ 1`, sampling frequency and sub-band lists,
`constructRangeBandpassFilter` completes and leaves a mask of exactly
`ncols * nrows` elements, every one equal to `0`. -/
theorem rangeFilter_unknown_shape_zero [FloorRing K] (pi : K) (cos : K → K) (fs : K)
    (cs bs : List K) (ncols nrows : Nat) (filterType : String) (_hr : 1 ≤ nrows)
    (hc : 1 ≤ ncols) (hb : filterType ≠ "boxcar") (hcos : filterType ≠ "cosine") :
    ∃ out, constructRangeBandpassFilter pi cos fs cs bs ncols nrows filterType = some out ∧
      out.length = ncols * nrows ∧ ∀ e ∈ out, e = ⟨0, 0⟩ := by
  obtain ⟨axis, ha, _, _⟩ := fftfreq_get (1.0 / fs) (List.replicate ncols 0) (by simpa using hc)
  have h1D : rangeFilter1D pi cos fs cs bs ncols filterType
      = some (List.replicate ncols ⟨0, 0⟩) := by
    unfold rangeFilter1D
    simp only [toSizeT_natCast, ha, Option.some_bind, if_neg hb, if_neg hcos, cplx_zero_literal]
  obtain ⟨out, ho, hol, hget⟩ := rangeFilterBlock_spec (List.replicate ncols (⟨0, 0⟩ : Cplx K))
    ncols nrows (by simp)
  refine ⟨out, ?_, hol, ?_⟩
  · unfold constructRangeBandpassFilter
    rw [h1D]
    exact ho
  · intro e he
    obtain ⟨k, hk⟩ := List.getElem?_of_mem he
    obtain ⟨i, j, hi, hj, rfl⟩ := stride_surj (hol ▸ lt_length_of_getElem? hk)
    rw [hget i j hi hj, List.getElem?_replicate, if_pos hj] at hk
    rw [← Option.some.inj hk]
    simp [Cplx.div]

theorem rangeFilter_unknown_shape_zero_witness :
    ∃ out, constructRangeBandpassFilter Real.pi Real.cos 1 [0] [1] 3 2 "hamming" = some out ∧
      out.length = 3 * 2 ∧ ∀ e ∈ out, e = ⟨0, 0⟩ :=
  rangeFilter_unknown_shape_zero Real.pi Real.cos 1 [0] [1] 3 2 "hamming" (by decide)
    (by decide) (by decide) (by decide)

/-- C21. For every initial mask of length `N` with entries in `{0, 1}` and every
list of sub-bands whose located indices lie in `[0, N]`, the boxcar builder
succeeds and only adds gain: every entry stays in `{0, 1}`; a bin at gain `1`
initially is at gain `1` at the end, and each single band keeps every gain-`1` bin
of any mask it is applied to; the final gain-`1` bins are the initial ones
together with those each band sets on its own on an all-zero mask; and every
reordering of the bands gives the same mask. -/
theorem boxcar_only_adds_gain [FloorRing K] (dt : K) (N : Nat) (cs bs : List K)
    (m : List (Cplx K)) (hm : m.length = N) (h01 : ∀ e ∈ m, e = ⟨0, 0⟩ ∨ e = ⟨1, 0⟩)
    (hlen : cs.length = bs.length)
    (hin : ∀ (i : Nat) (c b : K), cs[i]? = some c → bs[i]? = some b →
      0 ≤ indexOfFrequency dt (N : Int) (c - b / 2) ∧
      indexOfFrequency dt (N : Int) (c - b / 2) ≤ (N : Int) ∧
      0 ≤ indexOfFrequency dt (N : Int) (c + b / 2) ∧
      indexOfFrequency dt (N : Int) (c + b / 2) ≤ (N : Int)) :
    ∃ out, constructRangeBandpassBoxcar cs bs dt (N : Int) m = some out ∧ out.length = N ∧
      (∀ e ∈ out, e = ⟨0, 0⟩ ∨ e = ⟨1, 0⟩) ∧
      (∀ k : Nat, m[k]? = some ⟨1, 0⟩ → out[k]? = some ⟨1, 0⟩) ∧
      (∀ (i : Nat) (c b : K), cs[i]? = some c → bs[i]? = some b →
        ∀ st : List (Cplx K), st.length = N →
          ∃ st', boxcarBand dt (N : Int) c b st = some st' ∧
            ∀ k : Nat, st[k]? = some ⟨1, 0⟩ → st'[k]? = some ⟨1, 0⟩) ∧
      (∀ k : Nat, out[k]? = some ⟨1, 0⟩ ↔
        (m[k]? = some ⟨1, 0⟩ ∨
          ∃ (i : Nat) (c b : K) (own : List (Cplx K)), cs[i]? = some c ∧ bs[i]? = some b ∧
            constructRangeBandpassBoxcar [c] [b] dt (N : Int) (List.replicate N ⟨0, 0⟩)
              = some own ∧ own[k]? = some ⟨1, 0⟩)) ∧
      (∀ cs' bs' : List K, cs'.length = bs'.length → (cs'.zip bs').Perm (cs.zip bs) →
        constructRangeBandpassBoxcar cs' bs' dt (N : Int) m = some out) := by
  have hin3 : ∀ (i : Nat) (c b : K), cs[i]? = some c → bs[i]? = some b →
      0 ≤ indexOfFrequency dt (N : Int) (c - b / 2) ∧
      0 ≤ indexOfFrequency dt (N : Int) (c + b / 2) ∧
      indexOfFrequency dt (N : Int) (c + b / 2) ≤ (N : Int) :=
    fun i c b hc hb => ⟨(hin i c b hc hb).1, (hin i c b hc hb).2.2.1, (hin i c b hc hb).2.2.2⟩
  obtain ⟨out, ho, hol, hget⟩ := constructRangeBandpassBoxcar_spec dt N cs bs m hm hlen hin3
  refine ⟨out, ho, hol, ?_, ?_, ?_, ?_, ?_⟩
  · intro e he
    obtain ⟨k, hk⟩ := List.getElem?_of_mem he
    by_cases hsel : ∃ (i : Nat) (c b : K), cs[i]? = some c ∧ bs[i]? = some b ∧
        boxcarSelects dt N c b k
    · rw [(hget k).1 hsel] at hk
      exact Or.inr (Option.some.inj hk).symm
    · rw [(hget k).2 hsel] at hk
      exact h01 e (List.mem_iff_getElem?.mpr ⟨k, hk⟩)
  · intro k hk
    by_cases hsel : ∃ (i : Nat) (c b : K), cs[i]? = some c ∧ bs[i]? = some b ∧
        boxcarSelects dt N c b k
    · exact (hget k).1 hsel
    · rw [(hget k).2 hsel]
      exact hk
  · intro i c b hc hb st hst
    obtain ⟨h1, h2, h3⟩ := hin3 i c b hc hb
    obtain ⟨st', hst', _, hg⟩ := boxcarBand_selects dt c b N st hst h1 h2 h3
    refine ⟨st', hst', ?_⟩
    intro k hk
    by_cases hsel : boxcarSelects dt N c b k
    · exact (hg k).1 hsel
    · rw [(hg k).2 hsel]
      exact hk
  · intro k
    constructor
    · intro hk
      by_cases hsel : ∃ (i : Nat) (c b : K), cs[i]? = some c ∧ bs[i]? = some b ∧
          boxcarSelects dt N c b k
      · obtain ⟨i, c, b, hc, hb, hs⟩ := hsel
        obtain ⟨h1, h2, h3⟩ := hin3 i c b hc hb
        obtain ⟨own, hown, hiff⟩ := boxcar_own_run dt c b N h1 h2 h3
        exact Or.inr ⟨i, c, b, own, hc, hb, hown, (hiff k).mpr hs⟩
      · rw [(hget k).2 hsel] at hk
        exact Or.inl hk
    · rintro (hk | ⟨i, c, b, own, hc, hb, hown, hk⟩)
      · by_cases hsel : ∃ (i : Nat) (c b : K), cs[i]? = some c ∧ bs[i]? = some b ∧
            boxcarSelects dt N c b k
        · exact (hget k).1 hsel
        · rw [(hget k).2 hsel]
          exact hk
      · obtain ⟨h1, h2, h3⟩ := hin3 i c b hc hb
        obtain ⟨own', hown', hiff⟩ := boxcar_own_run dt c b N h1 h2 h3
        rw [hown] at hown'
        rw [Option.some.inj hown'] at hk
        exact (hget k).1 ⟨i, c, b, hc, hb, (hiff k).mp hk⟩
  · intro cs' bs' hlen' hperm
    have hmem : ∀ c b : K, (∃ i : Nat, cs'[i]? = some c ∧ bs'[i]? = some b) ↔
        ∃ i : Nat, cs[i]? = some c ∧ bs[i]? = some b := by
      intro c b
      rw [exists_band_iff_mem_zip, exists_band_iff_mem_zip]
      exact hperm.mem_iff
    have hin' : ∀ (i : Nat) (c b : K), cs'[i]? = some c → bs'[i]? = some b →
        0 ≤ indexOfFrequency dt (N : Int) (c - b / 2) ∧
        0 ≤ indexOfFrequency dt (N : Int) (c + b / 2) ∧
        indexOfFrequency dt (N : Int) (c + b / 2) ≤ (N : Int) := by
      intro i c b hc hb
      obtain ⟨j, hcj, hbj⟩ := (hmem c b).mp ⟨i, hc, hb⟩
      exact hin3 j c b hcj hbj
    obtain ⟨out', ho', hol', hget'⟩ :=
      constructRangeBandpassBoxcar_spec dt N cs' bs' m hm hlen' hin'
    rw [ho']
    congr 1
    apply List.ext_getElem?
    intro k
    by_cases hsel : ∃ (i : Nat) (c b : K), cs[i]? = some c ∧ bs[i]? = some b ∧
        boxcarSelects dt N c b k
    · have hsel' : ∃ (i : Nat) (c b : K), cs'[i]? = some c ∧ bs'[i]? = some b ∧
          boxcarSelects dt N c b k := by
        obtain ⟨i, c, b, hc, hb, hs⟩ := hsel
        obtain ⟨j, hcj, hbj⟩ := (hmem c b).mpr ⟨i, hc, hb⟩
        exact ⟨j, c, b, hcj, hbj, hs⟩
      rw [(hget k).1 hsel, (hget' k).1 hsel']
    · have hsel' : ¬ ∃ (i : Nat) (c b : K), cs'[i]? = some c ∧ bs'[i]? = some b ∧
          boxcarSelects dt N c b k := by
        rintro ⟨i, c, b, hc, hb, hs⟩
        obtain ⟨j, hcj, hbj⟩ := (hmem c b).mp ⟨i, hc, hb⟩
        exact hsel ⟨j, c, b, hcj, hbj, hs⟩
      rw [(hget k).2 hsel, (hget' k).2 hsel']

theorem boxcar_only_adds_gain_witness :
    ∃ out, constructRangeBandpassBoxcar [(0 : ℚ)] [1 / 2] 1 ((4 : Nat) : Int)
        [⟨0, 0⟩, ⟨1, 0⟩, ⟨0, 0⟩, ⟨0, 0⟩] = some out ∧ out.length = 4 ∧
      (∀ e ∈ out, e = ⟨0, 0⟩ ∨ e = ⟨1, 0⟩) ∧
      (∀ k : Nat, ([⟨0, 0⟩, ⟨1, 0⟩, ⟨0, 0⟩, ⟨0, 0⟩] : List (Cplx ℚ))[k]? = some ⟨1, 0⟩ →
        out[k]? = some ⟨1, 0⟩) ∧
      (∀ (i : Nat) (c b : ℚ), [(0 : ℚ)][i]? = some c → [(1 / 2 : ℚ)][i]? = some b →
        ∀ st : List (Cplx ℚ), st.length = 4 →
          ∃ st', boxcarBand 1 ((4 : Nat) : Int) c b st = some st' ∧
            ∀ k : Nat, st[k]? = some ⟨1, 0⟩ → st'[k]? = some ⟨1, 0⟩) ∧
      (∀ k : Nat, out[k]? = some ⟨1, 0⟩ ↔
        (([⟨0, 0⟩, ⟨1, 0⟩, ⟨0, 0⟩, ⟨0, 0⟩] : List (Cplx ℚ))[k]? = some ⟨1, 0⟩ ∨
          ∃ (i : Nat) (c b : ℚ) (own : List (Cplx ℚ)), [(0 : ℚ)][i]? = some c ∧
            [(1 / 2 : ℚ)][i]? = some b ∧
            constructRangeBandpassBoxcar [c] [b] 1 ((4 : Nat) : Int) (List.replicate 4 ⟨0, 0⟩)
              = some own ∧ own[k]? = some ⟨1, 0⟩)) ∧
      (∀ cs' bs' : List ℚ, cs'.length = bs'.length →
        (cs'.zip bs').Perm ([(0 : ℚ)].zip [(1 / 2 : ℚ)]) →
        constructRangeBandpassBoxcar cs' bs' 1 ((4 : Nat) : Int)
          [⟨0, 0⟩, ⟨1, 0⟩, ⟨0, 0⟩, ⟨0, 0⟩] = some out) :=
  boxcar_only_adds_gain (1 : ℚ) 4 [0] [1 / 2] [⟨0, 0⟩, ⟨1, 0⟩, ⟨0, 0⟩, ⟨0, 0⟩] rfl
    (by
      intro e he
      simp only [List.mem_cons, List.mem_singleton, List.not_mem_nil, or_false] at he
      rcases he with h | h | h | h <;> simp [h])
    rfl
    (by
      intro i c b hc hb
      have hi : i < 1 := lt_length_of_getElem? hc
      have hi0 : i = 0 := by omega
      subst hi0
      have hc' : c = 0 := (Option.some.inj hc).symm
      have hb' : b = 1 / 2 := (Option.some.inj hb).symm
      subst hc' hb'
      unfold indexOfFrequency cround
      norm_num)

/-- C22 (refuted as stated). For the sub-band list `{(0, 6)}` at sampling frequency
`1` on a block of four columns and two rows, `initiateRangeFilter` leaves a signal
(here, with transforms that return their arguments, the input block), while the
signal-taking `constructRangeBandpassFilter` writes the one-dimensional mask past
its end before any transform is called and leaves no defined state. -/
theorem entry_point_wide_band_counterexample :
    constructRangeBandpassFilterSignal Real.pi Real.cos (fun a b _ _ => (a, b))
        (fun a b _ _ => (a, b)) 1 [0] [6] (List.replicate 8 ⟨1, 0⟩) (List.replicate 8 ⟨0, 0⟩)
        4 2 "boxcar" = none ∧
      initiateRangeFilter (fun a b _ _ => (a, b)) (fun a b _ _ => (a, b))
        (List.replicate 8 (⟨1, 0⟩ : Cplx ℝ)) (List.replicate 8 ⟨0, 0⟩) 4 2
        = (List.replicate 8 ⟨1, 0⟩, List.replicate 8 ⟨0, 0⟩) := by
  constructor
  · unfold constructRangeBandpassFilterSignal
    rw [rangeFilter_wide_band_fault]
    rfl
  · rfl

/-- C22 (amended). For any transform collaborator and every signal block: whenever
the one-dimensional range mask is built without an out-of-range access, the
signal-taking `constructRangeBandpassFilter` returns, and leaves `signal` and
`spectrum` exactly as `initiateRangeFilter` leaves them; for `nrows ≥ 1`,
`constructAzimuthCommonbandFilter` returns and leaves them exactly as
`initiateAzimuthFilter` does.  The mask never enters the transforms, so the
output does not depend on the filter parameters. -/
theorem entry_points_leave_round_trip [FloorRing K] (pi : K) (cos : K → K)
    (forwardRangeFFT inverseRangeFFT forwardAzimuthFFT inverseAzimuthFFT :
      List (Cplx K) → List (Cplx K) → Nat → Nat → List (Cplx K) × List (Cplx K))
    (signal spectrum : List (Cplx K)) (ncols nrows : Nat)
    (fs : K) (cs bs : List K) (filterType : String) (mask1D : List (Cplx K))
    (h1D : rangeFilter1D pi cos fs cs bs ncols filterType = some mask1D)
    (ref sec : K → K) (bandwidth prf beta : K) (hr : 1 ≤ nrows) :
    (∃ mask, constructRangeBandpassFilterSignal pi cos forwardRangeFFT inverseRangeFFT fs cs bs
        signal spectrum ncols nrows filterType =
        some ((initiateRangeFilter forwardRangeFFT inverseRangeFFT signal spectrum ncols
            nrows).1,
          (initiateRangeFilter forwardRangeFFT inverseRangeFFT signal spectrum ncols nrows).2,
          mask)) ∧
    (∃ mask, constructAzimuthCommonbandFilterSignal pi cos forwardAzimuthFFT inverseAzimuthFFT
        ref sec bandwidth prf beta signal spectrum ncols nrows =
        some ((initiateAzimuthFilter forwardAzimuthFFT inverseAzimuthFFT signal spectrum ncols
            nrows).1,
          (initiateAzimuthFilter forwardAzimuthFFT inverseAzimuthFFT signal spectrum ncols
            nrows).2,
          mask)) := by
  constructor
  · have hlen := rangeFilter1D_length pi cos fs cs bs ncols filterType mask1D h1D
    obtain ⟨out, ho, _, _⟩ := rangeFilterBlock_spec mask1D ncols nrows hlen
    have hmask : constructRangeBandpassFilter pi cos fs cs bs ncols nrows filterType
        = some out := by
      unfold constructRangeBandpassFilter
      rw [h1D]
      exact ho
    refine ⟨out, ?_⟩
    unfold constructRangeBandpassFilterSignal initiateRangeFilter
    rw [hmask]
    rfl
  · obtain ⟨_, out, _, _, ho, _, _⟩ :=
      constructAzimuthCommonbandFilter_spec pi cos ref sec bandwidth prf beta ncols nrows hr
    refine ⟨out, ?_⟩
    unfold constructAzimuthCommonbandFilterSignal initiateAzimuthFilter
    rw [ho]
    rfl

theorem entry_points_leave_round_trip_witness :
    (∃ mask, constructRangeBandpassFilterSignal Real.pi Real.cos (fun a b _ _ => (b, a))
        (fun a b _ _ => (a, b)) 1 [0] [1] [⟨3, 4⟩] [⟨0, 0⟩] 1 1 "boxcar" =
        some ((initiateRangeFilter (fun a b _ _ => (b, a)) (fun a b _ _ => (a, b))
            [(⟨3, 4⟩ : Cplx ℝ)] [⟨0, 0⟩] 1 1).1,
          (initiateRangeFilter (fun a b _ _ => (b, a)) (fun a b _ _ => (a, b))
            [(⟨3, 4⟩ : Cplx ℝ)] [⟨0, 0⟩] 1 1).2,
          mask)) ∧
    (∃ mask, constructAzimuthCommonbandFilterSignal Real.pi Real.cos (fun a b _ _ => (b, a))
        (fun a b _ _ => (a, b)) (fun _ => 10) (fun _ => 20) 5 100 (1 / 4)
        [⟨3, 4⟩] [⟨0, 0⟩] 1 1 =
        some ((initiateAzimuthFilter (fun a b _ _ => (b, a)) (fun a b _ _ => (a, b))
            [(⟨3, 4⟩ : Cplx ℝ)] [⟨0, 0⟩] 1 1).1,
          (initiateAzimuthFilter (fun a b _ _ => (b, a)) (fun a b _ _ => (a, b))
            [(⟨3, 4⟩ : Cplx ℝ)] [⟨0, 0⟩] 1 1).2,
          mask)) :=
  entry_points_leave_round_trip Real.pi Real.cos (fun a b _ _ => (b, a))
    (fun a b _ _ => (a, b)) (fun a b _ _ => (b, a)) (fun a b _ _ => (a, b))
    [⟨3, 4⟩] [⟨0, 0⟩] 1 1 1 [0] [1] "boxcar" [⟨1, 0⟩] rangeFilter1D_one_column
    (fun _ => 10) (fun _ => 20) 5 100 (1 / 4) (le_refl 1)

/-- C23. For `N ≥ 1`, `dt > 0` and every list of sub-bands (centres and bandwidths
of equal length) in which each band satisfies `-1/(2 dt) ≤ centre - bandwidth/2` and
`centre + bandwidth/2 ≤ 1/(2 dt)` with both band edges within the Nyquist interval
`[-1/(2 dt), 1/(2 dt)]`, `constructRangeBandpassBoxcar` runs on every mask of length
`N` without an access outside `[0, N)`: it returns a mask of length `N`, and both
located indices of every band lie in `[0, N]`. -/
theorem boxcar_nyquist_in_range [FloorRing K] (dt : K) (hdt : 0 < dt) (N : Nat) (hN : 1 ≤ N)
    (cs bs : List K) (hlen : cs.length = bs.length)
    (hny : ∀ (i : Nat) (c b : K), cs[i]? = some c → bs[i]? = some b →
      (-(1 / (2 * dt)) ≤ c - b / 2 ∧ c + b / 2 ≤ 1 / (2 * dt)) ∧
      (c - b / 2 ≤ 1 / (2 * dt) ∧ -(1 / (2 * dt)) ≤ c + b / 2))
    (m : List (Cplx K)) (hm : m.length = N) :
    (∃ out, constructRangeBandpassBoxcar cs bs dt (N : Int) m = some out ∧ out.length = N) ∧
      ∀ (i : Nat) (c b : K), cs[i]? = some c → bs[i]? = some b →
        0 ≤ indexOfFrequency dt (N : Int) (c - b / 2) ∧
        indexOfFrequency dt (N : Int) (c - b / 2) ≤ (N : Int) ∧
        0 ≤ indexOfFrequency dt (N : Int) (c + b / 2) ∧
        indexOfFrequency dt (N : Int) (c + b / 2) ≤ (N : Int) := by
  have hidx : ∀ (i : Nat) (c b : K), cs[i]? = some c → bs[i]? = some b →
      0 ≤ indexOfFrequency dt (N : Int) (c - b / 2) ∧
      indexOfFrequency dt (N : Int) (c - b / 2) ≤ (N : Int) ∧
      0 ≤ indexOfFrequency dt (N : Int) (c + b / 2) ∧
      indexOfFrequency dt (N : Int) (c + b / 2) ≤ (N : Int) := by
    intro i c b hc hb
    obtain ⟨⟨hLlo, hHhi⟩, hLhi, hHlo⟩ := hny i c b hc hb
    obtain ⟨h1, h2⟩ := indexOfFrequency_nyquist dt hdt N hN (c - b / 2) hLlo hLhi
    obtain ⟨h3, h4⟩ := indexOfFrequency_nyquist dt hdt N hN (c + b / 2) hHlo hHhi
    exact ⟨h1, h2, h3, h4⟩
  refine ⟨?_, hidx⟩
  obtain ⟨out, ho, hol, _⟩ := constructRangeBandpassBoxcar_spec dt N cs bs m hm hlen
    (fun i c b hc hb => ⟨(hidx i c b hc hb).1, (hidx i c b hc hb).2.2.1, (hidx i c b hc hb).2.2.2⟩)
  exact ⟨out, ho, hol⟩

theorem boxcar_nyquist_in_range_witness :
    (∃ out, constructRangeBandpassBoxcar [(0 : ℚ), 0] [1, -1 / 2] 1 ((4 : Nat) : Int)
        (List.replicate 4 ⟨0, 0⟩) = some out ∧ out.length = 4) ∧
      ∀ (i : Nat) (c b : ℚ), [(0 : ℚ), 0][i]? = some c → [(1 : ℚ), -1 / 2][i]? = some b →
        0 ≤ indexOfFrequency (1 : ℚ) ((4 : Nat) : Int) (c - b / 2) ∧
        indexOfFrequency (1 : ℚ) ((4 : Nat) : Int) (c - b / 2) ≤ ((4 : Nat) : Int) ∧
        0 ≤ indexOfFrequency (1 : ℚ) ((4 : Nat) : Int) (c + b / 2) ∧
        indexOfFrequency (1 : ℚ) ((4 : Nat) : Int) (c + b / 2) ≤ ((4 : Nat) : Int) :=
  boxcar_nyquist_in_range (1 : ℚ) (by norm_num) 4 (by decide) [0, 0] [1, -1 / 2] rfl
    (by
      intro i c b hc hb
      have hi : i < 2 := lt_length_of_getElem? hc
      have hcases : i = 0 ∨ i = 1 := by omega
      rcases hcases with h | h
      · subst h
        have hc' : c = 0 := (Option.some.inj hc).symm
        have hb' : b = 1 := (Option.some.inj hb).symm
        subst hc' hb'
        norm_num
      · subst h
        have hc' : c = 0 := (Option.some.inj hc).symm
        have hb' : b = -1 / 2 := (Option.some.inj hb).symm
        subst hc' hb'
        norm_num)
    (List.replicate 4 ⟨0, 0⟩) (by simp)

end isce3.signal
